import Mathlib

/-!
# Watchers of `state/watcher.go`

A shallow embedding of the merge functions and select loops of the watchers in
`state/watcher.go`, and the properties of them that the specification states.

Conventions of the embedding:

* a Go slice is a `List` (`nil` and the empty slice are both `[]`, `append(s, x)` is `s ++ [x]`);
* a Go `map[K]V` is a `GoMap K V`, the list of its entries, read with `get`, written with
  `set` and `delete`;
* a watcher method that mutates the watcher's map takes the map and returns the new one
  together with the method's results;
* a method that returns `(value, error)` returns an `Except Error`;
* a mgo collection is a `Collection`: its documents and, when the session is broken, the
  error every query on it returns;
* one iteration of a `select` loop is a step function over the event the `select` picks.
-/

namespace state

/-! ## Data model -/

/-- Go `error` values, by their message. -/
abbrev Error := String

/-- Lifecycle value of an entity: `Alive`, `Dying`, `Dead`. -/
inductive Life where
  | Alive
  | Dying
  | Dead
  deriving DecidableEq, Repr

/-- Position of a `Life` value in the order Alive < Dying < Dead. -/
def Life.rank : Life → Nat
  | .Alive => 0
  | .Dying => 1
  | .Dead => 2

/-- A Go map as the list of its entries. -/
abbrev GoMap (K V : Type) := List (K × V)

namespace GoMap

variable {K V : Type} [DecidableEq K]

/-- The value stored under the key `k`, as in `v, ok := m[k]`. -/
def get : GoMap K V → K → Option V
  | [], _ => none
  | (k', v) :: rest, k => if k' = k then some v else get rest k

/-- The map after `delete(m, k)`. -/
def delete (m : GoMap K V) (k : K) : GoMap K V :=
  m.filter (fun p => decide (p.1 ≠ k))

/-- The map after `m[k] = v`. -/
def set (m : GoMap K V) (k : K) (v : V) : GoMap K V :=
  (k, v) :: delete m k

/-- The keys of the map. -/
def keys (m : GoMap K V) : List K :=
  m.map Prod.fst

end GoMap

/-- A change notification `watcher.Change`: the document id and its revision number,
`-1` when the document was removed. -/
structure Change (K : Type) where
  Id : K
  Revno : Int
  deriving DecidableEq, Repr

/-- Outcome of `FindId(id).One(&doc)`: nil error, `mgo.ErrNotFound`, or another error. -/
inductive FindResult (D : Type) where
  | found (doc : D)
  | notFound
  | failed (err : Error)
  deriving DecidableEq, Repr

/-- A mgo collection: its documents, and the error of its queries when they fail. -/
structure Collection (D : Type) where
  docs : List D
  failure : Option Error

/-- The query `FindId(id).One(&doc)` on a collection whose documents are keyed by `key`. -/
def Collection.FindId {D K : Type} [DecidableEq K] (c : Collection D) (key : D → K) (id : K) :
    FindResult D :=
  match c.failure with
  | some e => .failed e
  | none =>
    match c.docs.find? (fun d => decide (key d = id)) with
    | some d => .found d
    | none => .notFound

/-- Document of the machines collection, restricted to `lifeFields`. -/
structure machineDoc where
  Id : Int
  Life : Life
  deriving DecidableEq, Repr

/-- Document of the services collection, restricted to the fields the watchers read. -/
structure serviceDoc where
  Name : String
  Life : Life
  deriving DecidableEq, Repr

/-- The document that `One(&doc)` leaves in `doc`, which held `dflt` before the call. -/
def FindResult.into {D : Type} (r : FindResult D) (dflt : D) : D :=
  match r with
  | .found doc => doc
  | _ => dflt

/-- Document of the units collection. -/
structure unitDoc where
  Name : String
  Service : String
  Principal : String
  Subordinates : List String
  MachineId : Option Int
  Life : Life
  TxnRevno : Int
  deriving DecidableEq, Repr

/-- The error `tomb.ErrDying`. -/
def ErrDying : Error := "tomb: dying"

/-- The case a `select` of a watcher loop picks: the change source is dead (with the error of
`watcher.MustErr`), the tomb is dying, a change notification arrived (with what the loop reads
while handling it), or the consumer received the value offered on the out channel. -/
inductive SelectEvent (C : Type) where
  | sourceDead (err : Error)
  | dying
  | change (c : C)
  | send

/-- Where a loop stands after an iteration: still running, or returned with an error. -/
inductive Outcome (S : Type) where
  | running (s : S)
  | returned (err : Error)
  deriving DecidableEq, Repr

/-- The loop from `o` on, over the cases its successive `select`s pick; `none` when a picked
case cannot proceed or the loop has returned before the cases are used up. -/
def runLoop {S C : Type} (step : S → SelectEvent C → Option (Outcome S)) :
    Outcome S → List (SelectEvent C) → Option (Outcome S)
  | o, [] => some o
  | .running s, ev :: rest =>
    match step s ev with
    | some o => runLoop step o rest
    | none => none
  | .returned _, _ :: _ => none

/-- What happens to a pending batch between two reads of the consumer: a notification is merged
into it, or it is delivered and the next batch starts empty. -/
inductive Step (A : Type) where
  | merge (a : A)
  | deliver

/-- A sequence of merges and deliveries from the state `s`, stopping at the first error. -/
def runSteps {S A : Type} (apply : S → Step A → Except Error S) : S → List (Step A) → Except Error S
  | s, [] => .ok s
  | s, st :: rest =>
    match apply s st with
    | .ok s1 => runSteps apply s1 rest
    | .error err => .error err

/-- The function `hasString`. -/
def hasString : List String → String → Bool
  | [], _ => false
  | v :: rest, name => if v = name then true else hasString rest name

/-- The function `hasInt`. -/
def hasInt : List Int → Int → Bool
  | [], _ => false
  | v :: rest, id => if v = id then true else hasInt rest id

/-! ## MachinesWatcher -/

namespace MachinesWatcher

/-- The method `MachinesWatcher.initial`: the ids of all machine documents, and the life map
filled with their `Life`. -/
def initial (machines : Collection machineDoc) (life : GoMap Int Life) :
    Except Error (List Int × GoMap Int Life) :=
  let r := machines.docs.foldl
    (fun (acc : List Int × GoMap Int Life) doc => (acc.1 ++ [doc.Id], acc.2.set doc.Id doc.Life))
    ([], life)
  match machines.failure with
  | some err => .error err
  | none => .ok r

/-- The method `MachinesWatcher.merge`. -/
def merge (machines : Collection machineDoc) (life : GoMap Int Life) (ids : List Int)
    (ch : Change Int) : Except Error (List Int × GoMap Int Life) :=
  let id := ch.Id
  if ids.any (fun pending => decide (id = pending)) then
    .ok (ids, life)
  else if ch.Revno = -1 then
    let ids1 := match life.get id with
      | some l => if l ≠ Life.Dead then ids ++ [id] else ids
      | none => ids
    .ok (ids1, life.delete id)
  else
    match machines.FindId machineDoc.Id id with
    | .failed err => .error err
    | r =>
      let doc := r.into { Id := id, Life := Life.Dead }
      if life.get id = none ∨ life.get id ≠ some doc.Life then
        .ok (ids ++ [id], if r = .notFound then life else life.set id doc.Life)
      else
        .ok (ids, life)

/-- Locals of `MachinesWatcher.loop` together with the watcher's life map: the pending ids,
whether `out` is `w.out` (armed) or `nil`, and `w.life`. -/
structure LoopState where
  ids : List Int
  out : Bool
  life : GoMap Int Life
  deriving DecidableEq, Repr

/-- The part of `MachinesWatcher.loop` before the `for`: `newMachinesWatcher` makes the life
map empty, `initial` fills it, and `out` is set to `w.out`. -/
def loopStart (machines : Collection machineDoc) : Outcome LoopState :=
  match initial machines [] with
  | .error err => .returned err
  | .ok (ids, life) => .running { ids := ids, out := true, life := life }

/-- One iteration of the `select` of `MachinesWatcher.loop`; `none` when the selected case
cannot proceed (a send on the `nil` channel). -/
def loopStep (s : LoopState) :
    SelectEvent (Collection machineDoc × Change Int) → Option (Outcome LoopState)
  | .sourceDead err => some (.returned err)
  | .dying => some (.returned ErrDying)
  | .change (machines, c) =>
    match merge machines s.life s.ids c with
    | .error err => some (.returned err)
    | .ok (ids, life) =>
      some (.running { ids := ids, out := if ids.length > 0 then true else s.out, life := life })
  | .send => if s.out then some (.running { ids := [], out := false, life := s.life }) else none

/-- A call of `merge` on the pending ids and life map held in `s`, or a delivery of the pending
ids. -/
def applyStep (s : List Int × GoMap Int Life) :
    Step (Collection machineDoc × Change Int) → Except Error (List Int × GoMap Int Life)
  | .merge (machines, ch) => merge machines s.2 s.1 ch
  | .deliver => .ok ([], s.2)

/-- Whether the step, taken in `s`, appends `id` to the pending ids. -/
def appends (s : List Int × GoMap Int Life) (st : Step (Collection machineDoc × Change Int))
    (id : Int) : Bool :=
  match st with
  | .merge (machines, ch) =>
    match merge machines s.2 s.1 ch with
    | .ok (ids, _) => decide (ids = s.1 ++ [id])
    | .error _ => false
  | .deliver => false

/-- Whether the step is a `merge` for `id` that reads the machine document, finds it with
`Life` Dead, and appends `id`. -/
def appendsFoundDead (s : List Int × GoMap Int Life)
    (st : Step (Collection machineDoc × Change Int)) (id : Int) : Bool :=
  match st with
  | .merge (machines, ch) =>
    decide (ch.Id = id) && decide (ch.Revno ≠ -1) &&
      (match machines.FindId machineDoc.Id id with
       | .found doc => decide (doc.Life = Life.Dead)
       | _ => false) &&
      appends s st id
  | .deliver => false

/-- The `Life` the machines collection stores for `id`, if it has that machine. -/
def lifeOf (machines : Collection machineDoc) (id : Int) : Option Life :=
  (machines.docs.find? (fun d => decide (d.Id = id))).map machineDoc.Life

/-- Every machine of `m1` is, in the later collection `m2`, either removed or at the same or a
later `Life`. -/
def advances (m1 m2 : Collection machineDoc) : Bool :=
  m1.docs.all fun d =>
    match lifeOf m2 d.Id with
    | none => true
    | some l => decide (d.Life.rank ≤ l.rank)

/-- Once the machine `id` is missing from a collection of the history, it is missing from all
the later ones. -/
def goneStaysGone (id : Int) : List (Collection machineDoc) → Bool
  | [] => true
  | m :: rest =>
    ((lifeOf m id).isSome || rest.all (fun m2 => (lifeOf m2 id).isNone)) && goneStaysGone id rest

/-- The successive contents of the machines collection form a history in which `Life` only
advances and a removed machine never reappears. -/
def storeHistory : List (Collection machineDoc) → Bool
  | [] => true
  | m :: rest =>
    rest.all (advances m) && m.docs.all (fun d => goneStaysGone d.Id rest) && storeHistory rest

/-- The collections read by the `merge` steps of a trace, in order. -/
def storesOf : List (Step (Collection machineDoc × Change Int)) → List (Collection machineDoc)
  | [] => []
  | .merge (machines, _) :: rest => machines :: storesOf rest
  | .deliver :: rest => storesOf rest

/-- The step is a removal notification (revno `-1`) for `id`. -/
def isRemoval (id : Int) : Step (Collection machineDoc × Change Int) → Bool
  | .merge (_, ch) => decide (ch.Id = id) && decide (ch.Revno = -1)
  | .deliver => false

/-- The step is a notification for `id` with a revno other than `-1`. -/
def isUpdate (id : Int) : Step (Collection machineDoc × Change Int) → Bool
  | .merge (_, ch) => decide (ch.Id = id) && decide (ch.Revno ≠ -1)
  | .deliver => false

/-- No notification for `id` with a revno other than `-1` comes after a removal notification
for `id`. A revno other than `-1` is the revision of a document that exists, and `-1` reports
its removal, so this is what the notifications of a store in which a removed machine never
reappears are like. -/
def removalFinal (id : Int) : List (Step (Collection machineDoc × Change Int)) → Bool
  | [] => true
  | st :: rest => (!isRemoval id st || rest.all (fun st2 => !isUpdate id st2)) && removalFinal id rest

end MachinesWatcher

/-! ## ServicesWatcher and ServiceUnitsWatcher -/

namespace ServicesWatcher

/-- The method `ServicesWatcher.merge`. -/
def merge (services : Collection serviceDoc) (known : GoMap String Life) (pending : List String)
    (name : String) : Except Error (List String × GoMap String Life) :=
  match services.FindId serviceDoc.Name name with
  | .failed err => .error err
  | .notFound =>
    match known.get name with
    | some life =>
      if life ≠ Life.Dead ∧ hasString pending name = false then
        .ok (pending ++ [name], known.delete name)
      else
        .ok (pending, known.delete name)
    | none => .ok (pending, known.delete name)
  | .found doc =>
    match known.get name with
    | none => .ok (pending ++ [name], known.set name doc.Life)
    | some life =>
      if life = doc.Life ∨ hasString pending name = true then
        .ok (pending, known.set name doc.Life)
      else
        .ok (pending ++ [name], known.set name doc.Life)

/-- The method `ServicesWatcher.initial`. -/
def initial (services : Collection serviceDoc) (known : GoMap String Life) :
    Except Error (List String × GoMap String Life) :=
  let r := services.docs.foldl
    (fun (acc : List String × GoMap String Life) doc =>
      (acc.1 ++ [doc.Name], acc.2.set doc.Name doc.Life))
    ([], known)
  let err : Option Error := none
  match services.failure with
  | some _ =>
    match err with
    | some e => .error e
    | none => .ok ([], r.2)
  | none => .ok r

/-- Locals of `ServicesWatcher.loop` together with the watcher's known map. -/
structure LoopState where
  changes : List String
  out : Bool
  known : GoMap String Life
  deriving DecidableEq, Repr

/-- The part of `ServicesWatcher.loop` before the `for`. -/
def loopStart (services : Collection serviceDoc) : Outcome LoopState :=
  match initial services [] with
  | .error err => .returned err
  | .ok (changes, known) => .running { changes := changes, out := true, known := known }

/-- One iteration of the `select` of `ServicesWatcher.loop`; `none` when the selected case
cannot proceed (a send on the `nil` channel). -/
def loopStep (s : LoopState) :
    SelectEvent (Collection serviceDoc × Change String) → Option (Outcome LoopState)
  | .sourceDead err => some (.returned err)
  | .dying => some (.returned ErrDying)
  | .change (services, c) =>
    let name := c.Id
    match merge services s.known s.changes name with
    | .error err => some (.returned err)
    | .ok (changes, known) =>
      some (.running
        { changes := changes, out := if changes.length > 0 then true else s.out, known := known })
  | .send =>
    if s.out then some (.running { changes := [], out := false, known := s.known }) else none

/-- A call of `merge` on the pending names and known map held in `s`, or a delivery of the
pending names. -/
def applyStep (s : List String × GoMap String Life) :
    Step (Collection serviceDoc × String) → Except Error (List String × GoMap String Life)
  | .merge (services, name) => merge services s.2 s.1 name
  | .deliver => .ok ([], s.2)

end ServicesWatcher

namespace ServiceUnitsWatcher

/-- The method `ServiceUnitsWatcher.merge`. -/
def merge (units : Collection unitDoc) (known : GoMap String Life) (pending : List String)
    (name : String) : Except Error (List String × GoMap String Life) :=
  match units.FindId unitDoc.Name name with
  | .failed err => .error err
  | .notFound =>
    match known.get name with
    | some life =>
      if life ≠ Life.Dead ∧ hasString pending name = false then
        .ok (pending ++ [name], known.delete name)
      else
        .ok (pending, known.delete name)
    | none => .ok (pending, known.delete name)
  | .found doc =>
    match known.get name with
    | none => .ok (pending ++ [name], known.set name doc.Life)
    | some life =>
      if life = doc.Life ∨ hasString pending name = true then
        .ok (pending, known.set name doc.Life)
      else
        .ok (pending ++ [name], known.set name doc.Life)

/-- The method `ServiceUnitsWatcher.initial`, for the service named `service`. -/
def initial (units : Collection unitDoc) (service : String) (known : GoMap String Life) :
    Except Error (List String × GoMap String Life) :=
  let r := (units.docs.filter (fun d => decide (d.Service = service))).foldl
    (fun (acc : List String × GoMap String Life) doc =>
      (acc.1 ++ [doc.Name], acc.2.set doc.Name doc.Life))
    ([], known)
  let err : Option Error := none
  match units.failure with
  | some _ =>
    match err with
    | some e => .error e
    | none => .ok ([], r.2)
  | none => .ok r

/-- A call of `merge` on the pending names and known map held in `s`, or a delivery of the
pending names. -/
def applyStep (s : List String × GoMap String Life) :
    Step (Collection unitDoc × String) → Except Error (List String × GoMap String Life)
  | .merge (units, name) => merge units s.2 s.1 name
  | .deliver => .ok ([], s.2)

end ServiceUnitsWatcher

/-! ## RelationScopeWatcher -/

/-- The function `strings.HasPrefix`, on the characters of the two strings; for strings that
are valid UTF-8 this is the bytewise test of Go. -/
def HasPrefix (s pre : String) : Bool :=
  pre.data.isPrefixOf s.data

/-- Document of the relation scopes collection. -/
structure relationScopeDoc where
  Key : String
  deriving DecidableEq, Repr

/-- The type `RelationScopeChange`. -/
structure RelationScopeChange where
  Entered : List String
  Left : List String
  deriving DecidableEq, Repr

/-- The fields of `RelationScopeWatcher` that its merge reads and writes; `scopePrefix` is the
field `prefix`. -/
structure RelationScopeWatcher where
  scopePrefix : String
  ignore : String
  knownUnits : GoMap String Bool
  deriving DecidableEq, Repr

/-- The function `newRelationScopeWatcher`, as far as the fields are concerned. -/
def newRelationScopeWatcher (scope ignore : String) : RelationScopeWatcher :=
  { scopePrefix := scope ++ "#", ignore := ignore, knownUnits := [] }

namespace RelationScopeWatcher

/-- The map read `w.knownUnits[name]`, false for a missing key. -/
def isKnown (w : RelationScopeWatcher) (name : String) : Bool :=
  (w.knownUnits.get name).getD false

/-- The method `RelationScopeWatcher.mergeChange`. The method `relationScopeDoc.unitName` is
declared outside `watcher.go` and is the parameter `unitName`, from the key to the unit name. -/
def mergeChange (unitName : String → String) (w : RelationScopeWatcher)
    (changes : RelationScopeChange) (ch : Change String) :
    Except Error (RelationScopeChange × RelationScopeWatcher) :=
  let doc : relationScopeDoc := { Key := ch.Id }
  if HasPrefix doc.Key w.scopePrefix = false then
    .ok (changes, w)
  else
    let name := unitName doc.Key
    if name = w.ignore then
      .ok (changes, w)
    else if ch.Revno = -1 then
      if w.isKnown name then
        .ok ({ changes with Left := changes.Left ++ [name] },
             { w with knownUnits := w.knownUnits.delete name })
      else
        .ok (changes, w)
    else if w.isKnown name = false then
      .ok ({ changes with Entered := changes.Entered ++ [name] },
           { w with knownUnits := w.knownUnits.set name true })
    else
      .ok (changes, w)

/-- The method `RelationScopeWatcher.getInitialEvent`; `queried` is the outcome of the query
`Find(sel).All(&docs)` on the relation scopes collection. -/
def getInitialEvent (unitName : String → String) (w : RelationScopeWatcher)
    (queried : Except Error (List relationScopeDoc)) :
    Except Error (RelationScopeChange × RelationScopeWatcher) :=
  match queried with
  | .error err => .error err
  | .ok docs =>
    .ok (docs.foldl
      (fun (acc : RelationScopeChange × RelationScopeWatcher) doc =>
        let name := unitName doc.Key
        if name ≠ acc.2.ignore then
          ({ acc.1 with Entered := acc.1.Entered ++ [name] },
           { acc.2 with knownUnits := acc.2.knownUnits.set name true })
        else acc)
      ({ Entered := [], Left := [] }, w))

/-- A call of `mergeChange` on the pending change and watcher held in `s`, or a delivery of the
pending change, after which the next one starts as `&RelationScopeChange{}`. -/
def applyStep (unitName : String → String) (s : RelationScopeChange × RelationScopeWatcher) :
    Step (Change String) → Except Error (RelationScopeChange × RelationScopeWatcher)
  | .merge ch => mergeChange unitName s.2 s.1 ch
  | .deliver => .ok ({ Entered := [], Left := [] }, s.2)

/-- Successive calls of `mergeChange` on one pending change, stopping at the first error. -/
def mergeChanges (unitName : String → String) :
    RelationScopeWatcher → RelationScopeChange → List (Change String) →
      Except Error (RelationScopeChange × RelationScopeWatcher)
  | w, changes, [] => .ok (changes, w)
  | w, changes, ch :: rest =>
    match mergeChange unitName w changes ch with
    | .ok (changes1, w1) => mergeChanges unitName w1 changes1 rest
    | .error err => .error err

end RelationScopeWatcher

/-! ## RelationUnitsWatcher -/

/-- The type `UnitSettings`, built in `mergeSettings` as `UnitSettings{node.txnRevno, node.Map()}`:
the revision number of a settings node and its map. -/
structure UnitSettings where
  Version : Int
  Settings : GoMap String String
  deriving DecidableEq, Repr

/-- What `readSettings` returns on success, as far as the watchers read it: the `txnRevno` of
the settings node and the map `node.Map()`. -/
structure SettingsNode where
  txnRevno : Int
  map : GoMap String String
  deriving DecidableEq, Repr

/-- The identifier a watcher passes to `Watch` or `Unwatch` of the change source, an
`interface{}` in Go: a document name, or a `Life` value. -/
inductive WatchId where
  | name (s : String)
  | life (l : Life)
  deriving DecidableEq, Repr

/-- A call a watcher makes on the change source `w.st.watcher` for documents of one collection:
`Watch(collection, id, revno, ch)` or `Unwatch(collection, id, ch)`. -/
inductive WatchCall where
  | Watch (id : WatchId) (revno : Int)
  | Unwatch (id : WatchId)
  deriving DecidableEq, Repr

/-- Whether the document `id` is subscribed on the change source after the calls, in order: its
last call, if any, is a `Watch`. -/
def subscribed (calls : List WatchCall) (id : WatchId) : Bool :=
  calls.foldl
    (fun b call =>
      match call with
      | .Watch id1 _ => if id1 = id then true else b
      | .Unwatch id1 => if id1 = id then false else b)
    false

/-- The type `RelationUnitsChange`; `Changed` is `none` for the `nil` map. -/
structure RelationUnitsChange where
  Joined : List String
  Changed : Option (GoMap String UnitSettings)
  Departed : List String
  deriving DecidableEq, Repr

/-- The entry `changes.Changed[name]`, if there is one. -/
def RelationUnitsChange.changed (changes : RelationUnitsChange) (name : String) :
    Option UnitSettings :=
  match changes.Changed with
  | none => none
  | some m => m.get name

/-- The method `RelationUnitsChange.empty`; `len` of the `nil` map is 0. -/
def RelationUnitsChange.empty (changes : RelationUnitsChange) : Bool :=
  changes.Joined.length + (match changes.Changed with | none => 0 | some m => m.length) +
    changes.Departed.length == 0

/-- The function `remove`: the first element equal to `s` is overwritten with the last element
and the slice is cut by one. -/
def remove : List String → String → List String
  | [], _ => []
  | v :: rest, s =>
    if s = v then
      match rest.getLast? with
      | none => []
      | some last => last :: rest.dropLast
    else v :: remove rest s

/-- The fields of `RelationUnitsWatcher` that its merges read and write: the scope watcher `sw`
(for its prefix), the `watching` set, and the calls made on the change source for the settings
collection. -/
structure RelationUnitsWatcher where
  sw : RelationScopeWatcher
  watching : GoMap String Bool
  calls : List WatchCall
  deriving DecidableEq, Repr

namespace RelationUnitsWatcher

/-- The method `RelationUnitsWatcher.mergeSettings`. The function `readSettings` and the method
`relationScopeDoc.unitName` are declared outside `watcher.go` and are parameters: the settings
store as it is read at this call, and the function from the key to the unit name. -/
def mergeSettings (unitName : String → String) (readSettings : String → Except Error SettingsNode)
    (changes : RelationUnitsChange) (key : String) : Except Error (Int × RelationUnitsChange) :=
  match readSettings key with
  | .error err => .error err
  | .ok node =>
    let name := unitName key
    let settings : UnitSettings := { Version := node.txnRevno, Settings := node.map }
    match changes.Changed with
    | none => .ok (node.txnRevno, { changes with Changed := some [(name, settings)] })
    | some m => .ok (node.txnRevno, { changes with Changed := some (m.set name settings) })

/-- The first `for` of `mergeScope`, over `c.Entered`. -/
def mergeEntered (unitName : String → String) (readSettings : String → Except Error SettingsNode) :
    List String → RelationUnitsChange × RelationUnitsWatcher →
      Except Error (RelationUnitsChange × RelationUnitsWatcher)
  | [], s => .ok s
  | name :: rest, (changes, w) =>
    let key := w.sw.scopePrefix ++ name
    match mergeSettings unitName readSettings changes key with
    | .error err => .error err
    | .ok (revno, changes1) =>
      let changes2 : RelationUnitsChange :=
        { changes1 with
          Joined := changes1.Joined ++ [name], Departed := remove changes1.Departed name }
      mergeEntered unitName readSettings rest
        (changes2,
         { w with calls := w.calls ++ [.Watch (.name key) revno],
                  watching := w.watching.set key true })

/-- The second `for` of `mergeScope`, over `c.Left`. -/
def mergeLeft : List String → RelationUnitsChange × RelationUnitsWatcher →
    RelationUnitsChange × RelationUnitsWatcher
  | [], s => s
  | name :: rest, (changes, w) =>
    let key := w.sw.scopePrefix ++ name
    let changes1 : RelationUnitsChange :=
      { Joined := remove changes.Joined name,
        Changed := match changes.Changed with
          | none => none
          | some m => some (m.delete name),
        Departed := changes.Departed ++ [name] }
    mergeLeft rest
      (changes1,
       { w with calls := w.calls ++ [.Unwatch (.name key)], watching := w.watching.delete key })

/-- The method `RelationUnitsWatcher.mergeScope`. -/
def mergeScope (unitName : String → String) (readSettings : String → Except Error SettingsNode)
    (w : RelationUnitsWatcher) (changes : RelationUnitsChange) (c : RelationScopeChange) :
    Except Error (RelationUnitsChange × RelationUnitsWatcher) :=
  match mergeEntered unitName readSettings c.Entered (changes, w) with
  | .error err => .error err
  | .ok s => .ok (mergeLeft c.Left s)

/-- What `RelationUnitsWatcher.loop` receives besides the signals of the change source and the
tomb: a scope change from `w.sw.Changes()`, the closing of that channel (with the error of
`watcher.MustErr(w.sw)`), or a settings change from `w.updates` with the key `c.Id`. -/
inductive Input where
  | scope (c : RelationScopeChange)
  | scopeClosed (err : Error)
  | update (key : String)

/-- Locals of `RelationUnitsWatcher.loop` together with the watcher's fields. -/
structure LoopState where
  sentInitial : Bool
  changes : RelationUnitsChange
  out : Bool
  w : RelationUnitsWatcher
  deriving DecidableEq, Repr

/-- The part of `RelationUnitsWatcher.loop` before the `for`, on the watcher that
`newRelationUnitsWatcher` makes for the scope watcher `sw`. -/
def loopStart (sw : RelationScopeWatcher) : LoopState :=
  { sentInitial := false, changes := { Joined := [], Changed := none, Departed := [] },
    out := false, w := { sw := sw, watching := [], calls := [] } }

/-- One iteration of the `select` of `RelationUnitsWatcher.loop`; a change comes with the
settings store as it is read while the change is handled. -/
def loopStep (unitName : String → String) (s : LoopState) :
    SelectEvent ((String → Except Error SettingsNode) × Input) → Option (Outcome LoopState)
  | .sourceDead err => some (.returned err)
  | .dying => some (.returned ErrDying)
  | .change (_, .scopeClosed err) => some (.returned err)
  | .change (readSettings, .scope c) =>
    match mergeScope unitName readSettings s.w s.changes c with
    | .error err => some (.returned err)
    | .ok (changes, w) =>
      some (.running
        { s with changes := changes, w := w,
                 out := if !s.sentInitial || !changes.empty then true else false })
  | .change (readSettings, .update key) =>
    match mergeSettings unitName readSettings s.changes key with
    | .error err => some (.returned err)
    | .ok (_, changes) => some (.running { s with changes := changes, out := true })
  | .send =>
    if s.out then
      some (.running
        { s with sentInitial := true, changes := { Joined := [], Changed := none, Departed := [] },
                 out := false })
    else none

end RelationUnitsWatcher

/-! ## UnitWatcher and ServiceWatcher -/

namespace UnitWatcher

/-- The part of `UnitWatcher.loop` before the `for`; `fetched` is the outcome of
`w.st.Unit(name)`. The state of the loop is the local `unit`, `none` for `nil`. -/
def loopStart (fetched : Except Error unitDoc) : Outcome (Option unitDoc) :=
  match fetched with
  | .error err => .returned err
  | .ok unit => .running (some unit)

/-- One iteration of `UnitWatcher.loop`: the `select` of the inner `for` while `unit` is not
`nil`, the second `select` otherwise, which has no send case. A change comes with the outcome of
`w.st.Unit(name)`. -/
def loopStep (unit : Option unitDoc) :
    SelectEvent (Except Error unitDoc) → Option (Outcome (Option unitDoc))
  | .sourceDead err => some (.returned err)
  | .dying => some (.returned ErrDying)
  | .change (.error err) => some (.returned err)
  | .change (.ok fetched) => some (.running (some fetched))
  | .send =>
    match unit with
    | some _ => some (.running none)
    | none => none

/-- The value the consumer receives from `w.changeChan` when the `select` picks the event. -/
def delivered (unit : Option unitDoc) : SelectEvent (Except Error unitDoc) → Option unitDoc
  | .send => unit
  | _ => none

end UnitWatcher

namespace ServiceWatcher

/-- The part of `ServiceWatcher.loop` before the `for`; `fetched` is the outcome of
`w.st.Service(name)`. The state of the loop is the local `service`, `none` for `nil`. -/
def loopStart (fetched : Except Error serviceDoc) : Outcome (Option serviceDoc) :=
  match fetched with
  | .error err => .returned err
  | .ok service => .running (some service)

/-- One iteration of `ServiceWatcher.loop`: the `select` of the inner `for` while `service` is
not `nil`, the second `select` otherwise, which has no send case. A change comes with the outcome
of `w.st.Service(name)`. -/
def loopStep (service : Option serviceDoc) :
    SelectEvent (Except Error serviceDoc) → Option (Outcome (Option serviceDoc))
  | .sourceDead err => some (.returned err)
  | .dying => some (.returned ErrDying)
  | .change (.error err) => some (.returned err)
  | .change (.ok fetched) => some (.running (some fetched))
  | .send =>
    match service with
    | some _ => some (.running none)
    | none => none

/-- The value the consumer receives from `w.changeChan` when the `select` picks the event. -/
def delivered (service : Option serviceDoc) :
    SelectEvent (Except Error serviceDoc) → Option serviceDoc
  | .send => service
  | _ => none

end ServiceWatcher

/-! ## MachineUnitsWatcher -/

/-- The fields of `MachineUnitsWatcher` that its merges read and write: the id of the watched
machine `w.machine.doc.Id`, the `known` map, and the calls made on the change source for the
units collection. -/
structure MachineUnitsWatcher where
  machineId : Int
  known : GoMap String Life
  calls : List WatchCall
  deriving DecidableEq, Repr

/-- The zero value `unitDoc{}`. -/
def zeroUnitDoc : unitDoc :=
  { Name := "", Service := "", Principal := "", Subordinates := [], MachineId := none,
    Life := Life.Alive, TxnRevno := 0 }

namespace MachineUnitsWatcher

/-- The inner `for` of the removal branch of `merge`, over `doc.Subordinates`. -/
def removeSubordinates : List String → List String × MachineUnitsWatcher →
    List String × MachineUnitsWatcher
  | [], s => s
  | subunit :: rest, (pending, w) =>
    match w.known.get subunit with
    | some sublife =>
      let w1 : MachineUnitsWatcher :=
        { w with known := w.known.delete subunit,
                 calls := w.calls ++ [.Unwatch (.name subunit)] }
      let pending1 :=
        if sublife ≠ Life.Dead ∧ hasString pending subunit = false then pending ++ [subunit]
        else pending
      removeSubordinates rest (pending1, w1)
    | none => removeSubordinates rest (pending, w)

/-- A `for` over unit names that calls `merge`, here `mergeUnit`, for each name that is not a
key of `known`, and returns at the first error: the last `for` of `merge` and the `for` of
`updateMachine`. A call that does not return (`none`) makes the loop not return. -/
def mergeUnknown
    (mergeUnit : MachineUnitsWatcher → List String → String →
      Option (Except Error (List String × MachineUnitsWatcher))) :
    List String → List String × MachineUnitsWatcher →
      Option (Except Error (List String × MachineUnitsWatcher))
  | [], s => some (.ok s)
  | unit :: rest, (pending, w) =>
    match w.known.get unit with
    | none =>
      match mergeUnit w pending unit with
      | some (.ok s1) => mergeUnknown mergeUnit rest s1
      | some (.error err) => some (.error err)
      | none => none
    | some _ => mergeUnknown mergeUnit rest (pending, w)

/-- The method `MachineUnitsWatcher.merge`, with a bound on the depth of its recursion: `none`
when the bound is reached. -/
def merge : Nat → Collection unitDoc → MachineUnitsWatcher → List String → String →
    Option (Except Error (List String × MachineUnitsWatcher))
  | 0, _, _, _, _ => none
  | fuel + 1, units, w, pending, unit =>
    match units.FindId unitDoc.Name unit with
    | .failed err => some (.error err)
    | r =>
      let doc := r.into zeroUnitDoc
      if r = .notFound ∨
          (doc.Principal = "" ∧ (doc.MachineId = none ∨ doc.MachineId ≠ some w.machineId)) then
        match w.known.get unit with
        | some life =>
          let w1 : MachineUnitsWatcher :=
            { w with known := w.known.delete unit, calls := w.calls ++ [.Unwatch (.name unit)] }
          let pending1 :=
            if life ≠ Life.Dead ∧ hasString pending unit = false then pending ++ [unit]
            else pending
          some (.ok (removeSubordinates doc.Subordinates (pending1, w1)))
        | none => some (.ok (pending, w))
      else
        let pending1 :=
          match w.known.get unit with
          | none => pending ++ [unit]
          | some life =>
            if life ≠ doc.Life ∧ hasString pending unit = false then pending ++ [unit]
            else pending
        let calls1 :=
          match w.known.get unit with
          | none => w.calls ++ [.Watch (.name unit) doc.TxnRevno]
          | some _ => w.calls
        mergeUnknown (merge fuel units) doc.Subordinates
          (pending1, { w with known := w.known.set unit doc.Life, calls := calls1 })

/-- The method `MachineUnitsWatcher.updateMachine`; `refreshed` is the outcome of
`w.machine.Refresh()`: an error, or the `Principals` of the machine document read. -/
def updateMachine (fuel : Nat) (units : Collection unitDoc) (refreshed : Except Error (List String))
    (w : MachineUnitsWatcher) (pending : List String) :
    Option (Except Error (List String × MachineUnitsWatcher)) :=
  match refreshed with
  | .error err => some (.error err)
  | .ok principals => mergeUnknown (merge fuel units) principals (pending, w)

/-- The calls of the deferred function of `MachineUnitsWatcher.loop`, which runs when the loop
returns: `for _, unit := range w.known` binds `unit` to the values of the map. -/
def loopExit (w : MachineUnitsWatcher) : List WatchCall :=
  w.known.map fun kv => WatchCall.Unwatch (.life kv.2)

/-- What a call leaves in place when it only merges units that are not known: from `s` to `s1`
the pending list is extended, every unit known in `s` keeps its entry in `known` and its number
of occurrences in the pending list, and the calls added on the change source are `Watch` calls
for units that are not known in `s`. -/
def mergesOnlyUnknown (s s1 : List String × MachineUnitsWatcher) : Prop :=
  s1.2.machineId = s.2.machineId ∧
  (∃ more, s1.1 = s.1 ++ more) ∧
  (∀ u, s.2.known.get u ≠ none → s1.2.known.get u = s.2.known.get u) ∧
  (∀ u, s.2.known.get u ≠ none → s1.1.count u = s.1.count u) ∧
  (∃ extra, s1.2.calls = s.2.calls ++ extra ∧
    ∀ call ∈ extra, ∃ v revno, call = WatchCall.Watch (.name v) revno ∧ s.2.known.get v = none)

end MachineUnitsWatcher

/-! ## ServiceRelationsWatcher -/

/-- Document of the relations collection, as far as the watcher reads it: the key (its `_id`),
the id, the `Life`, and the service names of its endpoints. -/
structure relationDoc where
  Key : String
  Id : Int
  Life : Life
  Endpoints : List String
  deriving DecidableEq, Repr

namespace ServiceRelationsWatcher

/-- The method `ServiceRelationsWatcher.initial`, for the service named `service`. -/
def initial (relations : Collection relationDoc) (service : String)
    (known : GoMap String relationDoc) : Except Error (List Int × GoMap String relationDoc) :=
  let r := (relations.docs.filter (fun d => decide (service ∈ d.Endpoints))).foldl
    (fun (acc : List Int × GoMap String relationDoc) doc =>
      (acc.1 ++ [doc.Id], acc.2.set doc.Key doc))
    ([], known)
  let err : Option Error := none
  match relations.failure with
  | some _ =>
    match err with
    | some e => .error e
    | none => .ok ([], r.2)
  | none => .ok r

/-- The method `ServiceRelationsWatcher.merge`. -/
def merge (relations : Collection relationDoc) (known : GoMap String relationDoc)
    (pending : List Int) (key : String) : Except Error (List Int × GoMap String relationDoc) :=
  match relations.FindId relationDoc.Key key with
  | .failed err => .error err
  | .notFound =>
    match known.get key with
    | some old =>
      if old.Life ≠ Life.Dead ∧ hasInt pending old.Id = false then
        .ok (pending ++ [old.Id], known.delete key)
      else
        .ok (pending, known)
    | none => .ok (pending, known)
  | .found doc =>
    match known.get key with
    | none => .ok (pending ++ [doc.Id], known.set key doc)
    | some old =>
      if old.Life = doc.Life ∨ hasInt pending old.Id = true then
        .ok (pending, known.set key doc)
      else
        .ok (pending ++ [doc.Id], known.set key doc)

end ServiceRelationsWatcher

/-! ## settingsWatcher and EnvironConfigWatcher -/

namespace settingsWatcher

/-- Locals of `settingsWatcher.loop`: the settings last read (`none` for `nil`), whether `out`
is `w.out` or `nil`, and the calls made on the change source for the settings collection. -/
structure LoopState where
  settings : Option SettingsNode
  out : Bool
  calls : List WatchCall
  deriving DecidableEq, Repr

/-- The part of `settingsWatcher.loop` before the `for`. The functions `readSettings` and
`IsNotFound` are declared outside `watcher.go`: `read` is the outcome of `readSettings(w.st, key)`
and `IsNotFound` is a parameter. -/
def loopStart (IsNotFound : Error → Bool) (key : String) (read : Except Error SettingsNode) :
    Outcome LoopState :=
  match read with
  | .ok settings =>
    let revno := settings.txnRevno
    .running { settings := some settings, out := if revno = -1 then false else true,
               calls := [.Watch (.name key) revno] }
  | .error err =>
    if IsNotFound err = false then .returned err
    else
      let revno : Int := -1
      .running { settings := none, out := if revno = -1 then false else true,
                 calls := [.Watch (.name key) revno] }

/-- One iteration of the `select` of `settingsWatcher.loop`; a change comes with the outcome of
`readSettings(w.st, key)`. -/
def loopStep (s : LoopState) :
    SelectEvent (Except Error SettingsNode) → Option (Outcome LoopState)
  | .sourceDead err => some (.returned err)
  | .dying => some (.returned ErrDying)
  | .change (.error err) => some (.returned err)
  | .change (.ok settings) => some (.running { s with settings := some settings, out := true })
  | .send => if s.out then some (.running { s with out := false }) else none

/-- The value the consumer receives from `w.out` when the `select` picks the event. -/
def delivered (s : LoopState) : SelectEvent (Except Error SettingsNode) → Option SettingsNode
  | .send => if s.out then s.settings else none
  | _ => none

end settingsWatcher

/-- The type `config.Config`, declared outside `watcher.go`: a validated configuration, of
which only the attributes are kept here. -/
structure Config where
  attrs : GoMap String String
  deriving DecidableEq, Repr

namespace EnvironConfigWatcher

/-- Locals of `EnvironConfigWatcher.loop`: the pointer `cfg` (`none` for `nil`) and whether
`out` is `w.out` or `nil`. -/
structure LoopState where
  cfg : Option Config
  out : Bool
  deriving DecidableEq, Repr

/-- The part of `EnvironConfigWatcher.loop` before the `for`: `cfg` is `&config.Config{}` and
`out` is `nil`. -/
def loopStart : LoopState :=
  { cfg := some { attrs := [] }, out := false }

/-- One iteration of the `select` of `EnvironConfigWatcher.loop`. A change is what
`sw.Changes()` yields: the map of the settings delivered, or the closing of the channel with the
error of `watcher.MustErr(sw)`. The function `config.New` is declared outside `watcher.go` and is
the parameter `New`; on an error it returns a `nil` config. -/
def loopStep (New : GoMap String String → Except Error Config) (s : LoopState) :
    SelectEvent (Except Error (GoMap String String)) → Option (Outcome LoopState)
  | .sourceDead err => some (.returned err)
  | .dying => some (.returned ErrDying)
  | .change (.error err) => some (.returned err)
  | .change (.ok settings) =>
    match New settings with
    | .ok cfg => some (.running { cfg := some cfg, out := true })
    | .error _ => some (.running { cfg := none, out := false })
  | .send => if s.out then some (.running { s with out := false }) else none

/-- The value the consumer receives from `w.out` when the `select` picks the event. -/
def delivered (s : LoopState) : SelectEvent (Except Error (GoMap String String)) → Option Config
  | .send => if s.out then s.cfg else none
  | _ => none

/-- The map of the most recent settings delivery among the events, if there was one. -/
def lastDelivery (evs : List (SelectEvent (Except Error (GoMap String String)))) :
    Option (GoMap String String) :=
  evs.foldl
    (fun acc ev =>
      match ev with
      | .change (.ok settings) => some settings
      | _ => acc)
    none

end EnvironConfigWatcher

/-! ## MachinePrincipalUnitsWatcher -/

/-- The event `MachinePrincipalUnitsChange`, over the type `U` of the unit handles `*Unit`. -/
structure MachinePrincipalUnitsChange (U : Type) where
  Added : List U
  Removed : List U

/-- The field of `MachinePrincipalUnitsWatcher` that `mergeChange` reads and writes. -/
structure MachinePrincipalUnitsWatcher (U : Type) where
  knownUnits : GoMap String U

namespace MachinePrincipalUnitsWatcher

/-- The first `for` of `mergeChange`, over `w.machine.doc.Principals`. Its state is the local map
`units`, whose values are `*Unit` pointers that may be `nil` (`none`), the event `changes` and
the watcher; it returns at the first query that fails. The collection `w.st.units` is
`stUnits`, and `newUnit`, which is declared outside `watcher.go`, is a parameter. -/
def mergePrincipals {U : Type} (newUnit : unitDoc → U) (stUnits : Collection unitDoc) :
    List String →
    GoMap String (Option U) × MachinePrincipalUnitsChange U × MachinePrincipalUnitsWatcher U →
    Except Error
      (GoMap String (Option U) × MachinePrincipalUnitsChange U × MachinePrincipalUnitsWatcher U)
  | [], s => .ok s
  | name :: rest, (units, changes, w) =>
    match w.knownUnits.get name with
    | none =>
      match stUnits.FindId unitDoc.Name name with
      | .notFound => mergePrincipals newUnit stUnits rest (units, changes, w)
      | .failed err => .error err
      | .found doc =>
        let unit := newUnit doc
        mergePrincipals newUnit stUnits rest
          (units.set name (some unit),
           { changes with Added := changes.Added ++ [unit] },
           { w with knownUnits := w.knownUnits.set name unit })
    | some _ => mergePrincipals newUnit stUnits rest (units.set name none, changes, w)

/-- The second `for` of `mergeChange`, `for name, unit := range w.knownUnits`, over the entries
the map has when the loop starts, in the order in which the range visits them; the loop deletes
no entry but the one it is visiting. -/
def removeUnlisted {U : Type} (units : GoMap String (Option U)) :
    List (String × U) → MachinePrincipalUnitsChange U × MachinePrincipalUnitsWatcher U →
    MachinePrincipalUnitsChange U × MachinePrincipalUnitsWatcher U
  | [], s => s
  | (name, unit) :: rest, (changes, w) =>
    match units.get name with
    | none =>
      removeUnlisted units rest
        ({ changes with Removed := changes.Removed ++ [unit] },
         { w with knownUnits := w.knownUnits.delete name })
    | some _ => removeUnlisted units rest (changes, w)

/-- The method `MachinePrincipalUnitsWatcher.mergeChange`; `refreshed` is the outcome of
`w.machine.Refresh()`: an error, or the `Principals` of the machine document read. The method
does not read the change `ch`. It returns the event and the watcher it has written to; when it
returns an error, the loop returns that error and uses neither again. -/
def mergeChange {U : Type} (newUnit : unitDoc → U) (stUnits : Collection unitDoc)
    (refreshed : Except Error (List String)) (w : MachinePrincipalUnitsWatcher U)
    (changes : MachinePrincipalUnitsChange U) :
    Except Error (MachinePrincipalUnitsChange U × MachinePrincipalUnitsWatcher U) :=
  match refreshed with
  | .error err => .error err
  | .ok principals =>
    match mergePrincipals newUnit stUnits principals ([], changes, w) with
    | .error err => .error err
    | .ok (units, changes1, w1) => .ok (removeUnlisted units w1.knownUnits (changes1, w1))

end MachinePrincipalUnitsWatcher

/-! ## Maps and membership -/

namespace GoMap

variable {K V : Type} [DecidableEq K]

theorem delete_cons (p : K × V) (rest : GoMap K V) (k : K) :
    delete (p :: rest) k = if p.1 = k then delete rest k else p :: delete rest k := by
  by_cases h : p.1 = k <;> simp [delete, List.filter_cons, h]

theorem get_cons (p : K × V) (rest : GoMap K V) (k : K) :
    get (p :: rest) k = if p.1 = k then some p.2 else get rest k := by
  obtain ⟨k1, v1⟩ := p
  rfl

theorem get_delete_self (m : GoMap K V) (k : K) : (m.delete k).get k = none := by
  induction m with
  | nil => rfl
  | cons p rest ih =>
    rw [delete_cons]
    by_cases h : p.1 = k
    · rw [if_pos h]; exact ih
    · rw [if_neg h, get_cons, if_neg h]; exact ih

theorem get_delete_ne (m : GoMap K V) {k k2 : K} (h : k2 ≠ k) :
    (m.delete k).get k2 = m.get k2 := by
  induction m with
  | nil => rfl
  | cons p rest ih =>
    rw [delete_cons, get_cons]
    by_cases h1 : p.1 = k
    · have h2 : p.1 ≠ k2 := fun e => h (e ▸ h1)
      rw [if_pos h1, if_neg h2]; exact ih
    · rw [if_neg h1, get_cons]
      by_cases h2 : p.1 = k2
      · rw [if_pos h2, if_pos h2]
      · rw [if_neg h2, if_neg h2]; exact ih

theorem get_set_self (m : GoMap K V) (k : K) (v : V) : (m.set k v).get k = some v := by
  rw [set, get_cons, if_pos rfl]

theorem get_set_ne (m : GoMap K V) {k k2 : K} (v : V) (h : k2 ≠ k) :
    (m.set k v).get k2 = m.get k2 := by
  have h2 : k ≠ k2 := fun e => h e.symm
  rw [set, get_cons, if_neg h2, get_delete_ne m h]

end GoMap

theorem hasString_iff (l : List String) (name : String) : hasString l name = true ↔ name ∈ l := by
  induction l with
  | nil => simp [hasString]
  | cons v rest ih =>
    by_cases h : v = name
    · simp [hasString, h]
    · have h2 : name ≠ v := fun e => h e.symm
      simp [hasString, h, h2, ih]

theorem hasString_eq_false_iff (l : List String) (name : String) :
    hasString l name = false ↔ name ∉ l := by
  rw [← hasString_iff]; simp

/-! ## MachinesWatcher: merge and initial -/

namespace MachinesWatcher

/-- The first loop of `merge` finds the id among the pending ones exactly when it is there. -/
theorem any_pending_iff (ids : List Int) (id : Int) :
    (ids.any fun pending => decide (id = pending)) = true ↔ id ∈ ids := by
  simp only [List.any_eq_true, decide_eq_true_eq]
  constructor
  · rintro ⟨x, hx, rfl⟩; exact hx
  · intro h; exact ⟨id, h, rfl⟩

/-- The call `merge` for an id that is pending. -/
theorem merge_pending (machines : Collection machineDoc) (life : GoMap Int Life)
    (ids : List Int) (ch : Change Int) (hp : ch.Id ∈ ids) :
    merge machines life ids ch = .ok (ids, life) := by
  have h := (any_pending_iff ids ch.Id).mpr hp
  unfold merge
  simp only [h, if_true]

/-- The call `merge` for a removal of an id that is not pending. -/
theorem merge_removed (machines : Collection machineDoc) (life : GoMap Int Life)
    (ids : List Int) (ch : Change Int) (hp : ch.Id ∉ ids) (hr : ch.Revno = -1) :
    merge machines life ids ch =
      .ok (if (∃ l, life.get ch.Id = some l ∧ l ≠ Life.Dead) then ids ++ [ch.Id] else ids,
           life.delete ch.Id) := by
  have h : ¬ (ids.any fun pending => decide (ch.Id = pending)) = true :=
    fun e => hp ((any_pending_iff ids ch.Id).mp e)
  unfold merge
  simp only [h, hr, if_true]
  cases hl : life.get ch.Id with
  | none => simp
  | some l => by_cases hd : l = Life.Dead <;> simp [hd]

/-- The call `merge` for an id that is not pending, when the query fails. -/
theorem merge_failed (machines : Collection machineDoc) (life : GoMap Int Life)
    (ids : List Int) (ch : Change Int) (hp : ch.Id ∉ ids) (hr : ch.Revno ≠ -1) (err : Error)
    (hf : machines.FindId machineDoc.Id ch.Id = .failed err) :
    merge machines life ids ch = .error err := by
  have h : ¬ (ids.any fun pending => decide (ch.Id = pending)) = true :=
    fun e => hp ((any_pending_iff ids ch.Id).mp e)
  unfold merge
  simp only [h, hr, hf]
  rfl

/-- The call `merge` for an id that is not pending, when the machine document is found. -/
theorem merge_found (machines : Collection machineDoc) (life : GoMap Int Life)
    (ids : List Int) (ch : Change Int) (hp : ch.Id ∉ ids) (hr : ch.Revno ≠ -1) (doc : machineDoc)
    (hf : machines.FindId machineDoc.Id ch.Id = .found doc) :
    merge machines life ids ch =
      if life.get ch.Id = some doc.Life then .ok (ids, life)
      else .ok (ids ++ [ch.Id], life.set ch.Id doc.Life) := by
  have h : ¬ (ids.any fun pending => decide (ch.Id = pending)) = true :=
    fun e => hp ((any_pending_iff ids ch.Id).mp e)
  unfold merge
  simp only [h, hr, hf, FindResult.into]
  by_cases hl : life.get ch.Id = some doc.Life
  · simp [hl]
  · cases hl2 : life.get ch.Id with
    | none => simp
    | some l =>
      have : l ≠ doc.Life := fun e => hl (by rw [hl2, e])
      simp [this]

/-- The call `merge` for an id that is not pending, when the machine document is not found. -/
theorem merge_notFound (machines : Collection machineDoc) (life : GoMap Int Life)
    (ids : List Int) (ch : Change Int) (hp : ch.Id ∉ ids) (hr : ch.Revno ≠ -1)
    (hf : machines.FindId machineDoc.Id ch.Id = .notFound) :
    merge machines life ids ch =
      if life.get ch.Id = some Life.Dead then .ok (ids, life)
      else .ok (ids ++ [ch.Id], life) := by
  have h : ¬ (ids.any fun pending => decide (ch.Id = pending)) = true :=
    fun e => hp ((any_pending_iff ids ch.Id).mp e)
  unfold merge
  simp only [h, hr, hf, FindResult.into]
  by_cases hl : life.get ch.Id = some Life.Dead
  · simp [hl]
  · cases hl2 : life.get ch.Id with
    | none => simp
    | some l =>
      have : l ≠ Life.Dead := fun e => hl (by rw [hl2, e])
      simp [this]

/-- A successful `merge` returns the pending ids unchanged, or with the notified id, which was
not pending, appended. -/
theorem merge_shape {machines : Collection machineDoc} {life life1 : GoMap Int Life}
    {ids ids1 : List Int} {ch : Change Int}
    (h : merge machines life ids ch = .ok (ids1, life1)) :
    ids1 = ids ∨ (ids1 = ids ++ [ch.Id] ∧ ch.Id ∉ ids) := by
  by_cases hp : ch.Id ∈ ids
  · rw [merge_pending _ _ _ _ hp] at h
    injection h with h
    injection h with h1 h2
    exact Or.inl h1.symm
  · by_cases hr : ch.Revno = -1
    · rw [merge_removed _ _ _ _ hp hr] at h
      injection h with h
      injection h with h1 h2
      split at h1
      · exact Or.inr ⟨h1.symm, hp⟩
      · exact Or.inl h1.symm
    · cases hf : machines.FindId machineDoc.Id ch.Id with
      | failed err =>
        rw [merge_failed _ _ _ _ hp hr err hf] at h
        cases h
      | notFound =>
        rw [merge_notFound _ _ _ _ hp hr hf] at h
        split at h
        · injection h with h
          injection h with h1 h2
          exact Or.inl h1.symm
        · injection h with h
          injection h with h1 h2
          exact Or.inr ⟨h1.symm, hp⟩
      | found doc =>
        rw [merge_found _ _ _ _ hp hr doc hf] at h
        split at h
        · injection h with h
          injection h with h1 h2
          exact Or.inl h1.symm
        · injection h with h
          injection h with h1 h2
          exact Or.inr ⟨h1.symm, hp⟩

/-- The ids that the loop of `initial` has collected are the ids of the documents, in order. -/
theorem initial_fold_ids (docs : List machineDoc) (acc : List Int × GoMap Int Life) :
    (docs.foldl
      (fun (acc : List Int × GoMap Int Life) doc => (acc.1 ++ [doc.Id], acc.2.set doc.Id doc.Life))
      acc).1 = acc.1 ++ docs.map machineDoc.Id := by
  induction docs generalizing acc with
  | nil => simp
  | cons d rest ih => simp [List.foldl, ih]

/-- The loop of `initial` leaves the entry of an id alone that no document has. -/
theorem initial_fold_get_other (docs : List machineDoc) (acc : List Int × GoMap Int Life)
    (id : Int) (h : id ∉ docs.map machineDoc.Id) :
    (docs.foldl
      (fun (acc : List Int × GoMap Int Life) doc => (acc.1 ++ [doc.Id], acc.2.set doc.Id doc.Life))
      acc).2.get id = acc.2.get id := by
  induction docs generalizing acc with
  | nil => rfl
  | cons d rest ih =>
    simp only [List.map_cons, List.mem_cons, not_or] at h
    simp only [List.foldl]
    rw [ih _ h.2]
    exact GoMap.get_set_ne _ _ h.1

/-- The loop of `initial` stores the `Life` of every document under its id, when ids are
unique. -/
theorem initial_fold_get (docs : List machineDoc) (acc : List Int × GoMap Int Life)
    (huniq : (docs.map machineDoc.Id).Nodup) (d : machineDoc) (hd : d ∈ docs) :
    (docs.foldl
      (fun (acc : List Int × GoMap Int Life) doc => (acc.1 ++ [doc.Id], acc.2.set doc.Id doc.Life))
      acc).2.get d.Id = some d.Life := by
  induction docs generalizing acc with
  | nil => cases hd
  | cons x rest ih =>
    simp only [List.map_cons, List.nodup_cons] at huniq
    simp only [List.foldl]
    rcases List.mem_cons.mp hd with rfl | hmem
    · rw [initial_fold_get_other _ _ _ huniq.1]
      exact GoMap.get_set_self _ _ _
    · exact ih _ huniq.2 hmem

/-- C5: `MachinesWatcher.merge` never introduces a duplicate. For every duplicate-free list of
pending ids, every life map, every content of the machines collection and every change
notification, a successful `merge` returns a duplicate-free list that has the input list as a
prefix and is at most one element longer. -/
theorem merge_no_duplicate (machines : Collection machineDoc) (life life1 : GoMap Int Life)
    (ids ids1 : List Int) (ch : Change Int) (hnd : ids.Nodup)
    (h : merge machines life ids ch = .ok (ids1, life1)) :
    ids1.Nodup ∧ ids <+: ids1 ∧ ids1.length ≤ ids.length + 1 := by
  rcases merge_shape h with rfl | ⟨rfl, hnot⟩
  · exact ⟨hnd, List.prefix_refl _, Nat.le_succ _⟩
  · refine ⟨?_, List.prefix_append _ _, ?_⟩
    · rw [List.nodup_append]
      refine ⟨hnd, List.nodup_singleton _, ?_⟩
      intro a ha hb
      rw [List.mem_singleton] at hb
      exact hnot (hb ▸ ha)
    · simp

/-- C5 at a concrete call: machine 0 is new to the watcher while 1 is pending. -/
theorem merge_no_duplicate_witness :
    [(1 : Int)].Nodup ∧
    merge { docs := [{ Id := 0, Life := Life.Alive }], failure := none } [] [1]
      { Id := 0, Revno := 5 } = .ok ([1, 0], [(0, Life.Alive)]) ∧
    ([(1 : Int), 0].Nodup ∧ [(1 : Int)] <+: [1, 0] ∧ [(1 : Int), 0].length ≤ [(1 : Int)].length + 1) :=
  ⟨by decide, rfl,
    merge_no_duplicate { docs := [{ Id := 0, Life := Life.Alive }], failure := none } []
      [(0, Life.Alive)] [1] [1, 0] { Id := 0, Revno := 5 } (by decide) rfl⟩

/-- C6: `MachinesWatcher.initial`, on the empty life map of a new watcher and a collection whose
iteration succeeds and whose documents have distinct ids, returns the id of every machine
document, each exactly once and whatever its `Life`, and leaves a life map whose keys are exactly
those ids, each mapped to the `Life` stored for that machine. -/
theorem initial_all_machines (machines : Collection machineDoc)
    (hok : machines.failure = none) (huniq : (machines.docs.map machineDoc.Id).Nodup) :
    ∃ ids life, initial machines [] = .ok (ids, life) ∧
      (∀ d ∈ machines.docs, ids.count d.Id = 1) ∧
      (∀ id, id ∈ ids ↔ ∃ d ∈ machines.docs, d.Id = id) ∧
      (∀ d ∈ machines.docs, life.get d.Id = some d.Life) ∧
      (∀ id, life.get id ≠ none ↔ id ∈ ids) := by
  refine ⟨machines.docs.map machineDoc.Id, (machines.docs.foldl
      (fun (acc : List Int × GoMap Int Life) doc => (acc.1 ++ [doc.Id], acc.2.set doc.Id doc.Life))
      ([], [])).2, ?_, ?_, ?_, ?_, ?_⟩
  · unfold initial
    rw [hok]
    simp only
    congr 1
    exact Prod.ext (by simpa using initial_fold_ids machines.docs ([], [])) rfl
  · intro d hd
    exact List.count_eq_one_of_mem huniq (List.mem_map_of_mem _ hd)
  · intro id
    simp [List.mem_map]
  · intro d hd
    exact initial_fold_get machines.docs ([], []) huniq d hd
  · intro id
    constructor
    · intro hne
      by_contra hnot
      exact hne (initial_fold_get_other machines.docs ([], []) id hnot)
    · intro hmem
      obtain ⟨d, hd, rfl⟩ := List.mem_map.mp hmem
      rw [initial_fold_get machines.docs ([], []) huniq d hd]
      simp

/-- C6 on the store of scenario S1 with machine 2 already Dead. -/
theorem initial_all_machines_witness :
    (({ docs := [{ Id := 0, Life := Life.Alive }, { Id := 1, Life := Life.Dying },
          { Id := 2, Life := Life.Dead }], failure := none } : Collection machineDoc).failure = none) ∧
    ((({ docs := [{ Id := 0, Life := Life.Alive }, { Id := 1, Life := Life.Dying },
          { Id := 2, Life := Life.Dead }], failure := none } :
          Collection machineDoc).docs.map machineDoc.Id).Nodup) ∧
    ∃ ids life, initial { docs := [{ Id := 0, Life := Life.Alive }, { Id := 1, Life := Life.Dying },
          { Id := 2, Life := Life.Dead }], failure := none } [] = .ok (ids, life) ∧
      (∀ d ∈ ({ docs := [{ Id := 0, Life := Life.Alive }, { Id := 1, Life := Life.Dying },
          { Id := 2, Life := Life.Dead }], failure := none } : Collection machineDoc).docs,
          ids.count d.Id = 1) ∧
      (∀ id, id ∈ ids ↔ ∃ d ∈ ({ docs := [{ Id := 0, Life := Life.Alive },
          { Id := 1, Life := Life.Dying }, { Id := 2, Life := Life.Dead }], failure := none } :
          Collection machineDoc).docs, d.Id = id) ∧
      (∀ d ∈ ({ docs := [{ Id := 0, Life := Life.Alive }, { Id := 1, Life := Life.Dying },
          { Id := 2, Life := Life.Dead }], failure := none } : Collection machineDoc).docs,
          life.get d.Id = some d.Life) ∧
      (∀ id, life.get id ≠ none ↔ id ∈ ids) :=
  ⟨rfl, by decide,
    initial_all_machines { docs := [{ Id := 0, Life := Life.Alive }, { Id := 1, Life := Life.Dying },
      { Id := 2, Life := Life.Dead }], failure := none } rfl (by decide)⟩

end MachinesWatcher

/-! ## ServicesWatcher and ServiceUnitsWatcher: merge -/

/-- The method `ServicesWatcher.merge` when the service document is found. -/
theorem services_merge_found (services : Collection serviceDoc) (known : GoMap String Life)
    (pending : List String) (name : String) (doc : serviceDoc)
    (hf : services.FindId serviceDoc.Name name = .found doc) :
    ServicesWatcher.merge services known pending name =
      .ok (if known.get name = none ∨ (known.get name ≠ some doc.Life ∧ name ∉ pending)
            then pending ++ [name] else pending,
           known.set name doc.Life) := by
  unfold ServicesWatcher.merge
  simp only [hf]
  cases hk : known.get name with
  | none => simp
  | some l =>
    by_cases hl : l = doc.Life
    · simp [hl]
    · by_cases hp : name ∈ pending
      · simp [hl, hp, (hasString_iff pending name).mpr hp]
      · simp [hl, hp, (hasString_eq_false_iff pending name).mpr hp]

/-- The method `ServicesWatcher.merge` when the service document is not found. -/
theorem services_merge_notFound (services : Collection serviceDoc) (known : GoMap String Life)
    (pending : List String) (name : String)
    (hf : services.FindId serviceDoc.Name name = .notFound) :
    ServicesWatcher.merge services known pending name =
      .ok (if (∃ l, known.get name = some l ∧ l ≠ Life.Dead) ∧ name ∉ pending
            then pending ++ [name] else pending,
           known.delete name) := by
  unfold ServicesWatcher.merge
  simp only [hf]
  cases hk : known.get name with
  | none => simp
  | some l =>
    by_cases hl : l = Life.Dead
    · simp [hl]
    · by_cases hp : name ∈ pending
      · simp [hl, hp, (hasString_iff pending name).mpr hp]
      · simp [hl, hp, (hasString_eq_false_iff pending name).mpr hp]

/-- The method `ServiceUnitsWatcher.merge` when the unit document is found. -/
theorem serviceUnits_merge_found (units : Collection unitDoc) (known : GoMap String Life)
    (pending : List String) (name : String) (doc : unitDoc)
    (hf : units.FindId unitDoc.Name name = .found doc) :
    ServiceUnitsWatcher.merge units known pending name =
      .ok (if known.get name = none ∨ (known.get name ≠ some doc.Life ∧ name ∉ pending)
            then pending ++ [name] else pending,
           known.set name doc.Life) := by
  unfold ServiceUnitsWatcher.merge
  simp only [hf]
  cases hk : known.get name with
  | none => simp
  | some l =>
    by_cases hl : l = doc.Life
    · simp [hl]
    · by_cases hp : name ∈ pending
      · simp [hl, hp, (hasString_iff pending name).mpr hp]
      · simp [hl, hp, (hasString_eq_false_iff pending name).mpr hp]

/-- The method `ServiceUnitsWatcher.merge` when the unit document is not found. -/
theorem serviceUnits_merge_notFound (units : Collection unitDoc) (known : GoMap String Life)
    (pending : List String) (name : String)
    (hf : units.FindId unitDoc.Name name = .notFound) :
    ServiceUnitsWatcher.merge units known pending name =
      .ok (if (∃ l, known.get name = some l ∧ l ≠ Life.Dead) ∧ name ∉ pending
            then pending ++ [name] else pending,
           known.delete name) := by
  unfold ServiceUnitsWatcher.merge
  simp only [hf]
  cases hk : known.get name with
  | none => simp
  | some l =>
    by_cases hl : l = Life.Dead
    · simp [hl]
    · by_cases hp : name ∈ pending
      · simp [hl, hp, (hasString_iff pending name).mpr hp]
      · simp [hl, hp, (hasString_eq_false_iff pending name).mpr hp]

/-- C2: `ServicesWatcher.merge` (and the identical `ServiceUnitsWatcher.merge`) on a name whose
document exists with `Life` L. For every pending list and known map the call succeeds, afterwards
`known[name]` is L, and the returned list is `pending` unchanged when the name was known with
`Life` L, `pending` with the name appended at the end when the name was not known, and, when the
name was known with another `Life`, `pending` with the name appended if and only if the name is
not already in `pending`. -/
theorem merge_existing_document (services : Collection serviceDoc) (units : Collection unitDoc)
    (known : GoMap String Life) (pending : List String) (name : String)
    (sdoc : serviceDoc) (udoc : unitDoc)
    (hs : services.FindId serviceDoc.Name name = .found sdoc)
    (hu : units.FindId unitDoc.Name name = .found udoc) :
    (∃ new known1, ServicesWatcher.merge services known pending name = .ok (new, known1) ∧
      known1.get name = some sdoc.Life ∧
      (known.get name = some sdoc.Life → new = pending) ∧
      (known.get name = none → new = pending ++ [name]) ∧
      (∀ l, known.get name = some l → l ≠ sdoc.Life →
        (name ∉ pending → new = pending ++ [name]) ∧ (name ∈ pending → new = pending))) ∧
    (∃ new known1, ServiceUnitsWatcher.merge units known pending name = .ok (new, known1) ∧
      known1.get name = some udoc.Life ∧
      (known.get name = some udoc.Life → new = pending) ∧
      (known.get name = none → new = pending ++ [name]) ∧
      (∀ l, known.get name = some l → l ≠ udoc.Life →
        (name ∉ pending → new = pending ++ [name]) ∧ (name ∈ pending → new = pending))) := by
  constructor
  · refine ⟨_, _, services_merge_found services known pending name sdoc hs,
      GoMap.get_set_self _ _ _, ?_, ?_, ?_⟩
    · intro hk; simp [hk]
    · intro hk; simp [hk]
    · intro l hk hl
      constructor
      · intro hp; simp [hk, hl, hp]
      · intro hp; simp [hk, hp]
  · refine ⟨_, _, serviceUnits_merge_found units known pending name udoc hu,
      GoMap.get_set_self _ _ _, ?_, ?_, ?_⟩
    · intro hk; simp [hk]
    · intro hk; simp [hk]
    · intro l hk hl
      constructor
      · intro hp; simp [hk, hl, hp]
      · intro hp; simp [hk, hp]

/-- C2 at a concrete call: the service and the unit are known Alive and are now Dying. -/
theorem merge_existing_document_witness :
    (({ docs := [{ Name := "wordpress", Life := Life.Dying }], failure := none } :
        Collection serviceDoc).FindId serviceDoc.Name "wordpress" =
      .found { Name := "wordpress", Life := Life.Dying }) ∧
    ServicesWatcher.merge { docs := [{ Name := "wordpress", Life := Life.Dying }], failure := none }
      [("wordpress", Life.Alive)] ["mysql"] "wordpress" =
      .ok (["mysql", "wordpress"], [("wordpress", Life.Dying)]) ∧
    (∃ new known1, ServiceUnitsWatcher.merge
        { docs := [{ Name := "wordpress", Service := "", Principal := "", Subordinates := [],
                     MachineId := none, Life := Life.Dying, TxnRevno := 3 }], failure := none }
        [("wordpress", Life.Alive)] ["mysql"] "wordpress" = .ok (new, known1) ∧
      known1.get "wordpress" = some Life.Dying ∧
      (GoMap.get [("wordpress", Life.Alive)] "wordpress" = some Life.Dying → new = ["mysql"]) ∧
      (GoMap.get [("wordpress", Life.Alive)] "wordpress" = none →
        new = ["mysql"] ++ ["wordpress"]) ∧
      (∀ l, GoMap.get [("wordpress", Life.Alive)] "wordpress" = some l → l ≠ Life.Dying →
        ("wordpress" ∉ ["mysql"] → new = ["mysql"] ++ ["wordpress"]) ∧
        ("wordpress" ∈ ["mysql"] → new = ["mysql"]))) :=
  ⟨rfl, rfl,
    (merge_existing_document
      { docs := [{ Name := "wordpress", Life := Life.Dying }], failure := none }
      { docs := [{ Name := "wordpress", Service := "", Principal := "", Subordinates := [],
                   MachineId := none, Life := Life.Dying, TxnRevno := 3 }], failure := none }
      [("wordpress", Life.Alive)] ["mysql"] "wordpress"
      { Name := "wordpress", Life := Life.Dying }
      { Name := "wordpress", Service := "", Principal := "", Subordinates := [],
        MachineId := none, Life := Life.Dying, TxnRevno := 3 } rfl rfl).2⟩

/-- C3: `ServicesWatcher.merge` (and `ServiceUnitsWatcher.merge`) on a name whose document is not
found. For every pending list and known map the call succeeds, the name is absent from the known
map afterwards, and the returned list is `pending` with the name appended if and only if the name
was known with a last `Life` other than Dead and is not already in `pending`; otherwise it is
`pending` unchanged. -/
theorem merge_missing_document (services : Collection serviceDoc) (units : Collection unitDoc)
    (known : GoMap String Life) (pending : List String) (name : String)
    (hs : services.FindId serviceDoc.Name name = .notFound)
    (hu : units.FindId unitDoc.Name name = .notFound) :
    (∃ new known1, ServicesWatcher.merge services known pending name = .ok (new, known1) ∧
      known1.get name = none ∧
      (((∃ l, known.get name = some l ∧ l ≠ Life.Dead) ∧ name ∉ pending) →
        new = pending ++ [name]) ∧
      (¬ ((∃ l, known.get name = some l ∧ l ≠ Life.Dead) ∧ name ∉ pending) → new = pending)) ∧
    (∃ new known1, ServiceUnitsWatcher.merge units known pending name = .ok (new, known1) ∧
      known1.get name = none ∧
      (((∃ l, known.get name = some l ∧ l ≠ Life.Dead) ∧ name ∉ pending) →
        new = pending ++ [name]) ∧
      (¬ ((∃ l, known.get name = some l ∧ l ≠ Life.Dead) ∧ name ∉ pending) → new = pending)) := by
  constructor
  · refine ⟨_, _, services_merge_notFound services known pending name hs,
      GoMap.get_delete_self _ _, ?_, ?_⟩
    · intro h; rw [if_pos h]
    · intro h; rw [if_neg h]
  · refine ⟨_, _, serviceUnits_merge_notFound units known pending name hu,
      GoMap.get_delete_self _ _, ?_, ?_⟩
    · intro h; rw [if_pos h]
    · intro h; rw [if_neg h]

/-- C3 at a concrete call: the service and the unit were known Dying and are gone. -/
theorem merge_missing_document_witness :
    (({ docs := [], failure := none } : Collection serviceDoc).FindId serviceDoc.Name "wordpress" =
      .notFound) ∧
    ServicesWatcher.merge { docs := [], failure := none }
      [("wordpress", Life.Dying)] ["mysql"] "wordpress" = .ok (["mysql", "wordpress"], []) ∧
    (∃ new known1, ServiceUnitsWatcher.merge { docs := [], failure := none }
        [("wordpress", Life.Dying)] ["mysql"] "wordpress" = .ok (new, known1) ∧
      known1.get "wordpress" = none ∧
      (((∃ l, GoMap.get [("wordpress", Life.Dying)] "wordpress" = some l ∧ l ≠ Life.Dead) ∧
          "wordpress" ∉ ["mysql"]) → new = ["mysql"] ++ ["wordpress"]) ∧
      (¬ ((∃ l, GoMap.get [("wordpress", Life.Dying)] "wordpress" = some l ∧ l ≠ Life.Dead) ∧
          "wordpress" ∉ ["mysql"]) → new = ["mysql"])) :=
  ⟨rfl, rfl,
    (merge_missing_document { docs := [], failure := none } { docs := [], failure := none }
      [("wordpress", Life.Dying)] ["mysql"] "wordpress" rfl rfl).2⟩

/-- C4, the code at the failing input: the service "wordpress" is in the initial batch, is
removed and then created again before the consumer has read; `ServicesWatcher.merge` appends the
name a second time, and so does `ServiceUnitsWatcher.merge` for a unit of that history. -/
theorem services_batch_duplicate :
    ServicesWatcher.initial { docs := [{ Name := "wordpress", Life := Life.Alive }], failure := none }
      [] = .ok (["wordpress"], [("wordpress", Life.Alive)]) ∧
    runSteps ServicesWatcher.applyStep (["wordpress"], [("wordpress", Life.Alive)])
      [.merge ({ docs := [], failure := none }, "wordpress"),
       .merge ({ docs := [{ Name := "wordpress", Life := Life.Alive }], failure := none },
         "wordpress")] = .ok (["wordpress", "wordpress"], [("wordpress", Life.Alive)]) ∧
    ¬ ["wordpress", "wordpress"].Nodup ∧
    runSteps ServiceUnitsWatcher.applyStep (["wordpress/0"], [("wordpress/0", Life.Alive)])
      [.merge ({ docs := [], failure := none }, "wordpress/0"),
       .merge ({ docs := [{ Name := "wordpress/0", Service := "wordpress", Principal := "",
                            Subordinates := [], MachineId := none, Life := Life.Alive,
                            TxnRevno := 7 }], failure := none },
         "wordpress/0")] = .ok (["wordpress/0", "wordpress/0"], [("wordpress/0", Life.Alive)]) :=
  ⟨rfl, rfl, by decide, rfl⟩

/-! ## The loops of MachinesWatcher and ServicesWatcher -/

/-- A property that every iteration of a loop preserves holds in every running state the loop
reaches. -/
theorem runLoop_invariant {S C : Type} (step : S → SelectEvent C → Option (Outcome S))
    (Inv : S → Prop)
    (hstep : ∀ s ev s1, Inv s → step s ev = some (.running s1) → Inv s1)
    (evs : List (SelectEvent C)) (s s2 : S) (hs : Inv s)
    (hrun : runLoop step (.running s) evs = some (.running s2)) : Inv s2 := by
  induction evs generalizing s with
  | nil =>
    simp only [runLoop] at hrun
    injection hrun with hrun
    injection hrun with hrun
    exact hrun ▸ hs
  | cons ev rest ih =>
    simp only [runLoop] at hrun
    cases hst : step s ev with
    | none => rw [hst] at hrun; cases hrun
    | some o =>
      rw [hst] at hrun
      cases o with
      | running s1 => exact ih s1 (hstep s ev s1 hs hst) hrun
      | returned err =>
        cases rest with
        | nil => simp [runLoop] at hrun
        | cons ev2 rest2 => simp [runLoop] at hrun

/-- A loop that reaches a running state over `evs1 ++ ev :: evs2` is running before `ev`, and
`ev` leaves it running. -/
theorem runLoop_split {S C : Type} (step : S → SelectEvent C → Option (Outcome S))
    (evs1 evs2 : List (SelectEvent C)) (ev : SelectEvent C) (o : Outcome S) (s2 : S)
    (hrun : runLoop step o (evs1 ++ ev :: evs2) = some (.running s2)) :
    ∃ s s1, step s ev = some (.running s1) ∧ runLoop step (.running s1) evs2 = some (.running s2) := by
  induction evs1 generalizing o with
  | nil =>
    cases o with
    | returned err => simp [runLoop] at hrun
    | running s =>
      simp only [List.nil_append, runLoop] at hrun
      cases hst : step s ev with
      | none => rw [hst] at hrun; cases hrun
      | some o1 =>
        rw [hst] at hrun
        cases o1 with
        | running s1 => exact ⟨s, s1, hst, hrun⟩
        | returned err =>
          cases evs2 with
          | nil => simp [runLoop] at hrun
          | cons ev2 rest2 => simp [runLoop] at hrun
  | cons e rest ih =>
    cases o with
    | returned err => simp [runLoop] at hrun
    | running s =>
      simp only [List.cons_append, runLoop] at hrun
      cases hst : step s e with
      | none => rw [hst] at hrun; cases hrun
      | some o1 =>
        rw [hst] at hrun
        exact ih o1 hrun

/-- A successful `ServicesWatcher.merge` returns the pending names unchanged or with the name
appended. -/
theorem services_merge_shape {services : Collection serviceDoc} {known known1 : GoMap String Life}
    {pending new : List String} {name : String}
    (h : ServicesWatcher.merge services known pending name = .ok (new, known1)) :
    new = pending ∨ new = pending ++ [name] := by
  cases hf : services.FindId serviceDoc.Name name with
  | failed err => simp [ServicesWatcher.merge, hf] at h
  | notFound =>
    rw [services_merge_notFound _ _ _ _ hf] at h
    injection h with h
    injection h with h1 h2
    split at h1
    · exact Or.inr h1.symm
    · exact Or.inl h1.symm
  | found doc =>
    rw [services_merge_found _ _ _ _ doc hf] at h
    injection h with h
    injection h with h1 h2
    split at h1
    · exact Or.inr h1.symm
    · exact Or.inl h1.symm

/-- An iteration of `MachinesWatcher.loop` keeps `out` armed exactly when ids are pending. -/
theorem machines_loopStep_armed (s : MachinesWatcher.LoopState)
    (ev : SelectEvent (Collection machineDoc × Change Int)) (s1 : MachinesWatcher.LoopState)
    (hs : s.out = true ↔ s.ids ≠ [])
    (hst : MachinesWatcher.loopStep s ev = some (.running s1)) :
    s1.out = true ↔ s1.ids ≠ [] := by
  cases ev with
  | sourceDead err => simp [MachinesWatcher.loopStep] at hst
  | dying => simp [MachinesWatcher.loopStep] at hst
  | send =>
    simp only [MachinesWatcher.loopStep] at hst
    split at hst
    · injection hst with hst
      injection hst with hst
      subst hst
      simp
    · cases hst
  | change c =>
    obtain ⟨machines, ch⟩ := c
    simp only [MachinesWatcher.loopStep] at hst
    cases hm : MachinesWatcher.merge machines s.life s.ids ch with
    | error err => simp [hm] at hst
    | ok r =>
      obtain ⟨ids1, life1⟩ := r
      simp only [hm] at hst
      injection hst with hst
      injection hst with hst
      subst hst
      rcases MachinesWatcher.merge_shape hm with h | ⟨h, _⟩
      · by_cases he : s.ids = []
        · simpa [h, he] using hs
        · have : 0 < s.ids.length := List.length_pos.mpr he
          simp [h, he, this]
      · simp [h]

/-- An iteration of `ServicesWatcher.loop` keeps `out` armed exactly when names are pending. -/
theorem services_loopStep_armed (s : ServicesWatcher.LoopState)
    (ev : SelectEvent (Collection serviceDoc × Change String)) (s1 : ServicesWatcher.LoopState)
    (hs : s.out = true ↔ s.changes ≠ [])
    (hst : ServicesWatcher.loopStep s ev = some (.running s1)) :
    s1.out = true ↔ s1.changes ≠ [] := by
  cases ev with
  | sourceDead err => simp [ServicesWatcher.loopStep] at hst
  | dying => simp [ServicesWatcher.loopStep] at hst
  | send =>
    simp only [ServicesWatcher.loopStep] at hst
    split at hst
    · injection hst with hst
      injection hst with hst
      subst hst
      simp
    · cases hst
  | change c =>
    obtain ⟨services, ch⟩ := c
    simp only [ServicesWatcher.loopStep] at hst
    cases hm : ServicesWatcher.merge services s.known s.changes ch.Id with
    | error err => simp [hm] at hst
    | ok r =>
      obtain ⟨new, known1⟩ := r
      simp only [hm] at hst
      injection hst with hst
      injection hst with hst
      subst hst
      rcases services_merge_shape hm with h | h
      · by_cases he : s.changes = []
        · simpa [h, he] using hs
        · have : 0 < s.changes.length := List.length_pos.mpr he
          simp [h, he, this]
      · simp [h]

/-- C7: the armed-delivery state machine of `MachinesWatcher.loop` and `ServicesWatcher.loop`.
The loop starts with the delivery slot armed with the initial snapshot, also when the snapshot is
empty; in every state the loop reaches after a first delivery the slot is armed if and only if
the pending list is non-empty; and a delivery, possible only while the slot is armed, resets the
pending list to empty and disarms the slot. -/
theorem armed_delivery :
    (∀ machines ids life, MachinesWatcher.initial machines [] = .ok (ids, life) →
      MachinesWatcher.loopStart machines = .running { ids := ids, out := true, life := life }) ∧
    MachinesWatcher.loopStart { docs := [], failure := none } =
      .running { ids := [], out := true, life := [] } ∧
    (∀ machines evs1 evs2 s2,
      runLoop MachinesWatcher.loopStep (MachinesWatcher.loopStart machines)
        (evs1 ++ .send :: evs2) = some (.running s2) →
      (s2.out = true ↔ s2.ids ≠ [])) ∧
    (∀ s : MachinesWatcher.LoopState, MachinesWatcher.loopStep s .send =
      if s.out then some (.running { ids := [], out := false, life := s.life }) else none) ∧
    (∀ services changes known, ServicesWatcher.initial services [] = .ok (changes, known) →
      ServicesWatcher.loopStart services =
        .running { changes := changes, out := true, known := known }) ∧
    ServicesWatcher.loopStart { docs := [], failure := none } =
      .running { changes := [], out := true, known := [] } ∧
    (∀ services evs1 evs2 s2,
      runLoop ServicesWatcher.loopStep (ServicesWatcher.loopStart services)
        (evs1 ++ .send :: evs2) = some (.running s2) →
      (s2.out = true ↔ s2.changes ≠ [])) ∧
    (∀ s : ServicesWatcher.LoopState, ServicesWatcher.loopStep s .send =
      if s.out then some (.running { changes := [], out := false, known := s.known }) else none) := by
  refine ⟨?_, rfl, ?_, fun s => rfl, ?_, rfl, ?_, fun s => rfl⟩
  · intro machines ids life h
    simp only [MachinesWatcher.loopStart, h]
  · intro machines evs1 evs2 s2 hrun
    obtain ⟨s, s1, hsend, hrest⟩ := runLoop_split _ evs1 evs2 .send _ s2 hrun
    refine runLoop_invariant MachinesWatcher.loopStep (fun t => t.out = true ↔ t.ids ≠ [])
      machines_loopStep_armed evs2 s1 s2 ?_ hrest
    simp only [MachinesWatcher.loopStep] at hsend
    split at hsend
    · injection hsend with hsend
      injection hsend with hsend
      subst hsend
      simp
    · cases hsend
  · intro services changes known h
    simp only [ServicesWatcher.loopStart, h]
  · intro services evs1 evs2 s2 hrun
    obtain ⟨s, s1, hsend, hrest⟩ := runLoop_split _ evs1 evs2 .send _ s2 hrun
    refine runLoop_invariant ServicesWatcher.loopStep (fun t => t.out = true ↔ t.changes ≠ [])
      services_loopStep_armed evs2 s1 s2 ?_ hrest
    simp only [ServicesWatcher.loopStep] at hsend
    split at hsend
    · injection hsend with hsend
      injection hsend with hsend
      subst hsend
      simp
    · cases hsend

/-- C7 on a run of `MachinesWatcher.loop`: the initial batch `[0]` is delivered, then machine 1
is notified and a second batch is armed. -/
theorem armed_delivery_witness :
    runLoop MachinesWatcher.loopStep
      (MachinesWatcher.loopStart { docs := [{ Id := 0, Life := Life.Alive }], failure := none })
      ([] ++ .send :: [.change ({ docs := [{ Id := 0, Life := Life.Alive },
          { Id := 1, Life := Life.Alive }], failure := none }, { Id := 1, Revno := 2 })]) =
      some (.running { ids := [1], out := true, life := [(1, Life.Alive), (0, Life.Alive)] }) ∧
    ((({ ids := [1], out := true, life := [(1, Life.Alive), (0, Life.Alive)] } :
        MachinesWatcher.LoopState).out = true) ↔
      ({ ids := [1], out := true, life := [(1, Life.Alive), (0, Life.Alive)] } :
        MachinesWatcher.LoopState).ids ≠ []) :=
  ⟨rfl, armed_delivery.2.2.1 { docs := [{ Id := 0, Life := Life.Alive }], failure := none } []
    [.change ({ docs := [{ Id := 0, Life := Life.Alive }, { Id := 1, Life := Life.Alive }]
                failure := none }, { Id := 1, Revno := 2 })]
    { ids := [1], out := true, life := [(1, Life.Alive), (0, Life.Alive)] } rfl⟩

/-! ## MachinesWatcher: Dead is absorbing -/

namespace MachinesWatcher

/-- A query that finds a document finds one of the collection, with the id asked for. -/
theorem findId_found {machines : Collection machineDoc} {id : Int} {doc : machineDoc}
    (h : machines.FindId machineDoc.Id id = .found doc) :
    machines.docs.find? (fun d => decide (d.Id = id)) = some doc := by
  unfold Collection.FindId at h
  cases hf : machines.failure with
  | some e => simp [hf] at h
  | none =>
    simp only [hf] at h
    cases hd : machines.docs.find? (fun d => decide (d.Id = id)) with
    | none => simp [hd] at h
    | some d =>
      simp only [hd] at h
      injection h with h
      rw [h]

/-- In a collection that comes after one in which the machine was found Dead, the machine is
found Dead or is not found. -/
theorem found_dead_later {m1 m2 : Collection machineDoc} {id : Int} {doc d : machineDoc}
    (hadv : advances m1 m2 = true) (h1 : m1.FindId machineDoc.Id id = .found doc)
    (hdead : doc.Life = Life.Dead) (h2 : m2.FindId machineDoc.Id id = .found d) :
    d.Life = Life.Dead := by
  have hf1 := findId_found h1
  have hf2 := findId_found h2
  have hmem : doc ∈ m1.docs := List.mem_of_find?_eq_some hf1
  have hid : doc.Id = id := by simpa using List.find?_some hf1
  unfold advances at hadv
  rw [List.all_eq_true] at hadv
  have h := hadv doc hmem
  simp only [lifeOf, hid, hf2, Option.map_some', hdead, Life.rank, decide_eq_true_eq] at h
  cases hl : d.Life with
  | Dead => rfl
  | Alive => rw [hl] at h; simp [Life.rank] at h
  | Dying => rw [hl] at h; simp [Life.rank] at h

/-- The collection read by a `merge` step of a trace is among the collections of the trace. -/
theorem mem_storesOf {steps : List (Step (Collection machineDoc × Change Int))}
    {m : Collection machineDoc} {ch : Change Int} (h : Step.merge (m, ch) ∈ steps) :
    m ∈ storesOf steps := by
  induction steps with
  | nil => cases h
  | cons st rest ih =>
    rcases List.mem_cons.mp h with rfl | hr
    · simp [storesOf]
    · cases st with
      | deliver => simpa [storesOf] using ih hr
      | merge a =>
        obtain ⟨m0, ch0⟩ := a
        simp only [storesOf, List.mem_cons]
        exact Or.inr (ih hr)

/-- A successful `merge` leaves the life map entries of the other ids alone. -/
theorem merge_get_other {machines : Collection machineDoc} {life life1 : GoMap Int Life}
    {ids ids1 : List Int} {ch : Change Int} {id : Int}
    (h : merge machines life ids ch = .ok (ids1, life1)) (hne : id ≠ ch.Id) :
    life1.get id = life.get id := by
  by_cases hp : ch.Id ∈ ids
  · rw [merge_pending _ _ _ _ hp] at h
    injection h with h
    injection h with h1 h2
    rw [← h2]
  · by_cases hr : ch.Revno = -1
    · rw [merge_removed _ _ _ _ hp hr] at h
      injection h with h
      injection h with h1 h2
      rw [← h2]
      exact GoMap.get_delete_ne _ hne
    · cases hf : machines.FindId machineDoc.Id ch.Id with
      | failed err =>
        rw [merge_failed _ _ _ _ hp hr err hf] at h
        cases h
      | notFound =>
        rw [merge_notFound _ _ _ _ hp hr hf] at h
        split at h <;>
        · injection h with h
          injection h with h1 h2
          rw [← h2]
      | found doc =>
        rw [merge_found _ _ _ _ hp hr doc hf] at h
        split at h
        · injection h with h
          injection h with h1 h2
          rw [← h2]
        · injection h with h
          injection h with h1 h2
          rw [← h2]
          exact GoMap.get_set_ne _ _ hne

/-- A list is not itself with an element appended. -/
theorem ne_append_singleton (ids : List Int) (id : Int) : ids ≠ ids ++ [id] := by
  intro h
  have := congrArg List.length h
  simp at this

/-- One step from a state in which `id` is recorded Dead, or was recorded Dead and has been
evicted by a removal notification: the step does not append `id`, and the state after it is of
that kind again. The step reads a collection in which the machine is Dead or gone, and is not an
update notification for `id` after a removal notification. -/
theorem absorbed_step (id : Int) (s : List Int × GoMap Int Life) (seen : Bool)
    (st : Step (Collection machineDoc × Change Int))
    (hJ : s.2.get id = some Life.Dead ∨ (s.2.get id = none ∧ seen = true))
    (hstore : ∀ m ch d, st = .merge (m, ch) → m.FindId machineDoc.Id id = .found d →
      d.Life = Life.Dead)
    (hupd : seen = true → isUpdate id st = false) :
    appends s st id = false ∧
    ∀ s1, applyStep s st = .ok s1 →
      (s1.2.get id = some Life.Dead ∨ (s1.2.get id = none ∧ (seen || isRemoval id st) = true)) := by
  obtain ⟨ids, life⟩ := s
  simp only at hJ
  cases st with
  | deliver =>
    refine ⟨rfl, ?_⟩
    intro s1 h
    simp only [applyStep] at h
    injection h with h
    subst h
    simpa [isRemoval] using hJ
  | merge a =>
    obtain ⟨m, ch⟩ := a
    simp only [appends, applyStep]
    by_cases hid : ch.Id = id
    · subst hid
      by_cases hp : ch.Id ∈ ids
      · rw [merge_pending _ _ _ _ hp]
        refine ⟨by simp, ?_⟩
        intro s1 h
        injection h with h
        subst h
        rcases hJ with h1 | ⟨h1, h2⟩
        · exact Or.inl h1
        · exact Or.inr ⟨h1, by simp [h2]⟩
      · by_cases hr : ch.Revno = -1
        · rw [merge_removed _ _ _ _ hp hr]
          have hno : ¬ ∃ l, life.get ch.Id = some l ∧ l ≠ Life.Dead := by
            rintro ⟨l, hl, hne⟩
            rcases hJ with h1 | ⟨h1, _⟩
            · rw [h1] at hl
              injection hl with hl
              exact hne hl.symm
            · rw [h1] at hl
              cases hl
          rw [if_neg hno]
          refine ⟨by simp, ?_⟩
          intro s1 h
          injection h with h
          subst h
          exact Or.inr ⟨GoMap.get_delete_self _ _, by simp [isRemoval, hr]⟩
        · have hu : isUpdate ch.Id (.merge (m, ch)) = true := by simp [isUpdate, hr]
          have hdead : life.get ch.Id = some Life.Dead := by
            rcases hJ with h1 | ⟨_, h2⟩
            · exact h1
            · rw [hupd h2] at hu
              cases hu
          cases hf : m.FindId machineDoc.Id ch.Id with
          | failed err =>
            rw [merge_failed _ _ _ _ hp hr err hf]
            exact ⟨rfl, fun s1 h => by cases h⟩
          | notFound =>
            rw [merge_notFound _ _ _ _ hp hr hf, if_pos hdead]
            refine ⟨by simp, ?_⟩
            intro s1 h
            injection h with h
            subst h
            exact Or.inl hdead
          | found doc =>
            have hd : doc.Life = Life.Dead := hstore m ch doc rfl hf
            rw [merge_found _ _ _ _ hp hr doc hf, hd, if_pos hdead]
            refine ⟨by simp, ?_⟩
            intro s1 h
            injection h with h
            subst h
            exact Or.inl hdead
    · have hrem : isRemoval id (.merge (m, ch)) = false := by simp [isRemoval, hid]
      cases hm : merge m life ids ch with
      | error err => exact ⟨rfl, fun s1 h => by cases h⟩
      | ok r =>
        obtain ⟨ids1, life1⟩ := r
        have hget : life1.get id = life.get id := merge_get_other hm (fun e => hid e.symm)
        refine ⟨?_, ?_⟩
        · simp only [decide_eq_false_iff_not]
          rcases merge_shape hm with h | ⟨h, _⟩
          · rw [h]; exact ne_append_singleton ids id
          · rw [h]
            intro e
            have := List.append_cancel_left e
            simp at this
            exact hid this
        · intro s1 h
          injection h with h
          subst h
          simpa [hget, hrem] using hJ

/-- Along a trace from a state in which `id` is recorded Dead, or was and has been evicted by a
removal notification, no step appends `id`. -/
theorem absorbed_run (id : Int) (mid : List (Step (Collection machineDoc × Change Int)))
    (e2 : Step (Collection machineDoc × Change Int)) (s s2 : List Int × GoMap Int Life)
    (seen : Bool)
    (hJ : s.2.get id = some Life.Dead ∨ (s.2.get id = none ∧ seen = true))
    (hstore : ∀ st ∈ mid ++ [e2], ∀ m ch d, st = .merge (m, ch) →
      m.FindId machineDoc.Id id = .found d → d.Life = Life.Dead)
    (hupd : seen = true → ∀ st ∈ mid ++ [e2], isUpdate id st = false)
    (hfinal : removalFinal id (mid ++ [e2]) = true)
    (hrun : runSteps applyStep s mid = .ok s2) :
    appends s2 e2 id = false := by
  induction mid generalizing s seen with
  | nil =>
    simp only [runSteps] at hrun
    injection hrun with hrun
    subst hrun
    exact (absorbed_step id s seen e2 hJ (hstore e2 (by simp))
      (fun h => hupd h e2 (by simp))).1
  | cons st rest ih =>
    simp only [runSteps] at hrun
    have hA := absorbed_step id s seen st hJ (hstore st (by simp))
      (fun h => hupd h st (by simp))
    cases hap : applyStep s st with
    | error err => rw [hap] at hrun; cases hrun
    | ok s1 =>
      rw [hap] at hrun
      simp only [List.cons_append, removalFinal, Bool.and_eq_true, Bool.or_eq_true,
        Bool.not_eq_true', List.all_eq_true] at hfinal
      refine ih s1 (seen || isRemoval id st) (hA.2 s1 hap) ?_ ?_ hfinal.2 hrun
      · intro st2 hst2
        exact hstore st2 (List.mem_cons_of_mem _ hst2)
      · intro hseen st2 hst2
        rcases Bool.or_eq_true _ _ ▸ hseen with h | h
        · exact hupd h st2 (List.mem_cons_of_mem _ hst2)
        · rcases hfinal.1 with h0 | h0
          · rw [h0] at h; cases h
          · exact h0 st2 hst2

/-- C1: Dead is absorbing for `MachinesWatcher`. Take any sequence of change notifications merged
by `merge`, with the pending list delivered and reset at arbitrary points, against a store in
which a machine's `Life` only advances and a removed machine never reappears: the collections
that the merges read form such a history, and so do the notifications, in which no revno other
than `-1`, the revision of an existing document, follows the removal notification of the id.
Once a `merge` that found the machine Dead has appended its id to a batch, no later `merge`
appends that id to any batch. -/
theorem dead_absorbing (s1 s2 : List Int × GoMap Int Life)
    (e1 e2 : Step (Collection machineDoc × Change Int))
    (mid : List (Step (Collection machineDoc × Change Int))) (id : Int)
    (hfound : appendsFoundDead s1 e1 id = true)
    (hstore : storeHistory (storesOf (e1 :: (mid ++ [e2]))) = true)
    (hfinal : removalFinal id (e1 :: (mid ++ [e2])) = true)
    (hrun : runSteps applyStep s1 (e1 :: mid) = .ok s2) :
    appends s2 e2 id = false := by
  cases e1 with
  | deliver => simp [appendsFoundDead] at hfound
  | merge a =>
    obtain ⟨m1, ch1⟩ := a
    obtain ⟨ids, life⟩ := s1
    simp only [appendsFoundDead, Bool.and_eq_true, decide_eq_true_eq] at hfound
    obtain ⟨⟨⟨hid, hrev⟩, hdoc⟩, happ⟩ := hfound
    subst hid
    cases hf : m1.FindId machineDoc.Id ch1.Id with
    | failed err => simp [hf] at hdoc
    | notFound => simp [hf] at hdoc
    | found doc =>
      simp only [hf, decide_eq_true_eq] at hdoc
      have hp : ch1.Id ∉ ids := by
        intro hp
        simp only [appends, merge_pending _ _ _ _ hp, decide_eq_true_eq] at happ
        exact ne_append_singleton ids ch1.Id happ
      simp only [runSteps, applyStep] at hrun
      rw [merge_found _ _ _ _ hp hrev doc hf] at hrun
      simp only [appends, merge_found _ _ _ _ hp hrev doc hf] at happ
      by_cases hl : life.get ch1.Id = some doc.Life
      · rw [if_pos hl] at happ
        simp only [decide_eq_true_eq] at happ
        exact absurd happ (ne_append_singleton ids ch1.Id)
      · rw [if_neg hl] at hrun
        simp only at hrun
        simp only [storesOf, storeHistory, Bool.and_eq_true, List.all_eq_true] at hstore
        simp only [removalFinal, Bool.and_eq_true] at hfinal
        refine absorbed_run ch1.Id mid e2 _ s2 false ?_ ?_ ?_ hfinal.2 hrun
        · left
          rw [hdoc]
          exact GoMap.get_set_self _ _ _
        · intro st hst m ch d hmerge hfd
          subst hmerge
          exact found_dead_later (hstore.1.1 m (mem_storesOf hst)) hf hdoc hfd
        · intro h; cases h

/-- The condition on the notifications is used. In a trace that is not one of such a store,
with a notification of revno 4 after the removal notification of machine 0, the removal evicts
the id from the life map and the later notification, which finds no document, appends 0 although
the machine was found Dead and announced before. -/
theorem removalFinal_needed :
    appendsFoundDead ([], [])
      (.merge ({ docs := [{ Id := 0, Life := Life.Dead }], failure := none },
        { Id := 0, Revno := 3 })) 0 = true ∧
    runSteps applyStep ([], [])
      [.merge ({ docs := [{ Id := 0, Life := Life.Dead }], failure := none },
         { Id := 0, Revno := 3 }),
       .deliver,
       .merge ({ docs := [], failure := none }, { Id := 0, Revno := -1 })] = .ok ([], []) ∧
    appends ([], []) (.merge ({ docs := [], failure := none }, { Id := 0, Revno := 4 })) 0 = true ∧
    removalFinal 0
      [.merge ({ docs := [{ Id := 0, Life := Life.Dead }], failure := none },
         { Id := 0, Revno := 3 }),
       .deliver,
       .merge ({ docs := [], failure := none }, { Id := 0, Revno := -1 }),
       .merge ({ docs := [], failure := none }, { Id := 0, Revno := 4 })] = false :=
  ⟨rfl, rfl, rfl, rfl⟩

/-- C1 on scenario S1, continued to the removal: machine 2 is found Dead and announced, the batch
is delivered, a further notification finds it Dead again, and neither that one nor the
notification of its removal appends it. -/
theorem dead_absorbing_witness :
    appendsFoundDead ([], [(2, Life.Alive)])
      (.merge ({ docs := [{ Id := 2, Life := Life.Dead }], failure := none },
        { Id := 2, Revno := 5 })) 2 = true ∧
    storeHistory (storesOf
      [.merge ({ docs := [{ Id := 2, Life := Life.Dead }], failure := none },
         { Id := 2, Revno := 5 }),
       .deliver,
       .merge ({ docs := [{ Id := 2, Life := Life.Dead }], failure := none },
         { Id := 2, Revno := 6 }),
       .merge ({ docs := [], failure := none }, { Id := 2, Revno := -1 })]) = true ∧
    removalFinal 2
      [.merge ({ docs := [{ Id := 2, Life := Life.Dead }], failure := none },
         { Id := 2, Revno := 5 }),
       .deliver,
       .merge ({ docs := [{ Id := 2, Life := Life.Dead }], failure := none },
         { Id := 2, Revno := 6 }),
       .merge ({ docs := [], failure := none }, { Id := 2, Revno := -1 })] = true ∧
    runSteps applyStep ([], [(2, Life.Alive)])
      [.merge ({ docs := [{ Id := 2, Life := Life.Dead }], failure := none },
         { Id := 2, Revno := 5 }),
       .deliver,
       .merge ({ docs := [{ Id := 2, Life := Life.Dead }], failure := none },
         { Id := 2, Revno := 6 })] = .ok ([], [(2, Life.Dead)]) ∧
    appends ([], [(2, Life.Dead)])
      (.merge ({ docs := [], failure := none }, { Id := 2, Revno := -1 })) 2 = false :=
  ⟨rfl, rfl, rfl, rfl,
    dead_absorbing ([], [(2, Life.Alive)]) ([], [(2, Life.Dead)])
      (.merge ({ docs := [{ Id := 2, Life := Life.Dead }], failure := none },
        { Id := 2, Revno := 5 }))
      (.merge ({ docs := [], failure := none }, { Id := 2, Revno := -1 }))
      [.deliver,
       .merge ({ docs := [{ Id := 2, Life := Life.Dead }], failure := none },
         { Id := 2, Revno := 6 })] 2 rfl rfl rfl rfl⟩

end MachinesWatcher

/-! ## RelationScopeWatcher: mergeChange -/

namespace RelationScopeWatcher

/-- The call `mergeChange` for a key without the watcher's prefix. -/
theorem mergeChange_noPrefix (unitName : String → String) (w : RelationScopeWatcher)
    (changes : RelationScopeChange) (ch : Change String)
    (hp : HasPrefix ch.Id w.scopePrefix = false) :
    mergeChange unitName w changes ch = .ok (changes, w) := by
  simp [mergeChange, hp]

/-- The call `mergeChange` for a key of the ignored unit. -/
theorem mergeChange_ignored (unitName : String → String) (w : RelationScopeWatcher)
    (changes : RelationScopeChange) (ch : Change String)
    (hi : unitName ch.Id = w.ignore) :
    mergeChange unitName w changes ch = .ok (changes, w) := by
  unfold mergeChange
  simp only [hi, if_true]
  split <;> rfl

/-- The call `mergeChange` for the removal of a known unit. -/
theorem mergeChange_left (unitName : String → String) (w : RelationScopeWatcher)
    (changes : RelationScopeChange) (ch : Change String)
    (hp : HasPrefix ch.Id w.scopePrefix = true) (hi : unitName ch.Id ≠ w.ignore)
    (hr : ch.Revno = -1) (hk : w.isKnown (unitName ch.Id) = true) :
    mergeChange unitName w changes ch =
      .ok ({ Entered := changes.Entered, Left := changes.Left ++ [unitName ch.Id] },
           { scopePrefix := w.scopePrefix, ignore := w.ignore,
             knownUnits := w.knownUnits.delete (unitName ch.Id) }) := by
  simp [mergeChange, hp, hi, hr, hk]

/-- The call `mergeChange` for a unit that is not known and not removed. -/
theorem mergeChange_entered (unitName : String → String) (w : RelationScopeWatcher)
    (changes : RelationScopeChange) (ch : Change String)
    (hp : HasPrefix ch.Id w.scopePrefix = true) (hi : unitName ch.Id ≠ w.ignore)
    (hr : ch.Revno ≠ -1) (hk : w.isKnown (unitName ch.Id) = false) :
    mergeChange unitName w changes ch =
      .ok ({ Entered := changes.Entered ++ [unitName ch.Id], Left := changes.Left },
           { scopePrefix := w.scopePrefix, ignore := w.ignore,
             knownUnits := w.knownUnits.set (unitName ch.Id) true }) := by
  simp [mergeChange, hp, hi, hr, hk]

/-- The call `mergeChange` for the removal of a unit that is not known, or for a known unit that
is not removed. -/
theorem mergeChange_other (unitName : String → String) (w : RelationScopeWatcher)
    (changes : RelationScopeChange) (ch : Change String)
    (hp : HasPrefix ch.Id w.scopePrefix = true) (hi : unitName ch.Id ≠ w.ignore)
    (h : (ch.Revno = -1 ∧ w.isKnown (unitName ch.Id) = false) ∨
      (ch.Revno ≠ -1 ∧ w.isKnown (unitName ch.Id) = true)) :
    mergeChange unitName w changes ch = .ok (changes, w) := by
  rcases h with ⟨hr, hk⟩ | ⟨hr, hk⟩
  · simp [mergeChange, hp, hi, hr, hk]
  · simp [mergeChange, hp, hi, hr, hk]

/-- The three outcomes of `mergeChange`: nothing changes, a known unit leaves, or an unknown
unit enters. -/
theorem mergeChange_cases (unitName : String → String) (w : RelationScopeWatcher)
    (changes : RelationScopeChange) (ch : Change String) :
    mergeChange unitName w changes ch = .ok (changes, w) ∨
    (HasPrefix ch.Id w.scopePrefix = true ∧ unitName ch.Id ≠ w.ignore ∧ ch.Revno = -1 ∧
      w.isKnown (unitName ch.Id) = true ∧
      mergeChange unitName w changes ch =
        .ok ({ Entered := changes.Entered, Left := changes.Left ++ [unitName ch.Id] },
             { scopePrefix := w.scopePrefix, ignore := w.ignore,
               knownUnits := w.knownUnits.delete (unitName ch.Id) })) ∨
    (HasPrefix ch.Id w.scopePrefix = true ∧ unitName ch.Id ≠ w.ignore ∧ ch.Revno ≠ -1 ∧
      w.isKnown (unitName ch.Id) = false ∧
      mergeChange unitName w changes ch =
        .ok ({ Entered := changes.Entered ++ [unitName ch.Id], Left := changes.Left },
             { scopePrefix := w.scopePrefix, ignore := w.ignore,
               knownUnits := w.knownUnits.set (unitName ch.Id) true })) := by
  by_cases hp : HasPrefix ch.Id w.scopePrefix = true
  · by_cases hi : unitName ch.Id = w.ignore
    · exact Or.inl (mergeChange_ignored unitName w changes ch hi)
    · by_cases hr : ch.Revno = -1
      · by_cases hk : w.isKnown (unitName ch.Id) = true
        · exact Or.inr (Or.inl ⟨hp, hi, hr, hk, mergeChange_left unitName w changes ch hp hi hr hk⟩)
        · exact Or.inl (mergeChange_other unitName w changes ch hp hi
            (Or.inl ⟨hr, by simpa using hk⟩))
      · by_cases hk : w.isKnown (unitName ch.Id) = true
        · exact Or.inl (mergeChange_other unitName w changes ch hp hi (Or.inr ⟨hr, hk⟩))
        · have hk2 : w.isKnown (unitName ch.Id) = false := by simpa using hk
          exact Or.inr (Or.inr ⟨hp, hi, hr, hk2,
            mergeChange_entered unitName w changes ch hp hi hr hk2⟩)
  · exact Or.inl (mergeChange_noPrefix unitName w changes ch (by simpa using hp))

/-- C8: `RelationScopeWatcher.mergeChange` follows the five-case table and never returns an
error. For every pending change, watcher and notification with key K and revno r: (1) if K lacks
the watcher's prefix, or (2) the unit name of K equals `ignore`, the pending change and the known
set are unchanged; otherwise (3) if r is `-1` and the unit is known, the name is appended to
`Left` and removed from the known set; (4) if r is not `-1` and the unit is not known, the name is
appended to `Entered` and added to the known set; (5) in every other case nothing changes. -/
theorem mergeChange_table (unitName : String → String) (w : RelationScopeWatcher)
    (changes : RelationScopeChange) (ch : Change String) :
    (∃ r, mergeChange unitName w changes ch = .ok r) ∧
    (HasPrefix ch.Id w.scopePrefix = false → mergeChange unitName w changes ch = .ok (changes, w)) ∧
    (unitName ch.Id = w.ignore → mergeChange unitName w changes ch = .ok (changes, w)) ∧
    (HasPrefix ch.Id w.scopePrefix = true → unitName ch.Id ≠ w.ignore →
      ch.Revno = -1 → w.isKnown (unitName ch.Id) = true →
      mergeChange unitName w changes ch =
        .ok ({ Entered := changes.Entered, Left := changes.Left ++ [unitName ch.Id] },
             { scopePrefix := w.scopePrefix, ignore := w.ignore,
               knownUnits := w.knownUnits.delete (unitName ch.Id) }) ∧
      (w.knownUnits.delete (unitName ch.Id)).get (unitName ch.Id) = none) ∧
    (HasPrefix ch.Id w.scopePrefix = true → unitName ch.Id ≠ w.ignore →
      ch.Revno ≠ -1 → w.isKnown (unitName ch.Id) = false →
      mergeChange unitName w changes ch =
        .ok ({ Entered := changes.Entered ++ [unitName ch.Id], Left := changes.Left },
             { scopePrefix := w.scopePrefix, ignore := w.ignore,
               knownUnits := w.knownUnits.set (unitName ch.Id) true }) ∧
      (w.knownUnits.set (unitName ch.Id) true).get (unitName ch.Id) = some true) ∧
    (HasPrefix ch.Id w.scopePrefix = true → unitName ch.Id ≠ w.ignore →
      ((ch.Revno = -1 ∧ w.isKnown (unitName ch.Id) = false) ∨
        (ch.Revno ≠ -1 ∧ w.isKnown (unitName ch.Id) = true)) →
      mergeChange unitName w changes ch = .ok (changes, w)) := by
  refine ⟨?_, mergeChange_noPrefix unitName w changes ch,
    mergeChange_ignored unitName w changes ch, ?_, ?_,
    mergeChange_other unitName w changes ch⟩
  · rcases mergeChange_cases unitName w changes ch with h | ⟨_, _, _, _, h⟩ | ⟨_, _, _, _, h⟩ <;>
      exact ⟨_, h⟩
  · intro hp hi hr hk
    exact ⟨mergeChange_left unitName w changes ch hp hi hr hk, GoMap.get_delete_self _ _⟩
  · intro hp hi hr hk
    exact ⟨mergeChange_entered unitName w changes ch hp hi hr hk, GoMap.get_set_self _ _ _⟩

/-- C8 on scenario S3: with scope prefix "peer#" and "svc/1" known, the removal of "peer#svc/1"
appends "svc/1" to `Left` and drops it from the known set. -/
theorem mergeChange_table_witness :
    HasPrefix "peer#svc/1" "peer#" = true ∧
    (fun k : String => String.mk (k.data.drop 5)) "peer#svc/1" ≠ "svc/0" ∧
    mergeChange (fun k => String.mk (k.data.drop 5))
      { scopePrefix := "peer#", ignore := "svc/0", knownUnits := [("svc/1", true)] }
      { Entered := [], Left := [] } { Id := "peer#svc/1", Revno := -1 } =
      .ok ({ Entered := [], Left := ["svc/1"] },
           { scopePrefix := "peer#", ignore := "svc/0", knownUnits := [] }) :=
  ⟨rfl, by decide,
    ((mergeChange_table (fun k => String.mk (k.data.drop 5))
      { scopePrefix := "peer#", ignore := "svc/0", knownUnits := [("svc/1", true)] }
      { Entered := [], Left := [] } { Id := "peer#svc/1", Revno := -1 }).2.2.2.1
      rfl (by decide) rfl rfl).1⟩

/-- What scope filtering keeps true of a pending change and watcher: the prefix and the ignored
name are those the watcher was made with, the ignored name is not a key of the known set, and it
is in neither list of the pending change. -/
theorem filtered_init (unitName : String → String) (pre ignore : String)
    (docs : List relationScopeDoc) (acc : RelationScopeChange × RelationScopeWatcher)
    (h : acc.2.scopePrefix = pre ∧ acc.2.ignore = ignore ∧
      acc.2.knownUnits.get ignore = none ∧ ignore ∉ acc.1.Entered ∧ ignore ∉ acc.1.Left) :
    let r := docs.foldl
      (fun (acc : RelationScopeChange × RelationScopeWatcher) doc =>
        let name := unitName doc.Key
        if name ≠ acc.2.ignore then
          ({ acc.1 with Entered := acc.1.Entered ++ [name] },
           { acc.2 with knownUnits := acc.2.knownUnits.set name true })
        else acc)
      acc
    r.2.scopePrefix = pre ∧ r.2.ignore = ignore ∧
      r.2.knownUnits.get ignore = none ∧ ignore ∉ r.1.Entered ∧ ignore ∉ r.1.Left := by
  induction docs generalizing acc with
  | nil => exact h
  | cons d rest ih =>
    simp only [List.foldl]
    apply ih
    obtain ⟨h1, h2, h3, h4, h5⟩ := h
    by_cases hn : unitName d.Key = acc.2.ignore
    · simp only [hn, ne_eq, not_true_eq_false, if_false]
      exact ⟨h1, h2, h3, h4, h5⟩
    · simp only [ne_eq, hn, not_false_eq_true, if_true]
      have hne : ignore ≠ unitName d.Key := fun e => hn (by rw [← e, h2])
      refine ⟨h1, h2, ?_, ?_, h5⟩
      · rw [GoMap.get_set_ne _ _ hne]; exact h3
      · simp only [List.mem_append, List.mem_singleton, not_or]
        exact ⟨h4, hne⟩

/-- A call of `mergeChange` or a delivery keeps what scope filtering keeps true. -/
theorem filtered_step (unitName : String → String) (pre ignore : String)
    (s s1 : RelationScopeChange × RelationScopeWatcher) (st : Step (Change String))
    (h : s.2.scopePrefix = pre ∧ s.2.ignore = ignore ∧
      s.2.knownUnits.get ignore = none ∧ ignore ∉ s.1.Entered ∧ ignore ∉ s.1.Left)
    (hst : applyStep unitName s st = .ok s1) :
    s1.2.scopePrefix = pre ∧ s1.2.ignore = ignore ∧
      s1.2.knownUnits.get ignore = none ∧ ignore ∉ s1.1.Entered ∧ ignore ∉ s1.1.Left := by
  obtain ⟨h1, h2, h3, h4, h5⟩ := h
  cases st with
  | deliver =>
    simp only [applyStep] at hst
    injection hst with hst
    subst hst
    exact ⟨h1, h2, h3, by simp, by simp⟩
  | merge ch =>
    simp only [applyStep] at hst
    rcases mergeChange_cases unitName s.2 s.1 ch with hm | ⟨_, hi, _, _, hm⟩ | ⟨_, hi, _, _, hm⟩
    · rw [hm] at hst
      injection hst with hst
      subst hst
      exact ⟨h1, h2, h3, h4, h5⟩
    · rw [hm] at hst
      injection hst with hst
      subst hst
      have hne : ignore ≠ unitName ch.Id := fun e => hi (by rw [← e, h2])
      refine ⟨h1, h2, ?_, h4, ?_⟩
      · simp only
        rw [GoMap.get_delete_ne _ hne]; exact h3
      · simp only [List.mem_append, List.mem_singleton, not_or]
        exact ⟨h5, hne⟩
    · rw [hm] at hst
      injection hst with hst
      subst hst
      have hne : ignore ≠ unitName ch.Id := fun e => hi (by rw [← e, h2])
      refine ⟨h1, h2, ?_, ?_, h5⟩
      · simp only
        rw [GoMap.get_set_ne _ _ hne]; exact h3
      · simp only [List.mem_append, List.mem_singleton, not_or]
        exact ⟨h4, hne⟩

/-- A sequence of calls of `mergeChange` and deliveries keeps what scope filtering keeps true. -/
theorem filtered_run (unitName : String → String) (pre ignore : String)
    (steps : List (Step (Change String))) (s s1 : RelationScopeChange × RelationScopeWatcher)
    (h : s.2.scopePrefix = pre ∧ s.2.ignore = ignore ∧
      s.2.knownUnits.get ignore = none ∧ ignore ∉ s.1.Entered ∧ ignore ∉ s.1.Left)
    (hrun : runSteps (applyStep unitName) s steps = .ok s1) :
    s1.2.scopePrefix = pre ∧ s1.2.ignore = ignore ∧
      s1.2.knownUnits.get ignore = none ∧ ignore ∉ s1.1.Entered ∧ ignore ∉ s1.1.Left := by
  induction steps generalizing s with
  | nil =>
    simp only [runSteps] at hrun
    injection hrun with hrun
    exact hrun ▸ h
  | cons st rest ih =>
    simp only [runSteps] at hrun
    cases hap : applyStep unitName s st with
    | error err => rw [hap] at hrun; cases hrun
    | ok s0 =>
      rw [hap] at hrun
      exact ih s0 (filtered_step unitName pre ignore s s0 st h hap) hrun

/-- C9: scope filtering. In every state reached from `getInitialEvent` on a new watcher by any
sequence of `mergeChange` calls (and deliveries of the pending change), the `ignore` unit name is
not in the known set and occurs neither in `Entered` nor in `Left`; and a further `mergeChange`
adds at most one name to `Entered` or `Left`, which is then the unit name, other than `ignore`, of
the notification key, and that key starts with the scope prefix `scope + "#"`. -/
theorem scope_filtering (unitName : String → String) (scope ignore : String)
    (queried : Except Error (List relationScopeDoc)) (steps : List (Step (Change String)))
    (changes0 changes : RelationScopeChange) (w0 w : RelationScopeWatcher)
    (hinit : getInitialEvent unitName (newRelationScopeWatcher scope ignore) queried =
      .ok (changes0, w0))
    (hrun : runSteps (applyStep unitName) (changes0, w0) steps = .ok (changes, w)) :
    w.isKnown ignore = false ∧ w.knownUnits.get ignore = none ∧
    ignore ∉ changes.Entered ∧ ignore ∉ changes.Left ∧
    ∀ ch : Change String, ∃ changes1 w1,
      mergeChange unitName w changes ch = .ok (changes1, w1) ∧
      (changes1 = changes ∨
        (HasPrefix ch.Id (scope ++ "#") = true ∧ unitName ch.Id ≠ ignore ∧
          (changes1 = { Entered := changes.Entered ++ [unitName ch.Id], Left := changes.Left } ∨
           changes1 = { Entered := changes.Entered, Left := changes.Left ++ [unitName ch.Id] }))) := by
  have h0 : w0.scopePrefix = scope ++ "#" ∧ w0.ignore = ignore ∧
      w0.knownUnits.get ignore = none ∧ ignore ∉ changes0.Entered ∧ ignore ∉ changes0.Left := by
    unfold getInitialEvent at hinit
    cases queried with
    | error err => cases hinit
    | ok docs =>
      simp only at hinit
      injection hinit with hinit
      have h := filtered_init unitName (scope ++ "#") ignore docs
        ({ Entered := [], Left := [] }, newRelationScopeWatcher scope ignore)
        ⟨rfl, rfl, rfl, by simp, by simp⟩
      simp only at h
      rw [hinit] at h
      exact h
  obtain ⟨h1, h2, h3, h4, h5⟩ :=
    filtered_run unitName (scope ++ "#") ignore steps (changes0, w0) (changes, w) h0 hrun
  simp only at h1 h2 h3 h4 h5
  refine ⟨by simp [isKnown, h3], h3, h4, h5, ?_⟩
  intro ch
  rcases mergeChange_cases unitName w changes ch with hm | ⟨hp, hi, _, _, hm⟩ | ⟨hp, hi, _, _, hm⟩
  · exact ⟨_, _, hm, Or.inl rfl⟩
  · exact ⟨_, _, hm, Or.inr ⟨h1 ▸ hp, h2 ▸ hi, Or.inr rfl⟩⟩
  · exact ⟨_, _, hm, Or.inr ⟨h1 ▸ hp, h2 ▸ hi, Or.inl rfl⟩⟩

/-- C9 on scenario S3: scope "peer", ignore "svc/0", members "peer#svc/0" and "peer#svc/1" at
the start; then "peer#svc/2" is inserted, "peer#svc/1" deleted and "other#svc/3" inserted. -/
theorem scope_filtering_witness :
    getInitialEvent (fun k => String.mk ((k.data.reverse.takeWhile (fun c => c != '#')).reverse))
      (newRelationScopeWatcher "peer" "svc/0")
      (.ok [{ Key := "peer#svc/0" }, { Key := "peer#svc/1" }]) =
      .ok ({ Entered := ["svc/1"], Left := [] },
           { scopePrefix := "peer#", ignore := "svc/0", knownUnits := [("svc/1", true)] }) ∧
    runSteps (applyStep (fun k => String.mk ((k.data.reverse.takeWhile (fun c => c != '#')).reverse)))
      ({ Entered := ["svc/1"], Left := [] },
       { scopePrefix := "peer#", ignore := "svc/0", knownUnits := [("svc/1", true)] })
      [.deliver, .merge { Id := "peer#svc/2", Revno := 1 }, .merge { Id := "peer#svc/1", Revno := -1 },
       .merge { Id := "other#svc/3", Revno := 2 }, .merge { Id := "peer#svc/0", Revno := 3 }] =
      .ok ({ Entered := ["svc/2"], Left := ["svc/1"] },
           { scopePrefix := "peer#", ignore := "svc/0", knownUnits := [("svc/2", true)] }) ∧
    "svc/0" ∉ ["svc/2"] ∧ "svc/0" ∉ ["svc/1"] :=
  ⟨rfl, rfl,
    (scope_filtering (fun k => String.mk ((k.data.reverse.takeWhile (fun c => c != '#')).reverse))
      "peer" "svc/0" (.ok [{ Key := "peer#svc/0" }, { Key := "peer#svc/1" }])
      [.deliver, .merge { Id := "peer#svc/2", Revno := 1 }, .merge { Id := "peer#svc/1", Revno := -1 },
       .merge { Id := "other#svc/3", Revno := 2 }, .merge { Id := "peer#svc/0", Revno := 3 }]
      { Entered := ["svc/1"], Left := [] } { Entered := ["svc/2"], Left := ["svc/1"] }
      { scopePrefix := "peer#", ignore := "svc/0", knownUnits := [("svc/1", true)] }
      { scopePrefix := "peer#", ignore := "svc/0", knownUnits := [("svc/2", true)] }
      rfl rfl).2.2.1,
    (scope_filtering (fun k => String.mk ((k.data.reverse.takeWhile (fun c => c != '#')).reverse))
      "peer" "svc/0" (.ok [{ Key := "peer#svc/0" }, { Key := "peer#svc/1" }])
      [.deliver, .merge { Id := "peer#svc/2", Revno := 1 }, .merge { Id := "peer#svc/1", Revno := -1 },
       .merge { Id := "other#svc/3", Revno := 2 }, .merge { Id := "peer#svc/0", Revno := 3 }]
      { Entered := ["svc/1"], Left := [] } { Entered := ["svc/2"], Left := ["svc/1"] }
      { scopePrefix := "peer#", ignore := "svc/0", knownUnits := [("svc/1", true)] }
      { scopePrefix := "peer#", ignore := "svc/0", knownUnits := [("svc/2", true)] }
      rfl rfl).2.2.2.1⟩

/-- One call of `mergeChange` and the occurrences of a unit name `n`: the difference between
its occurrences in `Entered` and in `Left`, less one when it is known, is unchanged; `Left` gains
an occurrence only on a removal of `n`, and `Entered` only on a notification of `n` that is not a
removal. -/
theorem mergeChange_net (unitName : String → String) (w : RelationScopeWatcher)
    (changes : RelationScopeChange) (ch : Change String) (n : String) :
    ∃ changes1 w1, mergeChange unitName w changes ch = .ok (changes1, w1) ∧
      ((changes1.Entered.count n : Int) - changes1.Left.count n - (if w1.isKnown n then 1 else 0) =
        (changes.Entered.count n : Int) - changes.Left.count n - (if w.isKnown n then 1 else 0)) ∧
      (¬ (unitName ch.Id = n ∧ ch.Revno = -1) → changes1.Left.count n = changes.Left.count n) ∧
      (¬ (unitName ch.Id = n ∧ ch.Revno ≠ -1) →
        changes1.Entered.count n = changes.Entered.count n) := by
  rcases mergeChange_cases unitName w changes ch with hm | ⟨_, _, hr, hk, hm⟩ | ⟨_, _, hr, hk, hm⟩
  · exact ⟨_, _, hm, rfl, fun _ => rfl, fun _ => rfl⟩
  · refine ⟨_, _, hm, ?_, ?_, fun _ => rfl⟩
    · by_cases hn : unitName ch.Id = n
      · subst hn
        simp [isKnown, GoMap.get_delete_self, List.count_append] at hk ⊢
        simp only [hk, if_true]
        omega
      · have hne : n ≠ unitName ch.Id := fun e => hn e.symm
        simp [isKnown, GoMap.get_delete_ne _ hne, List.count_append, List.count_singleton, hn]
    · intro hnot
      have hn : unitName ch.Id ≠ n := fun e => hnot ⟨e, hr⟩
      simp [List.count_append, List.count_singleton, hn]
  · refine ⟨_, _, hm, ?_, fun _ => rfl, ?_⟩
    · by_cases hn : unitName ch.Id = n
      · subst hn
        simp [isKnown, GoMap.get_set_self, List.count_append] at hk ⊢
        split
        · rename_i h
          rw [hk] at h
          cases h
        · omega
      · have hne : n ≠ unitName ch.Id := fun e => hn e.symm
        simp [isKnown, GoMap.get_set_ne _ _ hne, List.count_append, List.count_singleton, hn]
    · intro hnot
      have hn : unitName ch.Id ≠ n := fun e => hnot ⟨e, hr⟩
      simp [List.count_append, List.count_singleton, hn]

/-- Successive calls of `mergeChange` on one pending change and the occurrences of a unit name:
the calls succeed, and what `mergeChange_net` says of one call holds of all together. -/
theorem mergeChanges_net (unitName : String → String) (n : String) (chs : List (Change String))
    (w : RelationScopeWatcher) (changes : RelationScopeChange) :
    ∃ changes1 w1, mergeChanges unitName w changes chs = .ok (changes1, w1) ∧
      ((changes1.Entered.count n : Int) - changes1.Left.count n - (if w1.isKnown n then 1 else 0) =
        (changes.Entered.count n : Int) - changes.Left.count n - (if w.isKnown n then 1 else 0)) ∧
      ((∀ ch ∈ chs, unitName ch.Id = n → ch.Revno ≠ -1) →
        changes1.Left.count n = changes.Left.count n) ∧
      ((∀ ch ∈ chs, unitName ch.Id = n → ch.Revno = -1) →
        changes1.Entered.count n = changes.Entered.count n) := by
  induction chs generalizing w changes with
  | nil => exact ⟨changes, w, rfl, rfl, fun _ => rfl, fun _ => rfl⟩
  | cons ch rest ih =>
    obtain ⟨c1, w1, hm, hnet, hl, he⟩ := mergeChange_net unitName w changes ch n
    obtain ⟨c2, w2, hm2, hnet2, hl2, he2⟩ := ih w1 c1
    refine ⟨c2, w2, ?_, ?_, ?_, ?_⟩
    · simp only [mergeChanges, hm]
      exact hm2
    · rw [hnet2, hnet]
    · intro h
      rw [hl2 (fun c hc => h c (List.mem_cons_of_mem _ hc)),
        hl (fun hh => h ch (List.mem_cons_self _ _) hh.1 hh.2)]
    · intro h
      rw [he2 (fun c hc => h c (List.mem_cons_of_mem _ hc)),
        he (fun hh => hh.2 (h ch (List.mem_cons_self _ _) hh.1))]

/-- A sequence of merges and deliveries in two parts is the first part followed by the second. -/
theorem runSteps_append {S A : Type} (apply : S → Step A → Except Error S) (s : S)
    (p q : List (Step A)) :
    runSteps apply s (p ++ q) =
      match runSteps apply s p with
      | .ok s1 => runSteps apply s1 q
      | .error err => .error err := by
  induction p generalizing s with
  | nil => rfl
  | cons st rest ih =>
    simp only [List.cons_append, runSteps]
    cases apply s st with
    | error err => rfl
    | ok s1 => exact ih s1

/-- The loop of `getInitialEvent` over documents with distinct unit names, none of them in
`Entered` yet: `Left` stays empty and a unit name is once in `Entered` if it is known and not in
`Entered` otherwise, when that was so before the loop. -/
theorem scope_initial_balanced (unitName : String → String) (docs : List relationScopeDoc)
    (acc : RelationScopeChange × RelationScopeWatcher)
    (hleft : acc.1.Left = [])
    (hbal : ∀ n, acc.1.Entered.count n = if acc.2.isKnown n = true then 1 else 0)
    (hnd : (docs.map (fun d => unitName d.Key)).Nodup)
    (hfresh : ∀ d ∈ docs, unitName d.Key ∉ acc.1.Entered) :
    (docs.foldl
      (fun (acc : RelationScopeChange × RelationScopeWatcher) doc =>
        let name := unitName doc.Key
        if name ≠ acc.2.ignore then
          ({ acc.1 with Entered := acc.1.Entered ++ [name] },
           { acc.2 with knownUnits := acc.2.knownUnits.set name true })
        else acc)
      acc).1.Left = [] ∧
    ∀ n, (docs.foldl
      (fun (acc : RelationScopeChange × RelationScopeWatcher) doc =>
        let name := unitName doc.Key
        if name ≠ acc.2.ignore then
          ({ acc.1 with Entered := acc.1.Entered ++ [name] },
           { acc.2 with knownUnits := acc.2.knownUnits.set name true })
        else acc)
      acc).1.Entered.count n =
      if (docs.foldl
        (fun (acc : RelationScopeChange × RelationScopeWatcher) doc =>
          let name := unitName doc.Key
          if name ≠ acc.2.ignore then
            ({ acc.1 with Entered := acc.1.Entered ++ [name] },
             { acc.2 with knownUnits := acc.2.knownUnits.set name true })
          else acc)
        acc).2.isKnown n = true then 1 else 0 := by
  induction docs generalizing acc with
  | nil => exact ⟨hleft, hbal⟩
  | cons d rest ih =>
    rw [List.map_cons, List.nodup_cons] at hnd
    simp only [List.foldl]
    by_cases hn : unitName d.Key = acc.2.ignore
    · simp only [hn, ne_eq, not_true_eq_false, if_false]
      exact ih acc hleft hbal hnd.2 (fun d2 hd2 => hfresh d2 (List.mem_cons_of_mem _ hd2))
    · simp only [ne_eq, hn, not_false_eq_true, if_true]
      have hnew : unitName d.Key ∉ acc.1.Entered := hfresh d (List.mem_cons_self _ _)
      refine ih
        ({ Entered := acc.1.Entered ++ [unitName d.Key], Left := acc.1.Left },
         { scopePrefix := acc.2.scopePrefix, ignore := acc.2.ignore,
           knownUnits := acc.2.knownUnits.set (unitName d.Key) true })
        hleft ?_ hnd.2 ?_
      · intro n
        by_cases hnn : n = unitName d.Key
        · subst hnn
          simp [isKnown, GoMap.get_set_self, List.count_append,
            List.count_eq_zero_of_not_mem hnew]
        · have h2 := hbal n
          have hne : unitName d.Key ≠ n := fun e => hnn e.symm
          simp only [isKnown] at h2
          simp [isKnown, GoMap.get_set_ne _ _ hnn, List.count_append, List.count_singleton, hne,
            h2]
      · intro d2 hd2
        have h1 := hfresh d2 (List.mem_cons_of_mem _ hd2)
        have h2 : unitName d2.Key ≠ unitName d.Key := by
          intro e
          apply hnd.1
          rw [← e]
          exact List.mem_map_of_mem (fun d => unitName d.Key) hd2
        simp only [List.mem_append, List.mem_singleton, not_or]
        exact ⟨h1, h2⟩

/-- A sequence of merges and deliveries returns no error, and it keeps the occurrences of a unit
name in `Entered`, less those in `Left`, less one when the name is known, at 0 or -1. -/
theorem balanced_run (unitName : String → String) (n : String)
    (steps : List (Step (Change String))) (s : RelationScopeChange × RelationScopeWatcher)
    (h : -1 ≤ (s.1.Entered.count n : Int) - s.1.Left.count n -
        (if s.2.isKnown n = true then 1 else 0) ∧
      (s.1.Entered.count n : Int) - s.1.Left.count n -
        (if s.2.isKnown n = true then 1 else 0) ≤ 0) :
    ∃ s1, runSteps (applyStep unitName) s steps = .ok s1 ∧
      -1 ≤ (s1.1.Entered.count n : Int) - s1.1.Left.count n -
        (if s1.2.isKnown n = true then 1 else 0) ∧
      (s1.1.Entered.count n : Int) - s1.1.Left.count n -
        (if s1.2.isKnown n = true then 1 else 0) ≤ 0 := by
  induction steps generalizing s with
  | nil => exact ⟨s, rfl, h⟩
  | cons st rest ih =>
    cases st with
    | deliver =>
      simp only [runSteps, applyStep]
      apply ih
      simp only [List.count_nil, Nat.cast_zero, sub_zero, zero_sub]
      split <;> omega
    | merge ch =>
      obtain ⟨c1, w1, hm, hnet, _, _⟩ := mergeChange_net unitName s.2 s.1 ch n
      simp only [runSteps, applyStep, hm]
      apply ih (c1, w1)
      simp only
      rw [hnet]
      exact h

/-- C10 as stated fails, with the real `unitName` of "peer#svc/1". In the first batch, a unit of
the initial state that leaves before the consumer reads is once in `Entered` and once in `Left`.
And after the first batch has been delivered, a unit that enters, leaves and enters again before
the consumer reads is twice in `Entered` and once in `Left`. -/
theorem scope_batch_counterexample :
    getInitialEvent (fun k => String.mk ((k.data.reverse.takeWhile (fun c => c != '#')).reverse))
      (newRelationScopeWatcher "peer" "svc/0") (.ok [{ Key := "peer#svc/1" }]) =
      .ok ({ Entered := ["svc/1"], Left := [] },
           { scopePrefix := "peer#", ignore := "svc/0", knownUnits := [("svc/1", true)] }) ∧
    runSteps (applyStep (fun k => String.mk ((k.data.reverse.takeWhile (fun c => c != '#')).reverse)))
      ({ Entered := ["svc/1"], Left := [] },
       { scopePrefix := "peer#", ignore := "svc/0", knownUnits := [("svc/1", true)] })
      [.merge { Id := "peer#svc/1", Revno := -1 }] =
      .ok ({ Entered := ["svc/1"], Left := ["svc/1"] },
           { scopePrefix := "peer#", ignore := "svc/0", knownUnits := [] }) ∧
    (["svc/1"] ++ ["svc/1"]).count "svc/1" = 2 ∧
    runSteps (applyStep (fun k => String.mk ((k.data.reverse.takeWhile (fun c => c != '#')).reverse)))
      ({ Entered := ["svc/1"], Left := [] },
       { scopePrefix := "peer#", ignore := "svc/0", knownUnits := [("svc/1", true)] })
      [.deliver, .merge { Id := "peer#svc/2", Revno := 1 },
       .merge { Id := "peer#svc/2", Revno := -1 }, .merge { Id := "peer#svc/2", Revno := 2 }] =
      .ok ({ Entered := ["svc/2", "svc/2"], Left := ["svc/2"] },
           { scopePrefix := "peer#", ignore := "svc/0",
             knownUnits := [("svc/2", true), ("svc/1", true)] }) ∧
    (["svc/2", "svc/2"] ++ ["svc/2"]).count "svc/2" = 3 :=
  ⟨rfl, rfl, by decide, rfl, by decide⟩

/-- C10, amended. Take `RelationScopeWatcher.loop` from `getInitialEvent` on a new watcher, over
documents with distinct unit names, through any merges and deliveries `pre`, and then the
notifications `chs` merged by `mergeChange` into the pending change with no read of the consumer
in between. The calls return no error, and in the pending change each unit name occurs in
`Entered` at most once more than in `Left` and in `Left` at most once more than in `Entered`.
When the pending change started empty after a delivery, a unit name whose notifications in
`chs` are all removals, or all not removals, occurs at most once in `Entered` and `Left` taken
together. When the pending change is the first one, which started as the initial event, a unit
name occurs in `Left` at most as often as in `Entered`; one whose notifications are all not
removals occurs at most once in `Entered` and `Left` taken together; and one whose notifications
are all removals occurs in `Entered` as often as in the initial event, which is at most once,
and in `Left` at most as often. -/
theorem scope_batch_occurrences (unitName : String → String) (scope ignore : String)
    (docs : List relationScopeDoc) (c0 : RelationScopeChange) (w0 : RelationScopeWatcher)
    (pre : List (Step (Change String))) (chs : List (Change String)) (n : String)
    (hinit : getInitialEvent unitName (newRelationScopeWatcher scope ignore) (.ok docs) =
      .ok (c0, w0))
    (hnodup : (docs.map (fun d => unitName d.Key)).Nodup) :
    ∃ start changes w,
      runSteps (applyStep unitName) (c0, w0) pre = .ok start ∧
      mergeChanges unitName start.2 start.1 chs = .ok (changes, w) ∧
      changes.Entered.count n ≤ changes.Left.count n + 1 ∧
      changes.Left.count n ≤ changes.Entered.count n + 1 ∧
      ((∃ p, pre = p ++ [Step.deliver]) →
        start.1 = { Entered := [], Left := [] } ∧
        ((∀ ch ∈ chs, unitName ch.Id = n → ch.Revno ≠ -1) →
          (changes.Entered ++ changes.Left).count n ≤ 1) ∧
        ((∀ ch ∈ chs, unitName ch.Id = n → ch.Revno = -1) →
          (changes.Entered ++ changes.Left).count n ≤ 1)) ∧
      (pre = [] →
        start = (c0, w0) ∧ c0.Left = [] ∧ c0.Entered.count n ≤ 1 ∧
        changes.Left.count n ≤ changes.Entered.count n ∧
        ((∀ ch ∈ chs, unitName ch.Id = n → ch.Revno ≠ -1) →
          (changes.Entered ++ changes.Left).count n ≤ 1) ∧
        ((∀ ch ∈ chs, unitName ch.Id = n → ch.Revno = -1) →
          changes.Entered.count n = c0.Entered.count n ∧
          changes.Left.count n ≤ c0.Entered.count n)) := by
  have hfold := scope_initial_balanced unitName docs
    ({ Entered := [], Left := [] }, newRelationScopeWatcher scope ignore) rfl
    (by intro n; simp [isKnown, newRelationScopeWatcher, GoMap.get]) hnodup (by simp)
  simp only [getInitialEvent] at hinit
  injection hinit with hinit
  rw [hinit] at hfold
  obtain ⟨hl0, hb0⟩ := hfold
  simp only at hl0 hb0
  have hbn := hb0 n
  have h0 : -1 ≤ (c0.Entered.count n : Int) - c0.Left.count n -
        (if w0.isKnown n = true then 1 else 0) ∧
      (c0.Entered.count n : Int) - c0.Left.count n -
        (if w0.isKnown n = true then 1 else 0) ≤ 0 := by
    rw [hl0, hbn]
    simp only [List.count_nil, Nat.cast_zero, sub_zero]
    split <;> simp
  obtain ⟨start, hrun, hs1, hs2⟩ := balanced_run unitName n pre (c0, w0) h0
  obtain ⟨c, w1, hm, hnet, hl, he⟩ := mergeChanges_net unitName n chs start.2 start.1
  have hb1 : (if w1.isKnown n = true then (1 : Int) else 0) ≤ 1 := by split <;> omega
  have hb2 : (0 : Int) ≤ (if w1.isKnown n = true then (1 : Int) else 0) := by split <;> omega
  have hb3 : (if start.2.isKnown n = true then (1 : Int) else 0) ≤ 1 := by split <;> omega
  have hb4 : (0 : Int) ≤ (if start.2.isKnown n = true then (1 : Int) else 0) := by
    split <;> omega
  refine ⟨start, c, w1, hrun, hm, by omega, by omega, ?_, ?_⟩
  · rintro ⟨p, hp⟩
    have hempty : start.1 = { Entered := [], Left := [] } := by
      rw [hp, runSteps_append] at hrun
      cases hrp : runSteps (applyStep unitName) (c0, w0) p with
      | error err => rw [hrp] at hrun; cases hrun
      | ok sp =>
        rw [hrp] at hrun
        simp only [runSteps, applyStep] at hrun
        injection hrun with hrun
        rw [← hrun]
    rw [hempty] at hnet hl he
    simp only [List.count_nil, Nat.cast_zero, sub_zero, zero_sub] at hnet hl he
    refine ⟨hempty, ?_, ?_⟩
    · intro h
      have := hl h
      rw [List.count_append]
      omega
    · intro h
      have := he h
      rw [List.count_append]
      omega
  · intro hpre
    rw [hpre] at hrun
    simp only [runSteps] at hrun
    injection hrun with hrun
    rw [← hrun] at hnet hl he hb3 hb4
    simp only at hnet hl he hb3 hb4
    rw [hl0] at hnet hl
    simp only [List.count_nil, Nat.cast_zero, sub_zero] at hnet hl
    have hk0 : (c0.Entered.count n : Int) = if w0.isKnown n = true then 1 else 0 := by
      rw [hbn]
      split <;> simp
    refine ⟨hrun.symm, hl0, by omega, by omega, ?_, ?_⟩
    · intro h
      have := hl h
      rw [List.count_append]
      omega
    · intro h
      have := he h
      exact ⟨this, by omega⟩

/-- C10, amended, on the first batch: "svc/1" is in the initial event and leaves before the
consumer reads, and is then once in `Entered` and once in `Left`. -/
theorem scope_batch_occurrences_witness :
    getInitialEvent (fun k => String.mk ((k.data.reverse.takeWhile (fun c => c != '#')).reverse))
      (newRelationScopeWatcher "peer" "svc/0")
      (.ok [{ Key := "peer#svc/1" }, { Key := "peer#svc/0" }]) =
      .ok ({ Entered := ["svc/1"], Left := [] },
           { scopePrefix := "peer#", ignore := "svc/0", knownUnits := [("svc/1", true)] }) ∧
    ([({ Key := "peer#svc/1" } : relationScopeDoc), { Key := "peer#svc/0" }].map
      (fun d => (fun k => String.mk ((k.data.reverse.takeWhile (fun c => c != '#')).reverse)) d.Key)).Nodup ∧
    mergeChanges (fun k => String.mk ((k.data.reverse.takeWhile (fun c => c != '#')).reverse))
      { scopePrefix := "peer#", ignore := "svc/0", knownUnits := [("svc/1", true)] }
      { Entered := ["svc/1"], Left := [] } [{ Id := "peer#svc/1", Revno := -1 }] =
      .ok ({ Entered := ["svc/1"], Left := ["svc/1"] },
           { scopePrefix := "peer#", ignore := "svc/0", knownUnits := [] }) ∧
    ∃ start changes w,
      runSteps (applyStep (fun k => String.mk ((k.data.reverse.takeWhile (fun c => c != '#')).reverse)))
        ({ Entered := ["svc/1"], Left := [] },
         { scopePrefix := "peer#", ignore := "svc/0", knownUnits := [("svc/1", true)] }) [] =
        .ok start ∧
      mergeChanges (fun k => String.mk ((k.data.reverse.takeWhile (fun c => c != '#')).reverse)) start.2 start.1 [{ Id := "peer#svc/1", Revno := -1 }] =
        .ok (changes, w) ∧
      changes.Entered.count "svc/1" ≤ changes.Left.count "svc/1" + 1 ∧
      changes.Left.count "svc/1" ≤ changes.Entered.count "svc/1" + 1 :=
  ⟨rfl, by decide, rfl,
    (scope_batch_occurrences (fun k => String.mk ((k.data.reverse.takeWhile (fun c => c != '#')).reverse)) "peer" "svc/0"
      [{ Key := "peer#svc/1" }, { Key := "peer#svc/0" }]
      { Entered := ["svc/1"], Left := [] }
      { scopePrefix := "peer#", ignore := "svc/0", knownUnits := [("svc/1", true)] }
      [] [{ Id := "peer#svc/1", Revno := -1 }] "svc/1" rfl (by decide)).imp
      (fun _ h => h.imp (fun _ h => h.imp (fun _ h => ⟨h.1, h.2.1, h.2.2.1, h.2.2.2.1⟩)))⟩

end RelationScopeWatcher

/-! ## RelationUnitsWatcher: mergeScope -/

/-- The function `remove` returns a rearrangement of the list without the first element equal
to `s`. -/
theorem remove_perm (strs : List String) (s : String) : (remove strs s).Perm (strs.erase s) := by
  induction strs with
  | nil => simp [remove]
  | cons v rest ih =>
    by_cases h : s = v
    · subst h
      simp only [remove, if_true, List.erase_cons_head]
      cases hl : rest.getLast? with
      | none =>
        have : rest = [] := List.getLast?_eq_none_iff.mp hl
        simp [this]
      | some last =>
        have h2 := List.dropLast_append_getLast? last hl
        simp only
        rw [← h2]
        simp only [List.dropLast_concat]
        exact (List.perm_append_singleton last rest.dropLast).symm
    · have h3 : ¬ v = s := fun e => h e.symm
      have h4 : (v == s) = false := by simpa using h3
      simp only [remove, h, if_false, List.erase_cons, h4]
      exact List.Perm.cons v ih

/-- The function `remove` takes one occurrence of `s` away, if there is one, and leaves the
number of occurrences of every other element as it is. -/
theorem count_remove (strs : List String) (s x : String) :
    (remove strs s).count x = strs.count x - (if x = s then 1 else 0) := by
  rw [(remove_perm strs s).count_eq, List.count_erase]
  by_cases h : x = s
  · subst h; simp
  · have h2 : ¬ s = x := fun e => h e.symm
    simp [h, h2]

/-- String concatenation with one left part is injective in the right part. -/
theorem append_right_injective (pre a b : String) (h : pre ++ a = pre ++ b) : a = b := by
  have h1 := congrArg String.data h
  simp only [String.data_append] at h1
  exact String.ext (List.append_cancel_left h1)

namespace RelationUnitsWatcher

/-- A successful `mergeSettings` has read the settings of the key, returns their revision
number, sets the `Changed` entry of the unit name of the key to them, and leaves the other
entries and the two lists alone. -/
theorem mergeSettings_ok {unitName : String → String}
    {readSettings : String → Except Error SettingsNode} {changes changes1 : RelationUnitsChange}
    {key : String} {revno : Int}
    (h : mergeSettings unitName readSettings changes key = .ok (revno, changes1)) :
    ∃ node, readSettings key = .ok node ∧ revno = node.txnRevno ∧
      changes1.Joined = changes.Joined ∧ changes1.Departed = changes.Departed ∧
      changes1.changed (unitName key) =
        some { Version := node.txnRevno, Settings := node.map } ∧
      (∀ x, x ≠ unitName key → changes1.changed x = changes.changed x) ∧
      changes1.empty = false := by
  unfold mergeSettings at h
  cases hr : readSettings key with
  | error err => simp [hr] at h
  | ok node =>
    simp only [hr] at h
    refine ⟨node, rfl, ?_⟩
    cases hc : changes.Changed with
    | none =>
      simp only [hc] at h
      injection h with h
      injection h with h1 h2
      subst h2
      refine ⟨h1.symm, rfl, rfl, ?_, ?_, ?_⟩
      · simp [RelationUnitsChange.changed, GoMap.get]
      · intro x hx
        have hx2 : ¬ unitName key = x := fun e => hx e.symm
        simp [RelationUnitsChange.changed, GoMap.get, hc, hx2]
      · simp [RelationUnitsChange.empty]
    | some m =>
      simp only [hc] at h
      injection h with h
      injection h with h1 h2
      subst h2
      refine ⟨h1.symm, rfl, rfl, ?_, ?_, ?_⟩
      · simp [RelationUnitsChange.changed, GoMap.get_set_self]
      · intro x hx
        simp [RelationUnitsChange.changed, hc, GoMap.get_set_ne _ _ hx]
      · simp [RelationUnitsChange.empty, GoMap.set]

/-- The first `for` of `mergeScope`, when it succeeds: the names are appended to `Joined`, one
occurrence of each is removed from `Departed`, their settings keys are in `watching`, their
`Changed` entries hold the settings read, and the rest is left alone. -/
theorem mergeEntered_ok (unitName : String → String)
    (readSettings : String → Except Error SettingsNode) (names : List String)
    (changes changes1 : RelationUnitsChange) (w w1 : RelationUnitsWatcher)
    (h : mergeEntered unitName readSettings names (changes, w) = .ok (changes1, w1)) :
    changes1.Joined = changes.Joined ++ names ∧
    (∀ x, changes1.Departed.count x = changes.Departed.count x - names.count x) ∧
    w1.sw = w.sw ∧
    (∀ n ∈ names, w1.watching.get (w.sw.scopePrefix ++ n) = some true) ∧
    (∀ k, (∀ n ∈ names, w.sw.scopePrefix ++ n ≠ k) → w1.watching.get k = w.watching.get k) ∧
    (∀ x, (∀ n ∈ names, unitName (w.sw.scopePrefix ++ n) ≠ x) →
      changes1.changed x = changes.changed x) ∧
    ((∀ n ∈ names, unitName (w.sw.scopePrefix ++ n) = n) →
      ∀ n ∈ names, ∀ node, readSettings (w.sw.scopePrefix ++ n) = .ok node →
        changes1.changed n = some { Version := node.txnRevno, Settings := node.map }) := by
  induction names generalizing changes w with
  | nil =>
    simp only [mergeEntered] at h
    injection h with h
    injection h with h1 h2
    subst h1 h2
    simp
  | cons n rest ih =>
    simp only [mergeEntered] at h
    cases hm : mergeSettings unitName readSettings changes (w.sw.scopePrefix ++ n) with
    | error err => simp [hm] at h
    | ok r =>
      obtain ⟨revno, c1⟩ := r
      simp only [hm] at h
      obtain ⟨node1, hread, _, hj, hd, hset, hframe, _⟩ := mergeSettings_ok hm
      obtain ⟨i1, i2, i3, i4, i5, i6, i7⟩ := ih _ _ h
      simp only at i1 i2 i3 i4 i5 i6 i7
      have hc2 : ∀ x, RelationUnitsChange.changed
          { Joined := c1.Joined ++ [n], Changed := c1.Changed, Departed := remove c1.Departed n } x =
          c1.changed x := fun x => rfl
      refine ⟨?_, ?_, i3, ?_, ?_, ?_, ?_⟩
      · rw [i1, hj]; simp
      · intro x
        rw [i2 x, count_remove, hd, List.count_cons]
        by_cases hx : x = n
        · subst hx; simp; omega
        · have hx2 : ¬ n = x := fun e => hx e.symm
          simp [hx, hx2]
      · intro m hmem
        by_cases hr : m ∈ rest
        · exact i4 m hr
        · have hmn : m = n := by
            rcases List.mem_cons.mp hmem with e | e
            · exact e
            · exact absurd e hr
          subst hmn
          rw [i5 _ (fun m2 hm2 e => hr (by
            have h3 := append_right_injective _ _ _ e
            rw [← h3]; exact hm2))]
          exact GoMap.get_set_self _ _ _
      · intro k hk
        rw [i5 k (fun m hm2 => hk m (List.mem_cons_of_mem _ hm2))]
        exact GoMap.get_set_ne _ _ (fun e => hk n (List.mem_cons_self _ _) e.symm)
      · intro x hx
        rw [i6 x (fun m hm2 => hx m (List.mem_cons_of_mem _ hm2)), hc2]
        exact hframe x (fun e => hx n (List.mem_cons_self _ _) e.symm)
      · intro hcontract m hmem node hnode
        by_cases hr : m ∈ rest
        · exact i7 (fun m2 hm2 => hcontract m2 (List.mem_cons_of_mem _ hm2)) m hr node hnode
        · have hmn : m = n := by
            rcases List.mem_cons.mp hmem with e | e
            · exact e
            · exact absurd e hr
          subst hmn
          have hun := hcontract m (List.mem_cons_self _ _)
          rw [i6 m (fun m2 hm2 e => hr (by
            have h3 := (hcontract m2 (List.mem_cons_of_mem _ hm2)).symm.trans e
            rw [← h3]; exact hm2)),
            hc2]
          rw [hun] at hset
          rw [hread] at hnode
          injection hnode with hnode
          rw [← hnode]
          exact hset

/-- The second `for` of `mergeScope`: the names are appended to `Departed`, one occurrence of
each is removed from `Joined`, their `Changed` entries and their settings keys in `watching` are
deleted, and the rest is left alone. -/
theorem mergeLeft_spec (names : List String) (changes : RelationUnitsChange)
    (w : RelationUnitsWatcher) :
    (mergeLeft names (changes, w)).1.Departed = changes.Departed ++ names ∧
    (∀ x, (mergeLeft names (changes, w)).1.Joined.count x =
      changes.Joined.count x - names.count x) ∧
    (∀ x, x ∈ names → (mergeLeft names (changes, w)).1.changed x = none) ∧
    (∀ x, x ∉ names → (mergeLeft names (changes, w)).1.changed x = changes.changed x) ∧
    (mergeLeft names (changes, w)).2.sw = w.sw ∧
    (∀ n ∈ names, (mergeLeft names (changes, w)).2.watching.get (w.sw.scopePrefix ++ n) = none) ∧
    (∀ k, (∀ n ∈ names, w.sw.scopePrefix ++ n ≠ k) →
      (mergeLeft names (changes, w)).2.watching.get k = w.watching.get k) := by
  induction names generalizing changes w with
  | nil => simp [mergeLeft]
  | cons n rest ih =>
    simp only [mergeLeft]
    obtain ⟨i1, i2, i3, i4, i5, i6, i7⟩ := ih
      { Joined := remove changes.Joined n,
        Changed := match changes.Changed with
          | none => none
          | some m => some (m.delete n),
        Departed := changes.Departed ++ [n] }
      { w with calls := w.calls ++ [.Unwatch (.name (w.sw.scopePrefix ++ n))],
               watching := w.watching.delete (w.sw.scopePrefix ++ n) }
    simp only at i1 i2 i3 i4 i5 i6 i7
    have hdel : ∀ x, RelationUnitsChange.changed
        { Joined := remove changes.Joined n,
          Changed := match changes.Changed with
            | none => none
            | some m => some (m.delete n),
          Departed := changes.Departed ++ [n] } x =
        if x = n then none else changes.changed x := by
      intro x
      cases hc : changes.Changed with
      | none => simp [RelationUnitsChange.changed, hc]
      | some m =>
        by_cases hx : x = n
        · subst hx; simp [RelationUnitsChange.changed, GoMap.get_delete_self]
        · simp [RelationUnitsChange.changed, hc, hx, GoMap.get_delete_ne _ hx]
    refine ⟨?_, ?_, ?_, ?_, i5, ?_, ?_⟩
    · rw [i1]; simp
    · intro x
      rw [i2 x, count_remove, List.count_cons]
      by_cases hx : x = n
      · subst hx; simp; omega
      · have hx2 : ¬ n = x := fun e => hx e.symm
        simp [hx, hx2]
    · intro x hx
      by_cases hr : x ∈ rest
      · exact i3 x hr
      · have hxn : x = n := by
          rcases List.mem_cons.mp hx with e | e
          · exact e
          · exact absurd e hr
        rw [i4 x hr, hdel, if_pos hxn]
    · intro x hx
      simp only [List.mem_cons, not_or] at hx
      rw [i4 x hx.2, hdel, if_neg hx.1]
    · intro m hmem
      by_cases hr : m ∈ rest
      · exact i6 m hr
      · have hmn : m = n := by
          rcases List.mem_cons.mp hmem with e | e
          · exact e
          · exact absurd e hr
        subst hmn
        rw [i7 _ (fun m2 hm2 e => hr (by
            have h3 := append_right_injective _ _ _ e
            rw [← h3]; exact hm2))]
        exact GoMap.get_delete_self _ _
    · intro k hk
      rw [i7 k (fun m hm2 => hk m (List.mem_cons_of_mem _ hm2))]
      exact GoMap.get_delete_ne _ (fun e => hk n (List.mem_cons_self _ _) e.symm)

/-- The first `for` of `mergeScope` succeeds only if the settings of every name are read. -/
theorem mergeEntered_reads (unitName : String → String)
    (readSettings : String → Except Error SettingsNode) (names : List String)
    (changes changes1 : RelationUnitsChange) (w w1 : RelationUnitsWatcher)
    (h : mergeEntered unitName readSettings names (changes, w) = .ok (changes1, w1)) :
    ∀ n ∈ names, ∃ node, readSettings (w.sw.scopePrefix ++ n) = .ok node := by
  induction names generalizing changes w with
  | nil => intro n hn; cases hn
  | cons m rest ih =>
    simp only [mergeEntered] at h
    cases hm : mergeSettings unitName readSettings changes (w.sw.scopePrefix ++ m) with
    | error err => simp [hm] at h
    | ok r =>
      obtain ⟨revno, c1⟩ := r
      simp only [hm] at h
      obtain ⟨node1, hread, _⟩ := mergeSettings_ok hm
      intro n hn
      rcases List.mem_cons.mp hn with e | e
      · exact ⟨node1, e ▸ hread⟩
      · exact ih _ _ h n e

/-- C11 as stated fails: a pending change that lists "svc/1" twice in `Departed` (as `mergeScope`
leaves it after a scope change whose `Left` has the name twice) still lists it once after the
unit has entered again, since `remove` takes one occurrence away. -/
theorem mergeScope_entered_counterexample :
    mergeScope (fun k => String.mk ((k.data.reverse.takeWhile (fun c => c != '#')).reverse))
      (fun k => if k = "peer#svc/1" then .ok { txnRevno := 7, map := [("a", "1")] }
        else .error "settings not found")
      { sw := newRelationScopeWatcher "peer" "svc/0", watching := [], calls := [] }
      { Joined := [], Changed := none, Departed := ["svc/1", "svc/1"] }
      { Entered := ["svc/1"], Left := [] } =
      .ok ({ Joined := ["svc/1"],
             Changed := some [("svc/1", { Version := 7, Settings := [("a", "1")] })],
             Departed := ["svc/1"] },
           { sw := newRelationScopeWatcher "peer" "svc/0",
             watching := [("peer#svc/1", true)],
             calls := [.Watch (.name "peer#svc/1") 7] }) ∧
    "svc/1" ∈ ["svc/1"] :=
  ⟨rfl, by decide⟩

/-- C11, amended: `mergeScope`, Entered case. For every pending `RelationUnitsChange` and every
scope change whose `Entered` contains N and whose `Left` does not, where N occurs in the pending
`Departed` at most as often as in `Entered` and the unit name of the settings key of every entered
name is that name: after a successful `mergeScope`, N is in `Joined`, `Changed[N]` holds the revno
and map just read from the settings of N, N does not occur in `Departed`, and the settings key
prefix+N is in the `watching` set. -/
theorem mergeScope_entered (unitName : String → String)
    (readSettings : String → Except Error SettingsNode) (w w1 : RelationUnitsWatcher)
    (changes changes1 : RelationUnitsChange) (c : RelationScopeChange) (N : String)
    (hN : N ∈ c.Entered) (hL : N ∉ c.Left)
    (hdep : changes.Departed.count N ≤ c.Entered.count N)
    (hname : ∀ n ∈ c.Entered, unitName (w.sw.scopePrefix ++ n) = n)
    (h : mergeScope unitName readSettings w changes c = .ok (changes1, w1)) :
    N ∈ changes1.Joined ∧
    (∃ node, readSettings (w.sw.scopePrefix ++ N) = .ok node ∧
      changes1.changed N = some { Version := node.txnRevno, Settings := node.map }) ∧
    N ∉ changes1.Departed ∧
    w1.watching.get (w.sw.scopePrefix ++ N) = some true := by
  unfold mergeScope at h
  cases he : mergeEntered unitName readSettings c.Entered (changes, w) with
  | error err => simp [he] at h
  | ok s =>
    obtain ⟨c1, w2⟩ := s
    simp only [he] at h
    injection h with h
    obtain ⟨e1, e2, e3, e4, _, _, e7⟩ := mergeEntered_ok _ _ _ _ _ _ _ he
    obtain ⟨node, hnode⟩ := mergeEntered_reads _ _ _ _ _ _ _ he N hN
    obtain ⟨l1, l2, _, l4, _, _, l7⟩ := mergeLeft_spec c.Left c1 w2
    rw [h] at l1 l2 l4 l7
    simp only at l1 l2 l4 l7
    refine ⟨?_, ⟨node, hnode, ?_⟩, ?_, ?_⟩
    · rw [← List.count_pos_iff, l2 N, e1, List.count_append, List.count_eq_zero.mpr hL]
      have := List.count_pos_iff.mpr hN
      omega
    · rw [l4 N hL]
      exact e7 hname N hN node hnode
    · rw [l1, List.mem_append, not_or]
      refine ⟨?_, hL⟩
      rw [← List.count_eq_zero, e2 N]
      omega
    · rw [l7 _ (fun n hn e => hL (by
        rw [e3] at e
        have h3 := append_right_injective _ _ _ e
        rw [← h3]; exact hn))]
      exact e4 N hN

/-- C11, amended, on scenario S4: "svc/1" enters with settings revno 7 and map {a: 1}. -/
theorem mergeScope_entered_witness :
    "svc/1" ∈ ["svc/1"] ∧ "svc/1" ∉ ([] : List String) ∧
    mergeScope (fun k => String.mk ((k.data.reverse.takeWhile (fun c => c != '#')).reverse))
      (fun k => if k = "peer#svc/1" then .ok { txnRevno := 7, map := [("a", "1")] }
        else .error "settings not found")
      { sw := newRelationScopeWatcher "peer" "svc/0", watching := [], calls := [] }
      { Joined := [], Changed := none, Departed := ["svc/1"] }
      { Entered := ["svc/1"], Left := [] } =
      .ok ({ Joined := ["svc/1"],
             Changed := some [("svc/1", { Version := 7, Settings := [("a", "1")] })],
             Departed := [] },
           { sw := newRelationScopeWatcher "peer" "svc/0",
             watching := [("peer#svc/1", true)],
             calls := [.Watch (.name "peer#svc/1") 7] }) ∧
    "svc/1" ∉ ([] : List String) ∧
    GoMap.get [("peer#svc/1", true)] ("peer#" ++ "svc/1") = some true :=
  ⟨by decide, by decide, rfl,
    (mergeScope_entered
      (fun k => String.mk ((k.data.reverse.takeWhile (fun c => c != '#')).reverse))
      (fun k => if k = "peer#svc/1" then .ok { txnRevno := 7, map := [("a", "1")] }
        else .error "settings not found")
      { sw := newRelationScopeWatcher "peer" "svc/0", watching := [], calls := [] }
      { sw := newRelationScopeWatcher "peer" "svc/0", watching := [("peer#svc/1", true)],
        calls := [.Watch (.name "peer#svc/1") 7] }
      { Joined := [], Changed := none, Departed := ["svc/1"] }
      { Joined := ["svc/1"],
        Changed := some [("svc/1", { Version := 7, Settings := [("a", "1")] })],
        Departed := [] }
      { Entered := ["svc/1"], Left := [] } "svc/1"
      (by decide) (by decide) (by decide) (by decide) rfl).2.2⟩

/-- C12 as stated fails: when a unit enters, leaves and enters again within one scope change,
`Entered` has its name twice and `Left` once, and after `mergeScope` the name is still in
`Joined`, next to `Departed`. -/
theorem mergeScope_left_counterexample :
    mergeScope (fun k => String.mk ((k.data.reverse.takeWhile (fun c => c != '#')).reverse))
      (fun k => if k = "peer#svc/1" then .ok { txnRevno := 7, map := [("a", "1")] }
        else .error "settings not found")
      { sw := newRelationScopeWatcher "peer" "svc/0", watching := [], calls := [] }
      { Joined := [], Changed := none, Departed := [] }
      { Entered := ["svc/1", "svc/1"], Left := ["svc/1"] } =
      .ok ({ Joined := ["svc/1"], Changed := some [], Departed := ["svc/1"] },
           { sw := newRelationScopeWatcher "peer" "svc/0",
             watching := [],
             calls := [.Watch (.name "peer#svc/1") 7, .Watch (.name "peer#svc/1") 7,
                       .Unwatch (.name "peer#svc/1")] }) ∧
    "svc/1" ∈ ["svc/1"] :=
  ⟨rfl, by decide⟩

/-- C12, amended: `mergeScope`, Left case. For every pending `RelationUnitsChange` and every
scope change whose `Left` contains N at least as often as N occurs in the pending `Joined` and in
`Entered` together: after a successful `mergeScope`, N is in `Departed`, `Changed` has no entry
for N, N does not occur in `Joined`, and the settings key prefix+N is not in the `watching`
set. -/
theorem mergeScope_left (unitName : String → String)
    (readSettings : String → Except Error SettingsNode) (w w1 : RelationUnitsWatcher)
    (changes changes1 : RelationUnitsChange) (c : RelationScopeChange) (N : String)
    (hN : N ∈ c.Left)
    (hj : changes.Joined.count N + c.Entered.count N ≤ c.Left.count N)
    (h : mergeScope unitName readSettings w changes c = .ok (changes1, w1)) :
    N ∈ changes1.Departed ∧ changes1.changed N = none ∧ N ∉ changes1.Joined ∧
    w1.watching.get (w.sw.scopePrefix ++ N) = none := by
  unfold mergeScope at h
  cases he : mergeEntered unitName readSettings c.Entered (changes, w) with
  | error err => simp [he] at h
  | ok s =>
    obtain ⟨c1, w2⟩ := s
    simp only [he] at h
    injection h with h
    obtain ⟨e1, _, e3, _, _, _, _⟩ := mergeEntered_ok _ _ _ _ _ _ _ he
    obtain ⟨l1, l2, l3, _, _, l6, _⟩ := mergeLeft_spec c.Left c1 w2
    rw [h] at l1 l2 l3 l6
    simp only at l1 l2 l3 l6
    refine ⟨?_, l3 N hN, ?_, ?_⟩
    · rw [l1]; exact List.mem_append_right _ hN
    · rw [← List.count_eq_zero, l2 N, e1, List.count_append]
      omega
    · rw [← e3]
      exact l6 N hN

/-- C12, amended, on scenario S4: "svc/1", joined and not yet delivered, leaves the scope. -/
theorem mergeScope_left_witness :
    "svc/1" ∈ ["svc/1"] ∧
    mergeScope (fun k => String.mk ((k.data.reverse.takeWhile (fun c => c != '#')).reverse))
      (fun _ => .error "settings not found")
      { sw := newRelationScopeWatcher "peer" "svc/0", watching := [("peer#svc/1", true)],
        calls := [.Watch (.name "peer#svc/1") 7] }
      { Joined := ["svc/1"],
        Changed := some [("svc/1", { Version := 7, Settings := [("a", "1")] })],
        Departed := [] }
      { Entered := [], Left := ["svc/1"] } =
      .ok ({ Joined := [], Changed := some [], Departed := ["svc/1"] },
           { sw := newRelationScopeWatcher "peer" "svc/0", watching := [],
             calls := [.Watch (.name "peer#svc/1") 7, .Unwatch (.name "peer#svc/1")] }) ∧
    "svc/1" ∈ ["svc/1"] ∧
    RelationUnitsChange.changed { Joined := [], Changed := some [], Departed := ["svc/1"] }
      "svc/1" = none :=
  ⟨by decide, rfl,
    (mergeScope_left
      (fun k => String.mk ((k.data.reverse.takeWhile (fun c => c != '#')).reverse))
      (fun _ => .error "settings not found")
      { sw := newRelationScopeWatcher "peer" "svc/0", watching := [("peer#svc/1", true)],
        calls := [.Watch (.name "peer#svc/1") 7] }
      { sw := newRelationScopeWatcher "peer" "svc/0", watching := [],
        calls := [.Watch (.name "peer#svc/1") 7, .Unwatch (.name "peer#svc/1")] }
      { Joined := ["svc/1"],
        Changed := some [("svc/1", { Version := 7, Settings := [("a", "1")] })],
        Departed := [] }
      { Joined := [], Changed := some [], Departed := ["svc/1"] }
      { Entered := [], Left := ["svc/1"] } "svc/1" (by decide) (by decide) rfl).1,
    (mergeScope_left
      (fun k => String.mk ((k.data.reverse.takeWhile (fun c => c != '#')).reverse))
      (fun _ => .error "settings not found")
      { sw := newRelationScopeWatcher "peer" "svc/0", watching := [("peer#svc/1", true)],
        calls := [.Watch (.name "peer#svc/1") 7] }
      { sw := newRelationScopeWatcher "peer" "svc/0", watching := [],
        calls := [.Watch (.name "peer#svc/1") 7, .Unwatch (.name "peer#svc/1")] }
      { Joined := ["svc/1"],
        Changed := some [("svc/1", { Version := 7, Settings := [("a", "1")] })],
        Departed := [] }
      { Joined := [], Changed := some [], Departed := ["svc/1"] }
      { Entered := [], Left := ["svc/1"] } "svc/1" (by decide) (by decide) rfl).2.1⟩

/-- C13, the code at the failing input: with scope "peer", the unit "svc/1" enters, leaves and
enters again before the scope change is read, so that `RelationScopeWatcher` sends `Entered`
with the name twice and `Left` with it once; `mergeScope` on the empty pending change leaves the
name in `Joined` with no entry in `Changed`. -/
theorem joined_without_settings :
    RelationScopeWatcher.mergeChanges
      (fun k => String.mk ((k.data.reverse.takeWhile (fun c => c != '#')).reverse))
      (newRelationScopeWatcher "peer" "svc/0") { Entered := [], Left := [] }
      [{ Id := "peer#svc/1", Revno := 1 }, { Id := "peer#svc/1", Revno := -1 },
       { Id := "peer#svc/1", Revno := 2 }] =
      .ok ({ Entered := ["svc/1", "svc/1"], Left := ["svc/1"] },
           { scopePrefix := "peer#", ignore := "svc/0", knownUnits := [("svc/1", true)] }) ∧
    runLoop
      (loopStep (fun k => String.mk ((k.data.reverse.takeWhile (fun c => c != '#')).reverse)))
      (.running (loopStart (newRelationScopeWatcher "peer" "svc/0")))
      [.change (fun k => if k = "peer#svc/1" then .ok { txnRevno := 7, map := [("a", "1")] }
          else .error "settings not found",
        .scope { Entered := ["svc/1", "svc/1"], Left := ["svc/1"] })] =
      some (.running
        { sentInitial := false,
          changes := { Joined := ["svc/1"], Changed := some [], Departed := ["svc/1"] },
          out := true,
          w := { sw := newRelationScopeWatcher "peer" "svc/0", watching := [],
                 calls := [.Watch (.name "peer#svc/1") 7, .Watch (.name "peer#svc/1") 7,
                           .Unwatch (.name "peer#svc/1")] } }) ∧
    "svc/1" ∈ ["svc/1"] ∧
    RelationUnitsChange.changed { Joined := ["svc/1"], Changed := some [], Departed := ["svc/1"] }
      "svc/1" = none :=
  ⟨rfl, rfl, by decide, rfl⟩

/-- C14, the code at the failing input: "svc/1" is in scope and its settings key is watched;
the unit leaves and enters again before the scope change is read. The scope watcher still knows
the unit, and `mergeScope`, which handles `Entered` before `Left`, ends with its settings key
out of `watching` and unsubscribed. -/
theorem watching_not_mirrored :
    RelationScopeWatcher.mergeChanges
      (fun k => String.mk ((k.data.reverse.takeWhile (fun c => c != '#')).reverse))
      { scopePrefix := "peer#", ignore := "svc/0", knownUnits := [("svc/1", true)] }
      { Entered := [], Left := [] }
      [{ Id := "peer#svc/1", Revno := -1 }, { Id := "peer#svc/1", Revno := 2 }] =
      .ok ({ Entered := ["svc/1"], Left := ["svc/1"] },
           { scopePrefix := "peer#", ignore := "svc/0", knownUnits := [("svc/1", true)] }) ∧
    mergeScope (fun k => String.mk ((k.data.reverse.takeWhile (fun c => c != '#')).reverse))
      (fun k => if k = "peer#svc/1" then .ok { txnRevno := 7, map := [("a", "1")] }
        else .error "settings not found")
      { sw := { scopePrefix := "peer#", ignore := "svc/0", knownUnits := [("svc/1", true)] },
        watching := [("peer#svc/1", true)], calls := [.Watch (.name "peer#svc/1") 6] }
      { Joined := [], Changed := none, Departed := [] }
      { Entered := ["svc/1"], Left := ["svc/1"] } =
      .ok ({ Joined := [], Changed := some [], Departed := ["svc/1"] },
           { sw := { scopePrefix := "peer#", ignore := "svc/0", knownUnits := [("svc/1", true)] },
             watching := [],
             calls := [.Watch (.name "peer#svc/1") 6, .Watch (.name "peer#svc/1") 7,
                       .Unwatch (.name "peer#svc/1")] }) ∧
    RelationScopeWatcher.isKnown
      { scopePrefix := "peer#", ignore := "svc/0", knownUnits := [("svc/1", true)] } "svc/1" =
      true ∧
    GoMap.get ([] : GoMap String Bool) ("peer#" ++ "svc/1") = none ∧
    subscribed [.Watch (.name "peer#svc/1") 6, .Watch (.name "peer#svc/1") 7,
      .Unwatch (.name "peer#svc/1")] (.name "peer#svc/1") = false :=
  ⟨rfl, rfl, rfl, rfl, rfl⟩

/-- An iteration of `RelationUnitsWatcher.loop` after the initial event was sent keeps `out`
armed exactly when the pending change is not empty. -/
theorem relationUnits_loopStep_armed (unitName : String → String) (s : LoopState)
    (ev : SelectEvent ((String → Except Error SettingsNode) × Input)) (s1 : LoopState)
    (hs : s.sentInitial = true ∧ (s.out = true ↔ s.changes.empty = false))
    (hst : loopStep unitName s ev = some (.running s1)) :
    s1.sentInitial = true ∧ (s1.out = true ↔ s1.changes.empty = false) := by
  cases ev with
  | sourceDead err => simp [loopStep] at hst
  | dying => simp [loopStep] at hst
  | send =>
    simp only [loopStep] at hst
    split at hst
    · injection hst with hst
      injection hst with hst
      subst hst
      simp [RelationUnitsChange.empty]
    · cases hst
  | change c =>
    obtain ⟨readSettings, input⟩ := c
    cases input with
    | scopeClosed err => simp [loopStep] at hst
    | scope c =>
      simp only [loopStep] at hst
      cases hm : mergeScope unitName readSettings s.w s.changes c with
      | error err => simp [hm] at hst
      | ok r =>
        obtain ⟨changes, w⟩ := r
        simp only [hm] at hst
        injection hst with hst
        injection hst with hst
        subst hst
        refine ⟨hs.1, ?_⟩
        simp only [hs.1]
        cases changes.empty <;> simp
    | update key =>
      simp only [loopStep] at hst
      cases hm : mergeSettings unitName readSettings s.changes key with
      | error err => simp [hm] at hst
      | ok r =>
        obtain ⟨revno, changes⟩ := r
        simp only [hm] at hst
        injection hst with hst
        injection hst with hst
        subst hst
        obtain ⟨_, _, _, _, _, _, _, hne⟩ := mergeSettings_ok hm
        exact ⟨hs.1, by simp [hne]⟩

/-- C15: `RelationUnitsWatcher.loop` starts with the delivery slot disarmed and arms it at the
first scope event, also when `Joined`, `Changed` and `Departed` are all empty; and in every state
the loop reaches after a first delivery the slot is armed if and only if the pending
`RelationUnitsChange` is not empty. -/
theorem relationUnits_armed (unitName : String → String) :
    (∀ sw, (loopStart sw).out = false ∧ (loopStart sw).sentInitial = false ∧
      (loopStart sw).changes.empty = true) ∧
    (∀ (s : LoopState) readSettings c changes w, s.sentInitial = false →
      mergeScope unitName readSettings s.w s.changes c = .ok (changes, w) →
      loopStep unitName s (.change (readSettings, .scope c)) =
        some (.running { sentInitial := false, changes := changes, out := true, w := w })) ∧
    (∀ sw readSettings,
      loopStep unitName (loopStart sw) (.change (readSettings, .scope { Entered := [], Left := [] })) =
        some (.running
          { sentInitial := false, changes := { Joined := [], Changed := none, Departed := [] },
            out := true, w := { sw := sw, watching := [], calls := [] } })) ∧
    (∀ sw evs1 evs2 s2,
      runLoop (loopStep unitName) (.running (loopStart sw)) (evs1 ++ .send :: evs2) =
        some (.running s2) →
      (s2.out = true ↔ s2.changes.empty = false)) := by
  refine ⟨fun sw => ⟨rfl, rfl, rfl⟩, ?_, fun sw readSettings => rfl, ?_⟩
  · intro s readSettings c changes w hsent hm
    simp [loopStep, hm, hsent]
  · intro sw evs1 evs2 s2 hrun
    obtain ⟨s, s1, hsend, hrest⟩ := runLoop_split _ evs1 evs2 .send _ s2 hrun
    refine (runLoop_invariant (loopStep unitName)
      (fun t => t.sentInitial = true ∧ (t.out = true ↔ t.changes.empty = false))
      (relationUnits_loopStep_armed unitName) evs2 s1 s2 ?_ hrest).2
    simp only [loopStep] at hsend
    split at hsend
    · injection hsend with hsend
      injection hsend with hsend
      subst hsend
      simp [RelationUnitsChange.empty]
    · cases hsend

/-- C15 on scenario S4: the empty first scope event arms the slot, the initial event is
delivered, "svc/1" enters and the slot is armed again. -/
theorem relationUnits_armed_witness :
    runLoop
      (loopStep (fun k => String.mk ((k.data.reverse.takeWhile (fun c => c != '#')).reverse)))
      (.running (loopStart (newRelationScopeWatcher "peer" "svc/0")))
      ([.change ((fun _ => .error "settings not found"), .scope { Entered := [], Left := [] })] ++
        .send ::
        [.change ((fun k => if k = "peer#svc/1" then .ok { txnRevno := 7, map := [("a", "1")] }
            else .error "settings not found"),
          .scope { Entered := ["svc/1"], Left := [] })]) =
      some (.running
        { sentInitial := true,
          changes := { Joined := ["svc/1"],
                       Changed := some [("svc/1", { Version := 7, Settings := [("a", "1")] })],
                       Departed := [] },
          out := true,
          w := { sw := newRelationScopeWatcher "peer" "svc/0",
                 watching := [("peer#svc/1", true)],
                 calls := [.Watch (.name "peer#svc/1") 7] } }) ∧
    ((true = true) ↔
      RelationUnitsChange.empty
        { Joined := ["svc/1"],
          Changed := some [("svc/1", { Version := 7, Settings := [("a", "1")] })],
          Departed := [] } = false) :=
  ⟨rfl,
    (relationUnits_armed
      (fun k => String.mk ((k.data.reverse.takeWhile (fun c => c != '#')).reverse))).2.2.2
      (newRelationScopeWatcher "peer" "svc/0")
      [.change ((fun _ => .error "settings not found"), .scope { Entered := [], Left := [] })]
      [.change ((fun k => if k = "peer#svc/1" then .ok { txnRevno := 7, map := [("a", "1")] }
          else .error "settings not found"),
        .scope { Entered := ["svc/1"], Left := [] })]
      { sentInitial := true,
        changes := { Joined := ["svc/1"],
                     Changed := some [("svc/1", { Version := 7, Settings := [("a", "1")] })],
                     Departed := [] },
        out := true,
        w := { sw := newRelationScopeWatcher "peer" "svc/0",
               watching := [("peer#svc/1", true)],
               calls := [.Watch (.name "peer#svc/1") 7] } } rfl⟩

end RelationUnitsWatcher

/-! ## UnitWatcher and ServiceWatcher: coalescing -/

/-- After a run of change notifications whose fetches succeed, `UnitWatcher.loop` holds the
unit fetched last. -/
theorem unitWatcher_run (fetched : List unitDoc) (last : unitDoc) (unit : Option unitDoc) :
    runLoop UnitWatcher.loopStep (.running unit)
      ((fetched ++ [last]).map fun d => SelectEvent.change (Except.ok d)) =
      some (.running (some last)) := by
  induction fetched generalizing unit with
  | nil => rfl
  | cons d rest ih =>
    simp only [List.cons_append, List.map_cons, runLoop, UnitWatcher.loopStep]
    exact ih (some d)

/-- After a run of change notifications whose fetches succeed, `ServiceWatcher.loop` holds the
service fetched last. -/
theorem serviceWatcher_run (fetched : List serviceDoc) (last : serviceDoc)
    (service : Option serviceDoc) :
    runLoop ServiceWatcher.loopStep (.running service)
      ((fetched ++ [last]).map fun d => SelectEvent.change (Except.ok d)) =
      some (.running (some last)) := by
  induction fetched generalizing service with
  | nil => rfl
  | cons d rest ih =>
    simp only [List.cons_append, List.map_cons, runLoop, ServiceWatcher.loopStep]
    exact ih (some d)

/-- C20: coalescing in `UnitWatcher.loop` and `ServiceWatcher.loop`. After any number n >= 1 of
change notifications processed before the consumer reads (the notifications of `fetched` and
then the one of `last`, each with a successful fetch), the loop offers the snapshot of the most
recent fetch; the consumer's read delivers that value and leaves the loop with nothing to offer,
and while it has nothing to offer no value is delivered, until the next notification makes it
offer what that one fetched. -/
theorem entity_coalescing :
    (∀ (unit : Option unitDoc) (fetched : List unitDoc) (last : unitDoc),
      runLoop UnitWatcher.loopStep (.running unit)
        ((fetched ++ [last]).map fun d => SelectEvent.change (Except.ok d)) =
        some (.running (some last))) ∧
    (∀ last : unitDoc, UnitWatcher.delivered (some last) .send = some last ∧
      UnitWatcher.loopStep (some last) .send = some (.running none)) ∧
    (UnitWatcher.loopStep none .send = none ∧ UnitWatcher.delivered none .send = none) ∧
    (∀ next : unitDoc, UnitWatcher.loopStep none (.change (.ok next)) =
      some (.running (some next))) ∧
    (∀ (service : Option serviceDoc) (fetched : List serviceDoc) (last : serviceDoc),
      runLoop ServiceWatcher.loopStep (.running service)
        ((fetched ++ [last]).map fun d => SelectEvent.change (Except.ok d)) =
        some (.running (some last))) ∧
    (∀ last : serviceDoc, ServiceWatcher.delivered (some last) .send = some last ∧
      ServiceWatcher.loopStep (some last) .send = some (.running none)) ∧
    (ServiceWatcher.loopStep none .send = none ∧ ServiceWatcher.delivered none .send = none) ∧
    (∀ next : serviceDoc, ServiceWatcher.loopStep none (.change (.ok next)) =
      some (.running (some next))) :=
  ⟨fun unit fetched last => unitWatcher_run fetched last unit,
    fun _ => ⟨rfl, rfl⟩, ⟨rfl, rfl⟩, fun _ => rfl,
    fun service fetched last => serviceWatcher_run fetched last service,
    fun _ => ⟨rfl, rfl⟩, ⟨rfl, rfl⟩, fun _ => rfl⟩

/-! ## MachineUnitsWatcher -/

namespace MachineUnitsWatcher

/-- C19, the code at the failing input: with "svc/0" known Alive and "sub/0" known Dying, the
deferred function of `MachineUnitsWatcher.loop` passes the `Life` values to `Unwatch`, not the
unit names, and the two units stay subscribed. -/
theorem loopExit_unwatches_lives :
    loopExit { machineId := 0, known := [("sub/0", Life.Dying), ("svc/0", Life.Alive)],
               calls := [.Watch (.name "svc/0") 1, .Watch (.name "sub/0") 2] } =
      [.Unwatch (.life Life.Dying), .Unwatch (.life Life.Alive)] ∧
    WatchCall.Unwatch (.name "svc/0") ∉
      loopExit { machineId := 0, known := [("sub/0", Life.Dying), ("svc/0", Life.Alive)],
                 calls := [.Watch (.name "svc/0") 1, .Watch (.name "sub/0") 2] } ∧
    subscribed ([.Watch (.name "svc/0") 1, .Watch (.name "sub/0") 2] ++
      loopExit { machineId := 0, known := [("sub/0", Life.Dying), ("svc/0", Life.Alive)],
                 calls := [.Watch (.name "svc/0") 1, .Watch (.name "sub/0") 2] })
      (.name "svc/0") = true :=
  ⟨rfl, by decide, rfl⟩

/-- The subscription of a document after one more `Watch` call. -/
theorem subscribed_watch (calls : List WatchCall) (id id1 : WatchId) (revno : Int) :
    subscribed (calls ++ [.Watch id1 revno]) id = if id1 = id then true else subscribed calls id := by
  simp [subscribed, List.foldl_append]

/-- The subscription of a document after one more `Unwatch` call. -/
theorem subscribed_unwatch (calls : List WatchCall) (id id1 : WatchId) :
    subscribed (calls ++ [.Unwatch id1]) id = if id1 = id then false else subscribed calls id := by
  simp [subscribed, List.foldl_append]

/-- A subscribed document stays subscribed over further `Watch` calls. -/
theorem subscribed_watches (calls extra : List WatchCall) (id : WatchId)
    (h : subscribed calls id = true)
    (hextra : ∀ call ∈ extra, ∃ id1 revno, call = WatchCall.Watch id1 revno) :
    subscribed (calls ++ extra) id = true := by
  induction extra using List.reverseRecOn with
  | nil => simpa using h
  | append_singleton rest call ih =>
    obtain ⟨id1, revno, hc⟩ := hextra call (by simp)
    subst hc
    rw [← List.append_assoc, subscribed_watch]
    split
    · rfl
    · exact ih (fun c hc => hextra c (List.mem_append_left _ hc))

/-- The call `merge` when the query fails. -/
theorem machineUnits_merge_failed (fuel : Nat) (units : Collection unitDoc)
    (w : MachineUnitsWatcher) (pending : List String) (unit : String) (err : Error)
    (hf : units.FindId unitDoc.Name unit = .failed err) :
    merge (fuel + 1) units w pending unit = some (.error err) := by
  simp [merge, hf]

/-- The call `merge` when the unit document is not found, or is found without a principal and
not on the watched machine. -/
theorem machineUnits_merge_gone (fuel : Nat) (units : Collection unitDoc)
    (w : MachineUnitsWatcher) (pending : List String) (unit : String)
    (hf : units.FindId unitDoc.Name unit = .notFound ∨
      ∃ doc, units.FindId unitDoc.Name unit = .found doc ∧
        (doc.Principal = "" ∧ (doc.MachineId = none ∨ doc.MachineId ≠ some w.machineId))) :
    merge (fuel + 1) units w pending unit =
      match w.known.get unit with
      | some life =>
        some (.ok (removeSubordinates
          ((units.FindId unitDoc.Name unit).into zeroUnitDoc).Subordinates
          (if life ≠ Life.Dead ∧ hasString pending unit = false then pending ++ [unit]
            else pending,
           { w with known := w.known.delete unit,
                    calls := w.calls ++ [.Unwatch (.name unit)] })))
      | none => some (.ok (pending, w)) := by
  rcases hf with hf | ⟨doc, hf, hgone⟩
  · simp [merge, hf]
  · simp only [merge, hf, FindResult.into]
    rw [if_pos (Or.inr hgone)]

/-- The call `merge` when the unit document is found and has a principal or is on the watched
machine. -/
theorem machineUnits_merge_assigned (fuel : Nat) (units : Collection unitDoc)
    (w : MachineUnitsWatcher) (pending : List String) (unit : String) (doc : unitDoc)
    (hf : units.FindId unitDoc.Name unit = .found doc)
    (hassigned :
      ¬ (doc.Principal = "" ∧ (doc.MachineId = none ∨ doc.MachineId ≠ some w.machineId))) :
    merge (fuel + 1) units w pending unit =
      mergeUnknown (merge fuel units) doc.Subordinates
        (if w.known.get unit = none ∨ (w.known.get unit ≠ some doc.Life ∧ unit ∉ pending)
          then pending ++ [unit] else pending,
         { machineId := w.machineId, known := w.known.set unit doc.Life,
           calls := if w.known.get unit = none
             then w.calls ++ [.Watch (.name unit) doc.TxnRevno] else w.calls }) := by
  have hcond : ¬ ((FindResult.found doc : FindResult unitDoc) = .notFound ∨
      (doc.Principal = "" ∧ (doc.MachineId = none ∨ doc.MachineId ≠ some w.machineId))) := by
    rintro (h | h)
    · cases h
    · exact hassigned h
  simp only [merge, hf, FindResult.into]
  rw [if_neg hcond]
  cases hk : w.known.get unit with
  | none => simp
  | some life =>
    by_cases hl : life = doc.Life
    · simp [hl]
    · by_cases hp : unit ∈ pending
      · simp [hl, hp, (hasString_iff pending unit).mpr hp]
      · simp [hl, hp, (hasString_eq_false_iff pending unit).mpr hp]

/-- A call that changes nothing merges only unknown units. -/
theorem mergesOnlyUnknown_refl (s : List String × MachineUnitsWatcher) :
    mergesOnlyUnknown s s :=
  ⟨rfl, ⟨[], by simp⟩, fun _ _ => rfl, fun _ _ => rfl, ⟨[], by simp, fun _ h => by cases h⟩⟩

/-- Two calls in a row that merge only unknown units. -/
theorem mergesOnlyUnknown_trans {s s1 s2 : List String × MachineUnitsWatcher}
    (h1 : mergesOnlyUnknown s s1) (h2 : mergesOnlyUnknown s1 s2) : mergesOnlyUnknown s s2 := by
  obtain ⟨a1, ⟨m1, a2⟩, a3, a4, ⟨x1, a5, a6⟩⟩ := h1
  obtain ⟨b1, ⟨m2, b2⟩, b3, b4, ⟨x2, b5, b6⟩⟩ := h2
  have hk : ∀ u, s.2.known.get u ≠ none → s1.2.known.get u ≠ none := by
    intro u hu; rw [a3 u hu]; exact hu
  refine ⟨b1.trans a1, ⟨m1 ++ m2, by rw [b2, a2, List.append_assoc]⟩, ?_, ?_,
    ⟨x1 ++ x2, by rw [b5, a5, List.append_assoc], ?_⟩⟩
  · intro u hu; rw [b3 u (hk u hu), a3 u hu]
  · intro u hu; rw [b4 u (hk u hu), a4 u hu]
  · intro call hc
    rcases List.mem_append.mp hc with hc | hc
    · exact a6 call hc
    · obtain ⟨v, revno, hcall, hv⟩ := b6 call hc
      refine ⟨v, revno, hcall, ?_⟩
      by_contra hne
      exact hk v hne hv

/-- The `for` over unit names merges only unknown units when the calls it makes do. -/
theorem mergeUnknown_onlyUnknown
    (mergeUnit : MachineUnitsWatcher → List String → String →
      Option (Except Error (List String × MachineUnitsWatcher)))
    (hrec : ∀ w pending unit s1, w.known.get unit = none →
      mergeUnit w pending unit = some (.ok s1) → mergesOnlyUnknown (pending, w) s1)
    (names : List String) (s s1 : List String × MachineUnitsWatcher)
    (h : mergeUnknown mergeUnit names s = some (.ok s1)) : mergesOnlyUnknown s s1 := by
  induction names generalizing s with
  | nil =>
    simp only [mergeUnknown] at h
    injection h with h
    injection h with h
    exact h ▸ mergesOnlyUnknown_refl s
  | cons unit rest ih =>
    obtain ⟨pending, w⟩ := s
    simp only [mergeUnknown] at h
    cases hk : w.known.get unit with
    | some life =>
      simp only [hk] at h
      exact ih _ h
    | none =>
      simp only [hk] at h
      cases hm : mergeUnit w pending unit with
      | none => simp [hm] at h
      | some r =>
        cases r with
        | error err => simp [hm] at h
        | ok s0 =>
          simp only [hm] at h
          exact mergesOnlyUnknown_trans (hrec w pending unit s0 hk hm) (ih _ h)

/-- The call `merge` for a unit that is not known merges only unknown units. -/
theorem merge_onlyUnknown (fuel : Nat) (units : Collection unitDoc) (w : MachineUnitsWatcher)
    (pending : List String) (unit : String) (s1 : List String × MachineUnitsWatcher)
    (hk : w.known.get unit = none)
    (h : merge fuel units w pending unit = some (.ok s1)) :
    mergesOnlyUnknown (pending, w) s1 := by
  induction fuel generalizing w pending unit s1 with
  | zero => simp [merge] at h
  | succ fuel ih =>
    cases hf : units.FindId unitDoc.Name unit with
    | failed err =>
      rw [machineUnits_merge_failed fuel units w pending unit err hf] at h
      cases h
    | notFound =>
      rw [machineUnits_merge_gone fuel units w pending unit (Or.inl hf), hk] at h
      injection h with h
      injection h with h
      exact h ▸ mergesOnlyUnknown_refl _
    | found doc =>
      by_cases hgone :
          doc.Principal = "" ∧ (doc.MachineId = none ∨ doc.MachineId ≠ some w.machineId)
      · rw [machineUnits_merge_gone fuel units w pending unit (Or.inr ⟨doc, hf, hgone⟩), hk] at h
        injection h with h
        injection h with h
        exact h ▸ mergesOnlyUnknown_refl _
      · rw [machineUnits_merge_assigned fuel units w pending unit doc hf hgone] at h
        simp only [hk, true_or, if_true] at h
        refine mergesOnlyUnknown_trans ?_
          (mergeUnknown_onlyUnknown (merge fuel units)
            (fun w2 p2 u2 s2 hk2 hm2 => ih w2 p2 u2 s2 hk2 hm2) _ _ _ h)
        refine ⟨rfl, ⟨[unit], rfl⟩, ?_, ?_, ⟨[.Watch (.name unit) doc.TxnRevno], rfl, ?_⟩⟩
        · intro u hu
          exact GoMap.get_set_ne _ _ (fun e => hu (e ▸ hk))
        · intro u hu
          have hne : unit ≠ u := fun e => hu (e ▸ hk)
          simp [List.count_append, List.count_singleton, hne]
        · intro call hc
          rw [List.mem_singleton] at hc
          exact ⟨unit, doc.TxnRevno, hc, hk⟩

/-- C16: `MachineUnitsWatcher.merge` on a unit whose document exists and still references the
watched machine (it has a principal, or its `MachineId` is the watched machine). When the call
returns successfully, `known[unit]` is the stored `Life`; the unit has been appended to the
pending list exactly when it was not known before, or was known with a different `Life` and was
not already pending; a unit that was not known has been subscribed on the change source, with the
revno of its document; and the call is the `for` over the listed subordinates that merges, by the
same `merge`, each one that is not yet known, from the state in which the unit itself has been
recorded. -/
theorem merge_assigned_unit (fuel : Nat) (units : Collection unitDoc) (w w1 : MachineUnitsWatcher)
    (pending p1 : List String) (unit : String) (doc : unitDoc)
    (hf : units.FindId unitDoc.Name unit = .found doc)
    (hassigned :
      ¬ (doc.Principal = "" ∧ (doc.MachineId = none ∨ doc.MachineId ≠ some w.machineId)))
    (h : merge (fuel + 1) units w pending unit = some (.ok (p1, w1))) :
    w1.known.get unit = some doc.Life ∧
    p1.count unit = pending.count unit +
      (if w.known.get unit = none ∨ (w.known.get unit ≠ some doc.Life ∧ unit ∉ pending)
        then 1 else 0) ∧
    (∃ more, p1 =
      (if w.known.get unit = none ∨ (w.known.get unit ≠ some doc.Life ∧ unit ∉ pending)
        then pending ++ [unit] else pending) ++ more) ∧
    (w.known.get unit = none →
      WatchCall.Watch (.name unit) doc.TxnRevno ∈ w1.calls ∧
      subscribed w1.calls (.name unit) = true) ∧
    merge (fuel + 1) units w pending unit =
      mergeUnknown (merge fuel units) doc.Subordinates
        (if w.known.get unit = none ∨ (w.known.get unit ≠ some doc.Life ∧ unit ∉ pending)
          then pending ++ [unit] else pending,
         { machineId := w.machineId, known := w.known.set unit doc.Life,
           calls := if w.known.get unit = none
             then w.calls ++ [.Watch (.name unit) doc.TxnRevno] else w.calls }) := by
  have heq := machineUnits_merge_assigned fuel units w pending unit doc hf hassigned
  rw [heq] at h
  obtain ⟨_, ⟨more, f2⟩, f3, f4, ⟨extra, f5, f6⟩⟩ :=
    mergeUnknown_onlyUnknown (merge fuel units)
      (fun w2 p2 u2 s2 hk2 hm2 => merge_onlyUnknown fuel units w2 p2 u2 s2 hk2 hm2) _ _ _ h
  simp only at f2 f3 f4 f5 f6
  have hknown : (w.known.set unit doc.Life).get unit ≠ none := by
    rw [GoMap.get_set_self]; simp
  refine ⟨?_, ?_, ⟨more, f2⟩, ?_, heq⟩
  · rw [f3 unit hknown, GoMap.get_set_self]
  · rw [f4 unit hknown]
    split
    · simp [List.count_append]
    · rfl
  · intro hk
    rw [f5]
    simp only [hk, if_true]
    refine ⟨by simp, ?_⟩
    apply subscribed_watches
    · rw [subscribed_watch]; simp
    · intro call hc
      obtain ⟨v, revno, hcall, _⟩ := f6 call hc
      exact ⟨.name v, revno, hcall⟩

/-- C16 on scenario S5: machine 0 has the principal "svc/0" with the subordinate "sub/0", and
neither is known. -/
theorem merge_assigned_unit_witness :
    (({ docs := [{ Name := "svc/0", Service := "svc", Principal := "", Subordinates := ["sub/0"],
                   MachineId := some 0, Life := Life.Alive, TxnRevno := 1 },
                 { Name := "sub/0", Service := "sub", Principal := "svc/0", Subordinates := [],
                   MachineId := none, Life := Life.Alive, TxnRevno := 2 }],
        failure := none } : Collection unitDoc).FindId unitDoc.Name "svc/0" =
      .found { Name := "svc/0", Service := "svc", Principal := "", Subordinates := ["sub/0"],
               MachineId := some 0, Life := Life.Alive, TxnRevno := 1 }) ∧
    merge (1 + 1)
      { docs := [{ Name := "svc/0", Service := "svc", Principal := "", Subordinates := ["sub/0"],
                   MachineId := some 0, Life := Life.Alive, TxnRevno := 1 },
                 { Name := "sub/0", Service := "sub", Principal := "svc/0", Subordinates := [],
                   MachineId := none, Life := Life.Alive, TxnRevno := 2 }],
        failure := none }
      { machineId := 0, known := [], calls := [] } [] "svc/0" =
      some (.ok (["svc/0", "sub/0"],
        { machineId := 0, known := [("sub/0", Life.Alive), ("svc/0", Life.Alive)],
          calls := [.Watch (.name "svc/0") 1, .Watch (.name "sub/0") 2] })) ∧
    GoMap.get [("sub/0", Life.Alive), ("svc/0", Life.Alive)] "svc/0" = some Life.Alive :=
  ⟨rfl, rfl,
    (merge_assigned_unit 1
      { docs := [{ Name := "svc/0", Service := "svc", Principal := "", Subordinates := ["sub/0"],
                   MachineId := some 0, Life := Life.Alive, TxnRevno := 1 },
                 { Name := "sub/0", Service := "sub", Principal := "svc/0", Subordinates := [],
                   MachineId := none, Life := Life.Alive, TxnRevno := 2 }],
        failure := none }
      { machineId := 0, known := [], calls := [] }
      { machineId := 0, known := [("sub/0", Life.Alive), ("svc/0", Life.Alive)],
        calls := [.Watch (.name "svc/0") 1, .Watch (.name "sub/0") 2] }
      [] ["svc/0", "sub/0"] "svc/0"
      { Name := "svc/0", Service := "svc", Principal := "", Subordinates := ["sub/0"],
        MachineId := some 0, Life := Life.Alive, TxnRevno := 1 }
      rfl (by decide) rfl).1⟩

/-- C17 as stated fails: "svc/0" is known and subscribed, and the refreshed machine no longer
lists it among its principals; `updateMachine` returns the pending list as it was, leaves the
unit in `known` and makes no call on the change source. -/
theorem updateMachine_counterexample :
    updateMachine 3 { docs := [], failure := none } (.ok [])
      { machineId := 0, known := [("svc/0", Life.Alive)], calls := [.Watch (.name "svc/0") 1] }
      [] =
      some (.ok ([],
        { machineId := 0, known := [("svc/0", Life.Alive)],
          calls := [.Watch (.name "svc/0") 1] })) ∧
    "svc/0" ∉ ([] : List String) ∧
    GoMap.get [("svc/0", Life.Alive)] "svc/0" = some Life.Alive ∧
    subscribed [.Watch (.name "svc/0") 1] (.name "svc/0") = true :=
  ⟨rfl, by decide, rfl, rfl⟩

/-- C17, amended: on a machine change, `updateMachine` re-reads the machine's principals and
calls `merge` for every listed principal that is not yet known. A unit that is known before the
call, whether or not it is still listed in `Principals`, keeps its entry in `known`, is not
appended to the pending batch, and is not unsubscribed: the calls added on the change source are
`Watch` calls for units that were not known. -/
theorem updateMachine_keeps_known (fuel : Nat) (units : Collection unitDoc)
    (principals : List String) (w w1 : MachineUnitsWatcher) (pending p1 : List String)
    (h : updateMachine fuel units (.ok principals) w pending = some (.ok (p1, w1))) :
    updateMachine fuel units (.ok principals) w pending =
      mergeUnknown (merge fuel units) principals (pending, w) ∧
    (∃ more, p1 = pending ++ more) ∧
    (∀ u, w.known.get u ≠ none →
      w1.known.get u = w.known.get u ∧ p1.count u = pending.count u) ∧
    (∃ extra, w1.calls = w.calls ++ extra ∧
      (∀ u, WatchCall.Unwatch (.name u) ∉ extra) ∧
      (∀ u revno, w.known.get u ≠ none → WatchCall.Watch (.name u) revno ∉ extra)) := by
  have heq : updateMachine fuel units (.ok principals) w pending =
      mergeUnknown (merge fuel units) principals (pending, w) := rfl
  rw [heq] at h
  obtain ⟨_, f2, f3, f4, ⟨extra, f5, f6⟩⟩ :=
    mergeUnknown_onlyUnknown (merge fuel units)
      (fun w2 p2 u2 s2 hk2 hm2 => merge_onlyUnknown fuel units w2 p2 u2 s2 hk2 hm2) _ _ _ h
  refine ⟨heq, f2, fun u hu => ⟨f3 u hu, f4 u hu⟩, ⟨extra, f5, ?_, ?_⟩⟩
  · intro u hmem
    obtain ⟨v, revno, hcall, _⟩ := f6 _ hmem
    cases hcall
  · intro u revno hu hmem
    obtain ⟨v, revno2, hcall, hv⟩ := f6 _ hmem
    injection hcall with h1 h2
    injection h1 with h1
    exact hu (h1 ▸ hv)

/-- C17, amended, on scenario S5 after "svc/1" was assigned to machine 0 and "svc/0"
unassigned: the new principal is merged, the known "svc/0" is left as it is. -/
theorem updateMachine_keeps_known_witness :
    updateMachine 2
      { docs := [{ Name := "svc/1", Service := "svc", Principal := "", Subordinates := [],
                   MachineId := some 0, Life := Life.Alive, TxnRevno := 4 }],
        failure := none }
      (.ok ["svc/1"])
      { machineId := 0, known := [("svc/0", Life.Alive)], calls := [.Watch (.name "svc/0") 1] }
      [] =
      some (.ok (["svc/1"],
        { machineId := 0, known := [("svc/1", Life.Alive), ("svc/0", Life.Alive)],
          calls := [.Watch (.name "svc/0") 1, .Watch (.name "svc/1") 4] })) ∧
    (∀ u, GoMap.get [("svc/0", Life.Alive)] u ≠ none →
      GoMap.get [("svc/1", Life.Alive), ("svc/0", Life.Alive)] u =
        GoMap.get [("svc/0", Life.Alive)] u ∧
      ["svc/1"].count u = ([] : List String).count u) :=
  ⟨rfl,
    (updateMachine_keeps_known 2
      { docs := [{ Name := "svc/1", Service := "svc", Principal := "", Subordinates := [],
                   MachineId := some 0, Life := Life.Alive, TxnRevno := 4 }],
        failure := none }
      ["svc/1"]
      { machineId := 0, known := [("svc/0", Life.Alive)], calls := [.Watch (.name "svc/0") 1] }
      { machineId := 0, known := [("svc/1", Life.Alive), ("svc/0", Life.Alive)],
        calls := [.Watch (.name "svc/0") 1, .Watch (.name "svc/1") 4] }
      [] ["svc/1"] rfl).2.2.1⟩

/-- Deleting a unit from `known` and unsubscribing it keeps the subscriptions equal to the keys
of `known`. -/
theorem mirrored_delete (known : GoMap String Life) (calls : List WatchCall) (unit : String)
    (h : ∀ u, subscribed calls (.name u) = true ↔ known.get u ≠ none) :
    ∀ u, subscribed (calls ++ [.Unwatch (.name unit)]) (.name u) = true ↔
      (known.delete unit).get u ≠ none := by
  intro u
  rw [subscribed_unwatch]
  by_cases hu : unit = u
  · subst hu
    simp [GoMap.get_delete_self]
  · have hne : u ≠ unit := fun e => hu e.symm
    simp only [WatchId.name.injEq, hu, if_false, GoMap.get_delete_ne _ hne]
    exact h u

/-- Recording the `Life` of a unit, and subscribing it if it was not known, keeps the
subscriptions equal to the keys of `known`. -/
theorem mirrored_set (known : GoMap String Life) (calls : List WatchCall) (unit : String)
    (life : Life) (revno : Int)
    (h : ∀ u, subscribed calls (.name u) = true ↔ known.get u ≠ none) :
    ∀ u, subscribed (if known.get unit = none then calls ++ [.Watch (.name unit) revno] else calls)
        (.name u) = true ↔ (known.set unit life).get u ≠ none := by
  intro u
  by_cases hu : unit = u
  · subst hu
    rw [GoMap.get_set_self]
    by_cases hk : known.get unit = none
    · simp [hk, subscribed_watch]
    · simp only [hk, if_false]
      simpa using (h unit).mpr hk
  · have hne : u ≠ unit := fun e => hu e.symm
    rw [GoMap.get_set_ne _ _ hne]
    by_cases hk : known.get unit = none
    · simp only [hk, if_true, subscribed_watch, WatchId.name.injEq, hu, if_false]
      exact h u
    · simp only [hk, if_false]
      exact h u

/-- The inner `for` of the removal branch keeps the subscriptions equal to the keys of
`known`. -/
theorem removeSubordinates_mirrored (subs : List String) (s : List String × MachineUnitsWatcher)
    (h : ∀ u, subscribed s.2.calls (.name u) = true ↔ s.2.known.get u ≠ none) :
    ∀ u, subscribed (removeSubordinates subs s).2.calls (.name u) = true ↔
      (removeSubordinates subs s).2.known.get u ≠ none := by
  induction subs generalizing s with
  | nil => exact h
  | cons subunit rest ih =>
    obtain ⟨pending, w⟩ := s
    simp only [removeSubordinates]
    cases hk : w.known.get subunit with
    | none => exact ih _ h
    | some sublife => exact ih _ (mirrored_delete w.known w.calls subunit h)

/-- The `for` over unit names keeps the subscriptions equal to the keys of `known` when the
calls it makes do. -/
theorem mergeUnknown_mirrored
    (mergeUnit : MachineUnitsWatcher → List String → String →
      Option (Except Error (List String × MachineUnitsWatcher)))
    (hrec : ∀ w pending unit s1,
      (∀ u, subscribed w.calls (.name u) = true ↔ w.known.get u ≠ none) →
      mergeUnit w pending unit = some (.ok s1) →
      ∀ u, subscribed s1.2.calls (.name u) = true ↔ s1.2.known.get u ≠ none)
    (names : List String) (s s1 : List String × MachineUnitsWatcher)
    (hs : ∀ u, subscribed s.2.calls (.name u) = true ↔ s.2.known.get u ≠ none)
    (h : mergeUnknown mergeUnit names s = some (.ok s1)) :
    ∀ u, subscribed s1.2.calls (.name u) = true ↔ s1.2.known.get u ≠ none := by
  induction names generalizing s with
  | nil =>
    simp only [mergeUnknown] at h
    injection h with h
    injection h with h
    exact h ▸ hs
  | cons unit rest ih =>
    obtain ⟨pending, w⟩ := s
    simp only [mergeUnknown] at h
    cases hk : w.known.get unit with
    | some life =>
      simp only [hk] at h
      exact ih _ hs h
    | none =>
      simp only [hk] at h
      cases hm : mergeUnit w pending unit with
      | none => simp [hm] at h
      | some r =>
        cases r with
        | error err => simp [hm] at h
        | ok s0 =>
          simp only [hm] at h
          exact ih _ (hrec w pending unit s0 hs hm) h

/-- The call `merge` keeps the subscriptions equal to the keys of `known`. -/
theorem merge_mirrored (fuel : Nat) (units : Collection unitDoc) (w : MachineUnitsWatcher)
    (pending : List String) (unit : String) (s1 : List String × MachineUnitsWatcher)
    (hs : ∀ u, subscribed w.calls (.name u) = true ↔ w.known.get u ≠ none)
    (h : merge fuel units w pending unit = some (.ok s1)) :
    ∀ u, subscribed s1.2.calls (.name u) = true ↔ s1.2.known.get u ≠ none := by
  induction fuel generalizing w pending unit s1 with
  | zero => simp [merge] at h
  | succ fuel ih =>
    have hgoneCase : merge (fuel + 1) units w pending unit =
        (match w.known.get unit with
        | some life =>
          some (.ok (removeSubordinates
            ((units.FindId unitDoc.Name unit).into zeroUnitDoc).Subordinates
            (if life ≠ Life.Dead ∧ hasString pending unit = false then pending ++ [unit]
              else pending,
             { w with known := w.known.delete unit,
                      calls := w.calls ++ [.Unwatch (.name unit)] })))
        | none => some (.ok (pending, w))) →
        ∀ u, subscribed s1.2.calls (.name u) = true ↔ s1.2.known.get u ≠ none := by
      intro heq
      rw [heq] at h
      cases hk : w.known.get unit with
      | none =>
        simp only [hk] at h
        injection h with h
        injection h with h
        exact h ▸ hs
      | some life =>
        simp only [hk] at h
        injection h with h
        injection h with h
        rw [← h]
        exact removeSubordinates_mirrored _ _ (mirrored_delete w.known w.calls unit hs)
    cases hf : units.FindId unitDoc.Name unit with
    | failed err =>
      rw [machineUnits_merge_failed fuel units w pending unit err hf] at h
      cases h
    | notFound =>
      exact hgoneCase (machineUnits_merge_gone fuel units w pending unit (Or.inl hf))
    | found doc =>
      by_cases hgone :
          doc.Principal = "" ∧ (doc.MachineId = none ∨ doc.MachineId ≠ some w.machineId)
      · exact hgoneCase
          (machineUnits_merge_gone fuel units w pending unit (Or.inr ⟨doc, hf, hgone⟩))
      · rw [machineUnits_merge_assigned fuel units w pending unit doc hf hgone] at h
        exact mergeUnknown_mirrored (merge fuel units)
          (fun w2 p2 u2 s2 hs2 hm2 => ih w2 p2 u2 s2 hs2 hm2) _ _ _
          (mirrored_set w.known w.calls unit doc.Life doc.TxnRevno hs) h

/-- C18: `MachineUnitsWatcher` keeps its unit subscriptions equal to its known set. For every
call of `merge` or `updateMachine` that starts in a state where the unit names subscribed on the
change source are exactly the keys of `known`, the two sets are equal again when the call returns
successfully. -/
theorem subscriptions_mirror_known :
    (∀ (fuel : Nat) (units : Collection unitDoc) (w w1 : MachineUnitsWatcher)
        (pending p1 : List String) (unit : String),
      (∀ u, subscribed w.calls (.name u) = true ↔ w.known.get u ≠ none) →
      merge fuel units w pending unit = some (.ok (p1, w1)) →
      ∀ u, subscribed w1.calls (.name u) = true ↔ w1.known.get u ≠ none) ∧
    (∀ (fuel : Nat) (units : Collection unitDoc) (refreshed : Except Error (List String))
        (w w1 : MachineUnitsWatcher) (pending p1 : List String),
      (∀ u, subscribed w.calls (.name u) = true ↔ w.known.get u ≠ none) →
      updateMachine fuel units refreshed w pending = some (.ok (p1, w1)) →
      ∀ u, subscribed w1.calls (.name u) = true ↔ w1.known.get u ≠ none) := by
  constructor
  · intro fuel units w w1 pending p1 unit hs h
    exact merge_mirrored fuel units w pending unit (p1, w1) hs h
  · intro fuel units refreshed w w1 pending p1 hs h
    cases refreshed with
    | error err => simp [updateMachine] at h
    | ok principals =>
      simp only [updateMachine] at h
      exact mergeUnknown_mirrored (merge fuel units)
        (fun w2 p2 u2 s2 hs2 hm2 => merge_mirrored fuel units w2 p2 u2 s2 hs2 hm2) _
        (pending, w) (p1, w1) hs h

/-- C18 on scenario S5: "svc/0" was unassigned from machine 0, and `merge` for its change
notification evicts and unsubscribes it together with its subordinate "sub/0". -/
theorem subscriptions_mirror_known_witness :
    merge 1
      { docs := [{ Name := "svc/0", Service := "svc", Principal := "", Subordinates := ["sub/0"],
                   MachineId := none, Life := Life.Alive, TxnRevno := 5 }],
        failure := none }
      { machineId := 0, known := [("sub/0", Life.Dead), ("svc/0", Life.Alive)],
        calls := [.Watch (.name "svc/0") 1, .Watch (.name "sub/0") 2] }
      [] "svc/0" =
      some (.ok (["svc/0"],
        { machineId := 0, known := [],
          calls := [.Watch (.name "svc/0") 1, .Watch (.name "sub/0") 2,
                    .Unwatch (.name "svc/0"), .Unwatch (.name "sub/0")] })) ∧
    (∀ u, subscribed [.Watch (.name "svc/0") 1, .Watch (.name "sub/0") 2,
        .Unwatch (.name "svc/0"), .Unwatch (.name "sub/0")] (.name u) = true ↔
      GoMap.get ([] : GoMap String Life) u ≠ none) :=
  ⟨rfl,
    subscriptions_mirror_known.1 1
      { docs := [{ Name := "svc/0", Service := "svc", Principal := "", Subordinates := ["sub/0"],
                   MachineId := none, Life := Life.Alive, TxnRevno := 5 }],
        failure := none }
      { machineId := 0, known := [("sub/0", Life.Dead), ("svc/0", Life.Alive)],
        calls := [.Watch (.name "svc/0") 1, .Watch (.name "sub/0") 2] }
      { machineId := 0, known := [],
        calls := [.Watch (.name "svc/0") 1, .Watch (.name "sub/0") 2,
                  .Unwatch (.name "svc/0"), .Unwatch (.name "sub/0")] }
      [] ["svc/0"] "svc/0"
      (by
        intro u
        by_cases h1 : u = "sub/0"
        · subst h1; decide
        · by_cases h2 : u = "svc/0"
          · subst h2; decide
          · have h3 : ¬ "sub/0" = u := fun e => h1 e.symm
            have h4 : ¬ "svc/0" = u := fun e => h2 e.symm
            simp [subscribed, GoMap.get, h3, h4])
      rfl⟩

end MachineUnitsWatcher

/-! ## Entity, settings and configuration watchers: errors and gating -/

/-- A loop that has returned does not reach a running state. -/
theorem runLoop_returned {S C : Type} (step : S → SelectEvent C → Option (Outcome S))
    (err : Error) (evs : List (SelectEvent C)) (s : S) :
    runLoop step (.returned err) evs ≠ some (.running s) := by
  cases evs with
  | nil => simp [runLoop]
  | cons ev rest => simp [runLoop]

/-- C21: if the fetch of the watched unit (or service) fails, as it does with the not-found
error when the entity has disappeared, at startup or on any later notification, then
`UnitWatcher.loop` (`ServiceWatcher.loop`) returns that error, whether or not a snapshot was
pending, the step delivers nothing, and once the loop has returned no further event is handled,
so no further value is delivered. -/
theorem entity_disappeared :
    (∀ err, UnitWatcher.loopStart (.error err) = .returned err) ∧
    (∀ (unit : Option unitDoc) err,
      UnitWatcher.loopStep unit (.change (.error err)) = some (.returned err) ∧
      UnitWatcher.delivered unit (.change (.error err)) = none) ∧
    (∀ err ev evs, runLoop UnitWatcher.loopStep (.returned err) (ev :: evs) = none) ∧
    (∀ err, ServiceWatcher.loopStart (.error err) = .returned err) ∧
    (∀ (service : Option serviceDoc) err,
      ServiceWatcher.loopStep service (.change (.error err)) = some (.returned err) ∧
      ServiceWatcher.delivered service (.change (.error err)) = none) ∧
    (∀ err ev evs, runLoop ServiceWatcher.loopStep (.returned err) (ev :: evs) = none) :=
  ⟨fun _ => rfl, fun _ _ => ⟨rfl, rfl⟩, fun _ _ _ => rfl,
    fun _ => rfl, fun _ _ => ⟨rfl, rfl⟩, fun _ _ _ => rfl⟩

/-- C22: `settingsWatcher.loop` gates its initial event on existence. With the revno of an
existing settings document never `-1`, the delivery slot is armed at startup if and only if the
read succeeded, and then offers the settings read, subscribed with their revno; when the document
is not found the watcher subscribes with revno `-1`, holds no settings and offers nothing; a
change notification whose read succeeds arms the slot with the settings read then; a read error
other than not-found at startup, or any read error on a later notification, makes the loop return
that error. -/
theorem settings_gated (IsNotFound : Error → Bool) (key : String) :
    (∀ read : Except Error SettingsNode, (∀ node, read = .ok node → node.txnRevno ≠ -1) →
      ∀ s, settingsWatcher.loopStart IsNotFound key read = .running s →
        (s.out = true ↔ ∃ node, read = .ok node)) ∧
    (∀ node : SettingsNode, node.txnRevno ≠ -1 →
      settingsWatcher.loopStart IsNotFound key (.ok node) =
        .running { settings := some node, out := true,
                   calls := [.Watch (.name key) node.txnRevno] }) ∧
    (∀ err, IsNotFound err = true →
      settingsWatcher.loopStart IsNotFound key (.error err) =
        .running { settings := none, out := false, calls := [.Watch (.name key) (-1)] }) ∧
    (∀ s : settingsWatcher.LoopState, s.out = false →
      settingsWatcher.loopStep s .send = none ∧ settingsWatcher.delivered s .send = none) ∧
    (∀ (s : settingsWatcher.LoopState) node,
      settingsWatcher.loopStep s (.change (.ok node)) =
        some (.running { settings := some node, out := true, calls := s.calls }) ∧
      settingsWatcher.delivered { settings := some node, out := true, calls := s.calls } .send =
        some node) ∧
    (∀ err, IsNotFound err = false →
      settingsWatcher.loopStart IsNotFound key (.error err) = .returned err) ∧
    (∀ (s : settingsWatcher.LoopState) err,
      settingsWatcher.loopStep s (.change (.error err)) = some (.returned err)) := by
  refine ⟨?_, ?_, ?_, ?_, fun s node => ⟨rfl, rfl⟩, ?_, fun s err => rfl⟩
  · intro read hrev s hs
    cases read with
    | ok node =>
      simp only [settingsWatcher.loopStart, hrev node rfl, if_false] at hs
      injection hs with hs
      subst hs
      simp
    | error err =>
      simp only [settingsWatcher.loopStart] at hs
      split at hs
      · cases hs
      · injection hs with hs
        subst hs
        simp
  · intro node hrev
    simp [settingsWatcher.loopStart, hrev]
  · intro err hnf
    simp [settingsWatcher.loopStart, hnf]
  · intro s hout
    simp [settingsWatcher.loopStep, settingsWatcher.delivered, hout]
  · intro err hnf
    simp [settingsWatcher.loopStart, hnf]

/-- C22 on a settings document that does not exist at startup and is created later. -/
theorem settings_gated_witness :
    runLoop settingsWatcher.loopStep
      (settingsWatcher.loopStart (fun err => err == "settings not found") "e"
        (.error "settings not found"))
      [.change (.ok { txnRevno := 2, map := [("name", "test")] })] =
      some (.running
        { settings := some { txnRevno := 2, map := [("name", "test")] }, out := true,
          calls := [.Watch (.name "e") (-1)] }) ∧
    settingsWatcher.loopStart (fun err => err == "settings not found") "e"
      (.error "settings not found") =
      .running { settings := none, out := false, calls := [.Watch (.name "e") (-1)] } :=
  ⟨rfl,
    (settings_gated (fun err => err == "settings not found") "e").2.2.1
      "settings not found" rfl⟩

namespace EnvironConfigWatcher

/-- Along a run of `EnvironConfigWatcher.loop`, while the delivery slot is armed the held
config is the successful parse of the most recent settings delivery. -/
theorem armed_is_parsed (New : GoMap String String → Except Error Config)
    (evs : List (SelectEvent (Except Error (GoMap String String))))
    (acc : Option (GoMap String String)) (s s2 : LoopState)
    (hs : s.out = true → ∃ m cfg, acc = some m ∧ New m = .ok cfg ∧ s.cfg = some cfg)
    (hrun : runLoop (loopStep New) (.running s) evs = some (.running s2)) :
    s2.out = true →
      ∃ m cfg,
        evs.foldl
          (fun acc ev =>
            match ev with
            | .change (.ok settings) => some settings
            | _ => acc)
          acc = some m ∧
        New m = .ok cfg ∧ s2.cfg = some cfg := by
  induction evs generalizing acc s with
  | nil =>
    simp only [runLoop] at hrun
    injection hrun with hrun
    injection hrun with hrun
    subst hrun
    simpa using hs
  | cons ev rest ih =>
    simp only [runLoop] at hrun
    cases ev with
    | sourceDead err =>
      simp only [loopStep] at hrun
      exact absurd hrun (runLoop_returned _ _ _ _)
    | dying =>
      simp only [loopStep] at hrun
      exact absurd hrun (runLoop_returned _ _ _ _)
    | send =>
      simp only [loopStep] at hrun
      by_cases ho : s.out = true
      · simp only [ho, if_true] at hrun
        simp only [List.foldl]
        exact ih acc _ (by simp) hrun
      · simp [ho, runLoop] at hrun
    | change c =>
      cases c with
      | error err =>
        simp only [loopStep] at hrun
        exact absurd hrun (runLoop_returned _ _ _ _)
      | ok m =>
        simp only [loopStep] at hrun
        simp only [List.foldl]
        cases hn : New m with
        | error err =>
          simp only [hn] at hrun
          exact ih (some m) _ (by simp) hrun
        | ok cfg =>
          simp only [hn] at hrun
          exact ih (some m) _ (fun _ => ⟨m, cfg, rfl, hn, rfl⟩) hrun

/-- C23: `EnvironConfigWatcher` delivers only valid configurations and does not terminate on a
parse failure. In every state that `EnvironConfigWatcher.loop` reaches, the delivery slot is armed
only while the held config is the result of a successful parse of the most recent settings
delivery, which is then what a read of the consumer delivers; and a settings delivery that fails
to parse leaves the loop running, with the slot disarmed. -/
theorem config_only_valid (New : GoMap String String → Except Error Config) :
    (∀ evs s, runLoop (loopStep New) (.running loopStart) evs = some (.running s) →
      s.out = true →
      ∃ m cfg, lastDelivery evs = some m ∧ New m = .ok cfg ∧ s.cfg = some cfg ∧
        delivered s .send = some cfg) ∧
    (∀ (s : LoopState) m err, New m = .error err →
      ∃ s1, loopStep New s (.change (.ok m)) = some (.running s1) ∧ s1.out = false) := by
  constructor
  · intro evs s hrun hout
    obtain ⟨m, cfg, h1, h2, h3⟩ :=
      armed_is_parsed New evs none loopStart s (fun h => by simp [loopStart] at h) hrun hout
    exact ⟨m, cfg, h1, h2, h3, by simp [delivered, hout, h3]⟩
  · intro s m err hn
    exact ⟨{ cfg := none, out := false }, by simp [loopStep, hn], rfl⟩

/-- C23 on scenario S6, with a `config.New` that asks for a "name" attribute: a map that
parses, then one that does not, then one that parses. -/
theorem config_only_valid_witness :
    runLoop
      (loopStep fun m => if m.get "name" = none then .error "name missing" else .ok { attrs := m })
      (.running loopStart)
      [.change (.ok [("name", "one")]), .send, .change (.ok [("type", "dummy")]),
       .change (.ok [("name", "two")])] =
      some (.running { cfg := some { attrs := [("name", "two")] }, out := true }) ∧
    (∃ m cfg,
      lastDelivery [.change (.ok [("name", "one")]), .send, .change (.ok [("type", "dummy")]),
        .change (.ok [("name", "two")])] = some m ∧
      (fun m : GoMap String String =>
        if m.get "name" = none then Except.error "name missing" else .ok { attrs := m }) m =
        .ok cfg ∧
      (some { attrs := [("name", "two")] } : Option Config) = some cfg ∧
      delivered { cfg := some { attrs := [("name", "two")] }, out := true } .send = some cfg) :=
  ⟨rfl,
    (config_only_valid
      fun m => if m.get "name" = none then .error "name missing" else .ok { attrs := m }).1
      [.change (.ok [("name", "one")]), .send, .change (.ok [("type", "dummy")]),
       .change (.ok [("name", "two")])]
      { cfg := some { attrs := [("name", "two")] }, out := true } rfl rfl⟩

/-- C24 as stated fails: the configuration parsed from {name: one} is armed and not yet read;
the next settings delivery does not parse, and the loop disarms the slot and drops the
configuration, so that a read of the consumer gets nothing. -/
theorem config_pending_counterexample :
    runLoop
      (loopStep fun m => if m.get "name" = none then .error "name missing" else .ok { attrs := m })
      (.running loopStart) [.change (.ok [("name", "one")])] =
      some (.running { cfg := some { attrs := [("name", "one")] }, out := true }) ∧
    loopStep (fun m => if m.get "name" = none then .error "name missing" else .ok { attrs := m })
      { cfg := some { attrs := [("name", "one")] }, out := true }
      (.change (.ok [("type", "dummy")])) =
      some (.running { cfg := none, out := false }) ∧
    loopStep (fun m => if m.get "name" = none then .error "name missing" else .ok { attrs := m })
      { cfg := none, out := false } .send = none :=
  ⟨rfl, rfl, rfl⟩

/-- C24, amended: in `EnvironConfigWatcher.loop`, when a validly parsed configuration is pending
(armed, not yet read by the consumer) and the next settings delivery fails to parse, the loop
keeps running with the delivery slot disarmed and the pending configuration no longer held:
nothing is delivered until a later settings delivery parses, and the slot is then armed with the
configuration of that later delivery. -/
theorem config_pending_dropped (New : GoMap String String → Except Error Config)
    (s : LoopState) (pending : Config) (m : GoMap String String) (err : Error)
    (_hpending : s.cfg = some pending ∧ s.out = true) (hfail : New m = .error err) :
    loopStep New s (.change (.ok m)) = some (.running { cfg := none, out := false }) ∧
    loopStep New { cfg := none, out := false } .send = none ∧
    delivered { cfg := none, out := false } .send = none ∧
    (∀ m2 cfg2, New m2 = .ok cfg2 →
      loopStep New { cfg := none, out := false } (.change (.ok m2)) =
        some (.running { cfg := some cfg2, out := true })) := by
  refine ⟨by simp [loopStep, hfail], rfl, rfl, ?_⟩
  intro m2 cfg2 h2
  simp [loopStep, h2]

/-- C24, amended, on scenario S6. -/
theorem config_pending_dropped_witness :
    loopStep (fun m => if m.get "name" = none then .error "name missing" else .ok { attrs := m })
      { cfg := some { attrs := [("name", "one")] }, out := true }
      (.change (.ok [("type", "dummy")])) =
      some (.running { cfg := none, out := false }) :=
  (config_pending_dropped
    (fun m => if m.get "name" = none then .error "name missing" else .ok { attrs := m })
    { cfg := some { attrs := [("name", "one")] }, out := true } { attrs := [("name", "one")] }
    [("type", "dummy")] "name missing" ⟨rfl, rfl⟩ rfl).1

end EnvironConfigWatcher

/-! ## Initial snapshots, eviction, ordering and net effect -/

/-- C25, the code at the failing input: the iteration over the collection fails with
"connection lost". `ServicesWatcher.initial`, `ServiceUnitsWatcher.initial` and
`ServiceRelationsWatcher.initial` return a nil error with a nil batch, and
`ServicesWatcher.loop` goes on with the delivery slot armed for an empty initial event;
`MachinesWatcher.initial`, which tests the error it has just read, returns it. -/
theorem initial_error_swallowed :
    ServicesWatcher.initial
      { docs := [{ Name := "wordpress", Life := Life.Alive }], failure := some "connection lost" }
      [] = .ok ([], [("wordpress", Life.Alive)]) ∧
    ServicesWatcher.loopStart
      { docs := [{ Name := "wordpress", Life := Life.Alive }], failure := some "connection lost" } =
      .running { changes := [], out := true, known := [("wordpress", Life.Alive)] } ∧
    ServiceUnitsWatcher.initial { docs := [], failure := some "connection lost" } "wordpress" [] =
      .ok ([], []) ∧
    ServiceRelationsWatcher.initial { docs := [], failure := some "connection lost" }
      "wordpress" [] = .ok ([], []) ∧
    MachinesWatcher.initial { docs := [], failure := some "connection lost" } [] =
      .error "connection lost" :=
  ⟨rfl, rfl, rfl, rfl, rfl⟩

theorem hasInt_iff (l : List Int) (id : Int) : hasInt l id = true ↔ id ∈ l := by
  induction l with
  | nil => simp [hasInt]
  | cons v rest ih =>
    by_cases h : v = id
    · simp [hasInt, h]
    · have h2 : id ≠ v := fun e => h e.symm
      simp [hasInt, h, h2, ih]

/-- C26 as stated fails: `MachinesWatcher.merge` returns at once when the id is pending, also
for a removal, and leaves it in the life map; `ServiceRelationsWatcher.merge` deletes the key of
a relation that is not found only when it appends its id, so a relation last seen Dead stays in
the known map. -/
theorem removal_evicts_counterexample :
    MachinesWatcher.merge { docs := [], failure := none } [(0, Life.Dying)] [0]
      { Id := 0, Revno := -1 } = .ok ([0], [(0, Life.Dying)]) ∧
    GoMap.get [((0 : Int), Life.Dying)] 0 = some Life.Dying ∧
    ServiceRelationsWatcher.merge { docs := [], failure := none }
      [("wordpress:db mysql:server",
        { Key := "wordpress:db mysql:server", Id := 3, Life := Life.Dead,
          Endpoints := ["wordpress", "mysql"] })]
      [] "wordpress:db mysql:server" =
      .ok ([], [("wordpress:db mysql:server",
        { Key := "wordpress:db mysql:server", Id := 3, Life := Life.Dead,
          Endpoints := ["wordpress", "mysql"] })]) ∧
    GoMap.get [("wordpress:db mysql:server",
        ({ Key := "wordpress:db mysql:server", Id := 3, Life := Life.Dead,
           Endpoints := ["wordpress", "mysql"] } : relationDoc))]
      "wordpress:db mysql:server" ≠ none :=
  ⟨rfl, rfl, rfl, by decide⟩

/-- C26, amended: removal evicts from the known set. After `MachinesWatcher.merge` processes a
change with revno `-1` for an id I that is not already pending, I is not a key of the life map;
and after `ServiceRelationsWatcher.merge` processes a key whose relation document is not found
and that was not known, or was known with a `Life` other than Dead and with an id that is not
pending, that key is not in its known map. -/
theorem removal_evicts :
    (∀ (machines : Collection machineDoc) (life : GoMap Int Life) (ids : List Int)
        (ch : Change Int), ch.Revno = -1 → ch.Id ∉ ids →
      ∃ ids1 life1, MachinesWatcher.merge machines life ids ch = .ok (ids1, life1) ∧
        life1.get ch.Id = none) ∧
    (∀ (relations : Collection relationDoc) (known : GoMap String relationDoc)
        (pending : List Int) (key : String),
      relations.FindId relationDoc.Key key = .notFound →
      (∀ old, known.get key = some old → old.Life ≠ Life.Dead ∧ old.Id ∉ pending) →
      ∃ p1 known1, ServiceRelationsWatcher.merge relations known pending key = .ok (p1, known1) ∧
        known1.get key = none) := by
  constructor
  · intro machines life ids ch hr hp
    exact ⟨_, _, MachinesWatcher.merge_removed machines life ids ch hp hr,
      GoMap.get_delete_self _ _⟩
  · intro relations known pending key hf hold
    unfold ServiceRelationsWatcher.merge
    simp only [hf]
    cases hk : known.get key with
    | none => exact ⟨_, _, rfl, hk⟩
    | some old =>
      obtain ⟨h1, h2⟩ := hold old hk
      have h3 : hasInt pending old.Id = false := by
        rw [← Bool.not_eq_true, hasInt_iff]; exact h2
      refine ⟨pending ++ [old.Id], known.delete key, ?_, GoMap.get_delete_self _ _⟩
      simp [h1, h3]

/-- C26, amended, on a machine and a relation that are known, not pending, and gone. -/
theorem removal_evicts_witness :
    MachinesWatcher.merge { docs := [], failure := none } [(0, Life.Dying)] []
      { Id := 0, Revno := -1 } = .ok ([0], []) ∧
    (∃ p1 known1,
      ServiceRelationsWatcher.merge { docs := [], failure := none }
        [("wordpress:db mysql:server",
          { Key := "wordpress:db mysql:server", Id := 3, Life := Life.Dying,
            Endpoints := ["wordpress", "mysql"] })]
        [] "wordpress:db mysql:server" = .ok (p1, known1) ∧
      known1.get "wordpress:db mysql:server" = none) :=
  ⟨rfl,
    removal_evicts.2 { docs := [], failure := none }
      [("wordpress:db mysql:server",
        { Key := "wordpress:db mysql:server", Id := 3, Life := Life.Dying,
          Endpoints := ["wordpress", "mysql"] })]
      [] "wordpress:db mysql:server" rfl
      (by
        intro old h
        simp only [GoMap.get, if_true] at h
        injection h with h
        subst h
        exact ⟨by decide, by simp⟩)⟩

/-- C29: the net-effect invariant of `RelationScopeWatcher`. For every unit name n and every
sequence of `mergeChange` calls accumulated into one pending `RelationScopeChange` that started
empty, the calls succeed, and the occurrences of n in `Entered` minus its occurrences in `Left`
are +1 if n was not known at the start and is known at the end, -1 if it was known and no longer
is, and 0 otherwise. -/
theorem scope_net_effect (unitName : String → String) (w : RelationScopeWatcher)
    (chs : List (Change String)) (n : String) :
    ∃ changes w1,
      RelationScopeWatcher.mergeChanges unitName w { Entered := [], Left := [] } chs =
        .ok (changes, w1) ∧
      (changes.Entered.count n : Int) - changes.Left.count n =
        if w.isKnown n = false ∧ w1.isKnown n = true then 1
        else if w.isKnown n = true ∧ w1.isKnown n = false then -1
        else 0 := by
  obtain ⟨c, w1, hm, hnet, _, _⟩ :=
    RelationScopeWatcher.mergeChanges_net unitName n chs w { Entered := [], Left := [] }
  refine ⟨c, w1, hm, ?_⟩
  simp only [List.count_nil, Nat.cast_zero, sub_zero, zero_sub] at hnet
  cases h1 : w.isKnown n <;> cases h2 : w1.isKnown n <;> simp [h1, h2] at hnet ⊢ <;> omega

/-- The function `remove` leaves a list without `s` as it is. -/
theorem remove_not_mem (strs : List String) (s : String) (h : s ∉ strs) : remove strs s = strs := by
  induction strs with
  | nil => rfl
  | cons v rest ih =>
    simp only [List.mem_cons, not_or] at h
    simp only [remove, h.1, if_false, ih h.2]

/-- The function `remove` on a list that has `s` after a part without it: the last element of
what follows `s` takes its place. -/
theorem remove_first (pre post : List String) (s : String) (h : s ∉ pre) :
    remove (pre ++ s :: post) s =
      pre ++ (match post.getLast? with
        | none => []
        | some last => last :: post.dropLast) := by
  induction pre with
  | nil => simp [remove]
  | cons v rest ih =>
    simp only [List.mem_cons, not_or] at h
    have h2 := ih h.2
    simp only [List.cons_append, remove, h.1, if_false]
    exact congrArg (List.cons v) h2

/-- Removing names that are not in the list, one after the other, leaves the list as it is. -/
theorem foldl_remove_not_mem (names strs : List String) (h : ∀ n ∈ names, n ∉ strs) :
    names.foldl remove strs = strs := by
  induction names with
  | nil => rfl
  | cons n rest ih =>
    simp only [List.foldl]
    rw [remove_not_mem strs n (h n (List.mem_cons_self _ _))]
    exact ih (fun m hm => h m (List.mem_cons_of_mem _ hm))

/-- The first `for` of `mergeScope` removes the entered names from `Departed` one after the
other. -/
theorem mergeEntered_departed (unitName : String → String)
    (readSettings : String → Except Error SettingsNode) (names : List String)
    (changes changes1 : RelationUnitsChange) (w w1 : RelationUnitsWatcher)
    (h : RelationUnitsWatcher.mergeEntered unitName readSettings names (changes, w) =
      .ok (changes1, w1)) :
    changes1.Departed = names.foldl remove changes.Departed := by
  induction names generalizing changes w with
  | nil =>
    simp only [RelationUnitsWatcher.mergeEntered] at h
    injection h with h
    injection h with h1 h2
    subst h1
    rfl
  | cons n rest ih =>
    simp only [RelationUnitsWatcher.mergeEntered] at h
    cases hm : RelationUnitsWatcher.mergeSettings unitName readSettings changes
        (w.sw.scopePrefix ++ n) with
    | error err => simp [hm] at h
    | ok r =>
      obtain ⟨revno, c1⟩ := r
      simp only [hm] at h
      obtain ⟨_, _, _, _, hd, _⟩ := RelationUnitsWatcher.mergeSettings_ok hm
      rw [ih _ _ h]
      simp only [List.foldl, hd]

/-- The second `for` of `mergeScope` removes the left names from `Joined` one after the
other. -/
theorem mergeLeft_joined (names : List String) (changes : RelationUnitsChange)
    (w : RelationUnitsWatcher) :
    (RelationUnitsWatcher.mergeLeft names (changes, w)).1.Joined =
      names.foldl remove changes.Joined := by
  induction names generalizing changes w with
  | nil => rfl
  | cons n rest ih =>
    simp only [RelationUnitsWatcher.mergeLeft, List.foldl]
    rw [ih]

/-- C27 as stated fails: `remove` puts the last element in the place of the one removed, so
"d" comes before "c" afterwards; and a pending `Joined` of "svc/1", "svc/2", "svc/3", in the
order they entered, lists "svc/3" before "svc/2" once "svc/1" has left. -/
theorem remove_order_counterexample :
    remove ["a", "b", "c", "d"] "b" = ["a", "d", "c"] ∧
    RelationUnitsWatcher.mergeScope (fun k => String.mk (k.data.drop 5))
      (fun _ => .error "settings not found")
      { sw := newRelationScopeWatcher "peer" "svc/0", watching := [], calls := [] }
      { Joined := ["svc/1", "svc/2", "svc/3"], Changed := none, Departed := [] }
      { Entered := [], Left := ["svc/1"] } =
      .ok ({ Joined := ["svc/3", "svc/2"], Changed := none, Departed := ["svc/1"] },
           { sw := newRelationScopeWatcher "peer" "svc/0", watching := [],
             calls := [.Unwatch (.name "peer#svc/1")] }) :=
  ⟨rfl, rfl⟩

/-- C27, amended: ordering within a `RelationUnitsWatcher` batch. A successful `mergeScope`
appends the entered names to `Joined` and the left names to `Departed` in the order of the scope
change, so the names appear in the order in which their events were merged, as long as it removes
none from the list: no left name is in the pending `Joined` or in `Entered`, respectively no
entered name is in the pending `Departed`. The function `remove(strs, s)` leaves a list without
`s` as it is; otherwise it cuts the list by one and puts the last element in the place of the
first occurrence of `s`, so that the elements before that place keep their positions and the last
element comes before those that followed `s`. -/
theorem remove_order :
    (∀ (strs : List String) (s : String), s ∉ strs → remove strs s = strs) ∧
    (∀ (pre post : List String) (s : String), s ∉ pre →
      remove (pre ++ s :: post) s =
        pre ++ (match post.getLast? with
          | none => []
          | some last => last :: post.dropLast)) ∧
    (∀ (unitName : String → String) (readSettings : String → Except Error SettingsNode)
        (w w1 : RelationUnitsWatcher) (changes changes1 : RelationUnitsChange)
        (c : RelationScopeChange),
      RelationUnitsWatcher.mergeScope unitName readSettings w changes c = .ok (changes1, w1) →
      ((∀ n ∈ c.Left, n ∉ changes.Joined ∧ n ∉ c.Entered) →
        changes1.Joined = changes.Joined ++ c.Entered) ∧
      ((∀ n ∈ c.Entered, n ∉ changes.Departed) →
        changes1.Departed = changes.Departed ++ c.Left)) := by
  refine ⟨remove_not_mem, remove_first, ?_⟩
  intro unitName readSettings w w1 changes changes1 c h
  unfold RelationUnitsWatcher.mergeScope at h
  cases he : RelationUnitsWatcher.mergeEntered unitName readSettings c.Entered (changes, w) with
  | error err => simp [he] at h
  | ok s =>
    obtain ⟨c1, w2⟩ := s
    simp only [he] at h
    injection h with h
    obtain ⟨e1, _⟩ := RelationUnitsWatcher.mergeEntered_ok _ _ _ _ _ _ _ he
    have e2 := mergeEntered_departed _ _ _ _ _ _ _ he
    have l1 := (RelationUnitsWatcher.mergeLeft_spec c.Left c1 w2).1
    have l2 := mergeLeft_joined c.Left c1 w2
    rw [h] at l1 l2
    simp only at l1 l2
    constructor
    · intro hleft
      rw [l2, e1]
      apply foldl_remove_not_mem
      intro n hn
      rw [List.mem_append, not_or]
      exact hleft n hn
    · intro hent
      rw [l1, e2, foldl_remove_not_mem _ _ hent]

/-- C27, amended, on a scope change in which "svc/2" and "svc/3" enter while "svc/1" is in the
pending `Joined`. -/
theorem remove_order_witness :
    RelationUnitsWatcher.mergeScope (fun k => String.mk (k.data.drop 5))
      (fun k => .ok { txnRevno := 1, map := [("key", k)] })
      { sw := newRelationScopeWatcher "peer" "svc/0", watching := [], calls := [] }
      { Joined := ["svc/1"], Changed := none, Departed := [] }
      { Entered := ["svc/2", "svc/3"], Left := [] } =
      .ok ({ Joined := ["svc/1", "svc/2", "svc/3"],
             Changed := some [("svc/3", { Version := 1, Settings := [("key", "peer#svc/3")] }),
                              ("svc/2", { Version := 1, Settings := [("key", "peer#svc/2")] })],
             Departed := [] },
           { sw := newRelationScopeWatcher "peer" "svc/0",
             watching := [("peer#svc/3", true), ("peer#svc/2", true)],
             calls := [.Watch (.name "peer#svc/2") 1, .Watch (.name "peer#svc/3") 1] }) ∧
    ["svc/1", "svc/2", "svc/3"] = ["svc/1"] ++ ["svc/2", "svc/3"] :=
  ⟨rfl,
    ((remove_order.2.2 (fun k => String.mk (k.data.drop 5))
      (fun k => .ok { txnRevno := 1, map := [("key", k)] })
      { sw := newRelationScopeWatcher "peer" "svc/0", watching := [], calls := [] }
      { sw := newRelationScopeWatcher "peer" "svc/0",
        watching := [("peer#svc/3", true), ("peer#svc/2", true)],
        calls := [.Watch (.name "peer#svc/2") 1, .Watch (.name "peer#svc/3") 1] }
      { Joined := ["svc/1"], Changed := none, Departed := [] }
      { Joined := ["svc/1", "svc/2", "svc/3"],
        Changed := some [("svc/3", { Version := 1, Settings := [("key", "peer#svc/3")] }),
                         ("svc/2", { Version := 1, Settings := [("key", "peer#svc/2")] })],
        Departed := [] }
      { Entered := ["svc/2", "svc/3"], Left := [] } rfl).1
      (fun n hn => by cases hn))⟩

/-! ## MachineUnitsWatcher: termination of merge -/

namespace MachineUnitsWatcher

/-- Counting with a predicate that holds less often gives strictly less, when one element tells
the two predicates apart. -/
theorem countP_lt_of_imp {α : Type} (l : List α) (p q : α → Bool)
    (himp : ∀ x ∈ l, p x = true → q x = true)
    (hex : ∃ x ∈ l, q x = true ∧ p x = false) : l.countP p < l.countP q := by
  induction l with
  | nil =>
    obtain ⟨x, hx, _⟩ := hex
    cases hx
  | cons a rest ih =>
    rw [List.countP_cons, List.countP_cons]
    have hrest : rest.countP p ≤ rest.countP q :=
      List.countP_mono_left (fun x hx => himp x (List.mem_cons_of_mem _ hx))
    obtain ⟨x, hx, hq, hp⟩ := hex
    rcases List.mem_cons.mp hx with rfl | hx2
    · simp only [hq, hp, if_true]
      simp only [Bool.false_eq_true, if_false]
      omega
    · have := ih (fun y hy => himp y (List.mem_cons_of_mem _ hy)) ⟨x, hx2, hq, hp⟩
      by_cases hpa : p a = true
      · simp only [hpa, himp a (List.mem_cons_self _ _) hpa, if_true]
        omega
      · have hpa2 : p a = false := by simpa using hpa
        simp only [hpa2, Bool.false_eq_true, if_false]
        split <;> omega

/-- A query on the units collection that finds a document finds one of the collection, with
the name asked for. -/
theorem units_findId_found {units : Collection unitDoc} {unit : String} {doc : unitDoc}
    (h : units.FindId unitDoc.Name unit = .found doc) : doc ∈ units.docs ∧ doc.Name = unit := by
  unfold Collection.FindId at h
  cases hf : units.failure with
  | some e => simp [hf] at h
  | none =>
    simp only [hf] at h
    cases hd : units.docs.find? (fun d => decide (d.Name = unit)) with
    | none => simp [hd] at h
    | some d =>
      simp only [hd] at h
      injection h with h
      subst h
      exact ⟨List.mem_of_find?_eq_some hd, by simpa using List.find?_some hd⟩

/-- A call that merges only unknown units does not raise the number of documents of the
collection whose unit is not known. -/
theorem unknown_count_le (units : Collection unitDoc) {s s1 : List String × MachineUnitsWatcher}
    (h : mergesOnlyUnknown s s1) :
    (units.docs.map unitDoc.Name).countP (fun n => (s1.2.known.get n).isNone) ≤
      (units.docs.map unitDoc.Name).countP (fun n => (s.2.known.get n).isNone) := by
  apply List.countP_mono_left
  intro n _ hn
  by_contra hne
  have hk : s.2.known.get n ≠ none := by
    intro e
    rw [e] at hne
    exact hne rfl
  rw [h.2.2.1 n hk] at hn
  exact hne hn

/-- The `for` over unit names returns when the calls it makes for unknown units return. -/
theorem mergeUnknown_returns (fuel : Nat) (units : Collection unitDoc)
    (hrec : ∀ w pending unit, w.known.get unit = none →
      (units.docs.map unitDoc.Name).countP (fun n => (w.known.get n).isNone) < fuel →
      ∃ r, merge fuel units w pending unit = some r)
    (names : List String) (s : List String × MachineUnitsWatcher)
    (hs : (units.docs.map unitDoc.Name).countP (fun n => (s.2.known.get n).isNone) < fuel) :
    ∃ r, mergeUnknown (merge fuel units) names s = some r := by
  induction names generalizing s with
  | nil => exact ⟨_, rfl⟩
  | cons unit rest ih =>
    obtain ⟨pending, w⟩ := s
    simp only [mergeUnknown]
    cases hk : w.known.get unit with
    | some life => exact ih _ hs
    | none =>
      obtain ⟨r, hr⟩ := hrec w pending unit hk hs
      simp only [hr]
      cases r with
      | error err => exact ⟨_, rfl⟩
      | ok s1 =>
        simp only
        exact ih s1 (Nat.lt_of_le_of_lt
          (unknown_count_le units (merge_onlyUnknown fuel units w pending unit s1 hk hr)) hs)

/-- Recording a unit that has a document and was not known lowers the number of documents
whose unit is not known. -/
theorem unknown_count_set_lt (units : Collection unitDoc) (known : GoMap String Life)
    (unit : String) (life : Life) (doc : unitDoc)
    (hf : units.FindId unitDoc.Name unit = .found doc) (hk : known.get unit = none) :
    (units.docs.map unitDoc.Name).countP (fun n => ((known.set unit life).get n).isNone) <
      (units.docs.map unitDoc.Name).countP (fun n => (known.get n).isNone) := by
  obtain ⟨hmem, hname⟩ := units_findId_found hf
  apply countP_lt_of_imp
  · intro n _ hn
    by_cases hnu : n = unit
    · subst hnu
      simp [GoMap.get_set_self] at hn
    · rw [GoMap.get_set_ne _ _ hnu] at hn
      exact hn
  · refine ⟨unit, ?_, by simp [hk], by simp [GoMap.get_set_self]⟩
    rw [← hname]
    exact List.mem_map_of_mem _ hmem

/-- Recording the `Life` of a unit does not raise the number of documents whose unit is not
known. -/
theorem unknown_count_set_le (units : Collection unitDoc) (known : GoMap String Life)
    (unit : String) (life : Life) :
    (units.docs.map unitDoc.Name).countP (fun n => ((known.set unit life).get n).isNone) ≤
      (units.docs.map unitDoc.Name).countP (fun n => (known.get n).isNone) := by
  apply List.countP_mono_left
  intro n _ hn
  by_cases hnu : n = unit
  · subst hnu
    simp [GoMap.get_set_self] at hn
  · rw [GoMap.get_set_ne _ _ hnu] at hn
    exact hn

/-- The call `merge` for a unit that is not known returns, when the bound on the depth is
above the number of documents whose unit is not known. -/
theorem merge_returns_unknown (fuel : Nat) (units : Collection unitDoc)
    (w : MachineUnitsWatcher) (pending : List String) (unit : String)
    (hk : w.known.get unit = none)
    (hfuel : (units.docs.map unitDoc.Name).countP (fun n => (w.known.get n).isNone) < fuel) :
    ∃ r, merge fuel units w pending unit = some r := by
  induction fuel generalizing w pending unit with
  | zero => omega
  | succ fuel ih =>
    cases hf : units.FindId unitDoc.Name unit with
    | failed err => exact ⟨_, machineUnits_merge_failed fuel units w pending unit err hf⟩
    | notFound =>
      rw [machineUnits_merge_gone fuel units w pending unit (Or.inl hf), hk]
      exact ⟨_, rfl⟩
    | found doc =>
      by_cases hgone :
          doc.Principal = "" ∧ (doc.MachineId = none ∨ doc.MachineId ≠ some w.machineId)
      · rw [machineUnits_merge_gone fuel units w pending unit (Or.inr ⟨doc, hf, hgone⟩), hk]
        exact ⟨_, rfl⟩
      · rw [machineUnits_merge_assigned fuel units w pending unit doc hf hgone]
        apply mergeUnknown_returns fuel units (fun w2 p2 u2 hk2 h2 => ih w2 p2 u2 hk2 h2)
        have := unknown_count_set_lt units w.known unit doc.Life doc hf hk
        simp only
        omega

/-- The `for` over unit names gives the same result with calls that give the same result
whenever the first ones return. -/
theorem mergeUnknown_mono
    (rec1 rec2 : MachineUnitsWatcher → List String → String →
      Option (Except Error (List String × MachineUnitsWatcher)))
    (hrec : ∀ w pending unit r, rec1 w pending unit = some r → rec2 w pending unit = some r)
    (names : List String) (s : List String × MachineUnitsWatcher)
    (r : Except Error (List String × MachineUnitsWatcher))
    (h : mergeUnknown rec1 names s = some r) : mergeUnknown rec2 names s = some r := by
  induction names generalizing s with
  | nil => exact h
  | cons unit rest ih =>
    obtain ⟨pending, w⟩ := s
    simp only [mergeUnknown] at h ⊢
    cases hk : w.known.get unit with
    | some life =>
      simp only [hk] at h
      exact ih _ h
    | none =>
      simp only [hk] at h
      cases hm : rec1 w pending unit with
      | none => simp [hm] at h
      | some r1 =>
        rw [hrec w pending unit r1 hm]
        simp only [hm] at h
        cases r1 with
        | error err => exact h
        | ok s1 => exact ih s1 h

/-- A call of `merge` that returns within a bound on the depth returns the same within the
next bound. -/
theorem merge_fuel_succ (fuel : Nat) (units : Collection unitDoc) (w : MachineUnitsWatcher)
    (pending : List String) (unit : String)
    (r : Except Error (List String × MachineUnitsWatcher))
    (h : merge fuel units w pending unit = some r) :
    merge (fuel + 1) units w pending unit = some r := by
  induction fuel generalizing w pending unit r with
  | zero => simp [merge] at h
  | succ fuel ih =>
    cases hf : units.FindId unitDoc.Name unit with
    | failed err =>
      rw [machineUnits_merge_failed fuel units w pending unit err hf] at h
      rw [machineUnits_merge_failed (fuel + 1) units w pending unit err hf]
      exact h
    | notFound =>
      rw [machineUnits_merge_gone fuel units w pending unit (Or.inl hf)] at h
      rw [machineUnits_merge_gone (fuel + 1) units w pending unit (Or.inl hf)]
      exact h
    | found doc =>
      by_cases hgone :
          doc.Principal = "" ∧ (doc.MachineId = none ∨ doc.MachineId ≠ some w.machineId)
      · rw [machineUnits_merge_gone fuel units w pending unit (Or.inr ⟨doc, hf, hgone⟩)] at h
        rw [machineUnits_merge_gone (fuel + 1) units w pending unit (Or.inr ⟨doc, hf, hgone⟩)]
        exact h
      · rw [machineUnits_merge_assigned fuel units w pending unit doc hf hgone] at h
        rw [machineUnits_merge_assigned (fuel + 1) units w pending unit doc hf hgone]
        exact mergeUnknown_mono (merge fuel units) (merge (fuel + 1) units)
          (fun w2 p2 u2 r2 h2 => ih w2 p2 u2 r2 h2) _ _ r h

/-- A call of `merge` that returns within a bound on the depth returns the same within every
larger bound. -/
theorem merge_fuel_le (fuel fuel2 : Nat) (units : Collection unitDoc) (w : MachineUnitsWatcher)
    (pending : List String) (unit : String)
    (r : Except Error (List String × MachineUnitsWatcher))
    (h : merge fuel units w pending unit = some r) (hle : fuel ≤ fuel2) :
    merge fuel2 units w pending unit = some r := by
  induction fuel2 with
  | zero =>
    have : fuel = 0 := by omega
    subst this
    exact h
  | succ k ih =>
    by_cases hk : fuel ≤ k
    · exact merge_fuel_succ k units w pending unit r (ih hk)
    · have : fuel = k + 1 := by omega
      subst this
      exact h

/-- The `for` over unit names calls `merge` only for units that are not keys of `known`: two
functions that agree on those calls give the same loop. -/
theorem mergeUnknown_congr
    (rec1 rec2 : MachineUnitsWatcher → List String → String →
      Option (Except Error (List String × MachineUnitsWatcher)))
    (hrec : ∀ w pending unit, w.known.get unit = none → rec1 w pending unit = rec2 w pending unit)
    (names : List String) (s : List String × MachineUnitsWatcher) :
    mergeUnknown rec1 names s = mergeUnknown rec2 names s := by
  induction names generalizing s with
  | nil => rfl
  | cons unit rest ih =>
    obtain ⟨pending, w⟩ := s
    simp only [mergeUnknown]
    cases hk : w.known.get unit with
    | some life => exact ih _
    | none =>
      simp only
      rw [hrec w pending unit hk]
      cases rec2 w pending unit with
      | none => rfl
      | some r =>
        cases r with
        | error err => rfl
        | ok s1 => exact ih s1

/-- C30: `MachineUnitsWatcher.merge` terminates for every finite store, cyclic `Subordinates`
references included. With a bound on the depth of the recursion of at least the number of unit
documents plus two, every call returns, whatever the watcher state, the pending list and the
unit; a call that returns within a bound returns the same within every larger bound. The
recursive calls are those of the `for` over `doc.Subordinates`, which depends on the called
function only at units that are not keys of `known`. And each call either returns without
recursing, the same for every bound, or its unit document is found and the `for` runs from a
state in which `known` already maps the unit to the `Life` of the document. -/
theorem merge_terminates (units : Collection unitDoc) :
    (∀ fuel w pending unit, units.docs.length + 2 ≤ fuel →
      ∃ r, merge fuel units w pending unit = some r) ∧
    (∀ fuel fuel2 w pending unit r, merge fuel units w pending unit = some r → fuel ≤ fuel2 →
      merge fuel2 units w pending unit = some r) ∧
    (∀ rec1 rec2 : MachineUnitsWatcher → List String → String →
        Option (Except Error (List String × MachineUnitsWatcher)),
      (∀ w pending unit, w.known.get unit = none → rec1 w pending unit = rec2 w pending unit) →
      ∀ names s, mergeUnknown rec1 names s = mergeUnknown rec2 names s) ∧
    (∀ w pending unit,
      (∃ r, ∀ fuel, merge (fuel + 1) units w pending unit = some r) ∨
      (∃ doc pending1 w1, units.FindId unitDoc.Name unit = .found doc ∧
        w1.known = w.known.set unit doc.Life ∧ w1.known.get unit = some doc.Life ∧
        ∀ fuel, merge (fuel + 1) units w pending unit =
          mergeUnknown (merge fuel units) doc.Subordinates (pending1, w1))) := by
  refine ⟨?_, ?_, ?_, ?_⟩
  · intro fuel w pending unit hfuel
    obtain ⟨f, rfl⟩ : ∃ f, fuel = f + 1 := ⟨fuel - 1, by omega⟩
    have hlen : ∀ known : GoMap String Life,
        (units.docs.map unitDoc.Name).countP (fun n => (known.get n).isNone) < f := by
      intro known
      have h1 := List.countP_le_length (fun n => (known.get n).isNone)
        (l := units.docs.map unitDoc.Name)
      rw [List.length_map] at h1
      omega
    cases hf : units.FindId unitDoc.Name unit with
    | failed err => exact ⟨_, machineUnits_merge_failed f units w pending unit err hf⟩
    | notFound =>
      rw [machineUnits_merge_gone f units w pending unit (Or.inl hf)]
      cases w.known.get unit with
      | none => exact ⟨_, rfl⟩
      | some life => exact ⟨_, rfl⟩
    | found doc =>
      by_cases hgone :
          doc.Principal = "" ∧ (doc.MachineId = none ∨ doc.MachineId ≠ some w.machineId)
      · rw [machineUnits_merge_gone f units w pending unit (Or.inr ⟨doc, hf, hgone⟩)]
        cases w.known.get unit with
        | none => exact ⟨_, rfl⟩
        | some life => exact ⟨_, rfl⟩
      · rw [machineUnits_merge_assigned f units w pending unit doc hf hgone]
        exact mergeUnknown_returns f units
          (fun w2 p2 u2 hk2 h2 => merge_returns_unknown f units w2 p2 u2 hk2 h2) _ _ (hlen _)
  · intro fuel fuel2 w pending unit r h hle
    exact merge_fuel_le fuel fuel2 units w pending unit r h hle
  · intro rec1 rec2 hrec names s
    exact mergeUnknown_congr rec1 rec2 hrec names s
  · intro w pending unit
    cases hf : units.FindId unitDoc.Name unit with
    | failed err =>
      exact Or.inl ⟨_, fun fuel => machineUnits_merge_failed fuel units w pending unit err hf⟩
    | notFound =>
      left
      cases hk : w.known.get unit with
      | none =>
        refine ⟨.ok (pending, w), fun fuel => ?_⟩
        rw [machineUnits_merge_gone fuel units w pending unit (Or.inl hf), hk]
      | some life =>
        refine ⟨.ok (removeSubordinates
          ((units.FindId unitDoc.Name unit).into zeroUnitDoc).Subordinates
          (if life ≠ Life.Dead ∧ hasString pending unit = false then pending ++ [unit]
            else pending,
           { w with known := w.known.delete unit,
                    calls := w.calls ++ [.Unwatch (.name unit)] })), fun fuel => ?_⟩
        rw [machineUnits_merge_gone fuel units w pending unit (Or.inl hf), hk]
    | found doc =>
      by_cases hgone :
          doc.Principal = "" ∧ (doc.MachineId = none ∨ doc.MachineId ≠ some w.machineId)
      · left
        cases hk : w.known.get unit with
        | none =>
          refine ⟨.ok (pending, w), fun fuel => ?_⟩
          rw [machineUnits_merge_gone fuel units w pending unit (Or.inr ⟨doc, hf, hgone⟩), hk]
        | some life =>
          refine ⟨.ok (removeSubordinates
            ((units.FindId unitDoc.Name unit).into zeroUnitDoc).Subordinates
            (if life ≠ Life.Dead ∧ hasString pending unit = false then pending ++ [unit]
              else pending,
             { w with known := w.known.delete unit,
                      calls := w.calls ++ [.Unwatch (.name unit)] })), fun fuel => ?_⟩
          rw [machineUnits_merge_gone fuel units w pending unit (Or.inr ⟨doc, hf, hgone⟩), hk]
      · right
        exact ⟨doc, _, _, rfl, rfl, GoMap.get_set_self _ _ _,
          fun fuel => machineUnits_merge_assigned fuel units w pending unit doc hf hgone⟩

/-- Witness for C30 on cyclic stores: a unit that lists itself as a subordinate, and two units
that list each other; with the bound of the theorem the calls return, each unit merged once. -/
theorem merge_terminates_witness :
    ((1 + 2 ≤ 3 ∧ ∃ r, merge 3
        { docs := [{ Name := "u/0", Service := "u", Principal := "", Subordinates := ["u/0"],
                     MachineId := some 0, Life := Life.Alive, TxnRevno := 1 }],
          failure := none }
        { machineId := 0, known := [], calls := [] } [] "u/0" = some r) ∧
      merge 3
        { docs := [{ Name := "u/0", Service := "u", Principal := "", Subordinates := ["u/0"],
                     MachineId := some 0, Life := Life.Alive, TxnRevno := 1 }],
          failure := none }
        { machineId := 0, known := [], calls := [] } [] "u/0" =
        some (.ok (["u/0"],
          { machineId := 0, known := [("u/0", Life.Alive)],
            calls := [.Watch (.name "u/0") 1] }))) ∧
    ((2 + 2 ≤ 4 ∧ ∃ r, merge 4
        { docs := [{ Name := "u/0", Service := "u", Principal := "", Subordinates := ["v/0"],
                     MachineId := some 0, Life := Life.Alive, TxnRevno := 1 },
                   { Name := "v/0", Service := "v", Principal := "u/0", Subordinates := ["u/0"],
                     MachineId := none, Life := Life.Alive, TxnRevno := 2 }],
          failure := none }
        { machineId := 0, known := [], calls := [] } [] "u/0" = some r) ∧
      (merge 4
        { docs := [{ Name := "u/0", Service := "u", Principal := "", Subordinates := ["v/0"],
                     MachineId := some 0, Life := Life.Alive, TxnRevno := 1 },
                   { Name := "v/0", Service := "v", Principal := "u/0", Subordinates := ["u/0"],
                     MachineId := none, Life := Life.Alive, TxnRevno := 2 }],
          failure := none }
        { machineId := 0, known := [], calls := [] } [] "u/0").map
          (fun r => r.toOption.map (fun s => s.1)) = some (some ["u/0", "v/0"])) :=
  ⟨⟨⟨by decide, (merge_terminates _).1 3 _ [] "u/0" (by decide)⟩, by rfl⟩,
   ⟨⟨by decide, (merge_terminates _).1 4 _ [] "u/0" (by decide)⟩, by rfl⟩⟩

end MachineUnitsWatcher

/-! ## MachinePrincipalUnitsWatcher: mergeChange -/

namespace GoMap

variable {K V : Type} [DecidableEq K]

/-- Deleting a key that the map does not have leaves the map as it is. -/
theorem delete_of_get_none (m : GoMap K V) (k : K) (h : m.get k = none) : m.delete k = m := by
  induction m with
  | nil => rfl
  | cons p rest ih =>
    rw [get_cons] at h
    by_cases hp : p.1 = k
    · rw [if_pos hp] at h
      cases h
    · rw [if_neg hp] at h
      rw [delete_cons, if_neg hp, ih h]

/-- The key of an entry of the map is a key that `get` finds. -/
theorem get_ne_none_of_mem (m : GoMap K V) (p : K × V) (h : p ∈ m) : m.get p.1 ≠ none := by
  induction m with
  | nil => cases h
  | cons q rest ih =>
    rw [get_cons]
    by_cases hq : q.1 = p.1
    · rw [if_pos hq]
      exact Option.some_ne_none _
    · rw [if_neg hq]
      rcases List.mem_cons.mp h with e | h2
      · exact absurd (by rw [e]) hq
      · exact ih h2

/-- The value that `get` finds under a key is the value of an entry of the map. -/
theorem mem_of_get (m : GoMap K V) (k : K) (v : V) (h : m.get k = some v) : (k, v) ∈ m := by
  induction m with
  | nil => cases h
  | cons q rest ih =>
    rw [get_cons] at h
    by_cases hq : q.1 = k
    · rw [if_pos hq] at h
      injection h with h
      have : q = (k, v) := Prod.ext hq h
      rw [this]
      exact List.mem_cons_self _ _
    · rw [if_neg hq] at h
      exact List.mem_cons_of_mem _ (ih h)

/-- Reading a map that starts with entries computed from their keys. -/
theorem get_map_append (l : List K) (f : K → V) (b : GoMap K V) (k : K) :
    get (l.map (fun n => (n, f n)) ++ b) k = if k ∈ l then some (f k) else get b k := by
  induction l with
  | nil => simp
  | cons a rest ih =>
    rw [List.map_cons, List.cons_append, get_cons, ih]
    by_cases ha : a = k
    · subst ha
      simp
    · have hk : k ≠ a := fun e => ha e.symm
      simp [ha, hk]

end GoMap

namespace MachinePrincipalUnitsWatcher

variable {U : Type}

/-- The first `for` of `mergeChange`, when it returns no error: the names `fresh` for which it
has made a unit are the names of the list that were not known and have a document, each once
and in the order of the list; their units are appended to `Added` and entered in `knownUnits`;
and the local map `units` has gained the names of the list that were known or have a
document. -/
theorem mergePrincipals_spec (newUnit : unitDoc → U) (stUnits : Collection unitDoc)
    (names : List String) (units units1 : GoMap String (Option U))
    (changes changes1 : MachinePrincipalUnitsChange U) (w w1 : MachinePrincipalUnitsWatcher U)
    (h : mergePrincipals newUnit stUnits names (units, changes, w) =
      .ok (units1, changes1, w1)) :
    ∃ fresh : List String,
      fresh.Sublist names ∧ fresh.Nodup ∧
      (∀ n, n ∈ fresh ↔ n ∈ names ∧ w.knownUnits.get n = none ∧
        ∃ doc, stUnits.FindId unitDoc.Name n = .found doc) ∧
      changes1.Added = changes.Added ++
        fresh.map (fun n => newUnit ((stUnits.FindId unitDoc.Name n).into zeroUnitDoc)) ∧
      changes1.Removed = changes.Removed ∧
      w1.knownUnits =
        fresh.reverse.map
          (fun n => (n, newUnit ((stUnits.FindId unitDoc.Name n).into zeroUnitDoc))) ++
        w.knownUnits ∧
      (∀ n, units1.get n ≠ none ↔ units.get n ≠ none ∨
        (n ∈ names ∧ (w.knownUnits.get n ≠ none ∨
          ∃ doc, stUnits.FindId unitDoc.Name n = .found doc))) := by
  induction names generalizing units changes w with
  | nil =>
    simp only [mergePrincipals] at h
    injection h with h
    injection h with h1 h2
    injection h2 with h2 h3
    subst h1 h2 h3
    exact ⟨[], List.Sublist.refl _, List.nodup_nil, by simp, by simp, rfl, by simp, by simp⟩
  | cons name rest ih =>
    cases hk : w.knownUnits.get name with
    | some u =>
      simp only [mergePrincipals, hk] at h
      obtain ⟨fresh, hsub, hnd, hmem, hadd, hrem, hkn, hun⟩ := ih _ _ _ h
      refine ⟨fresh, hsub.cons _, hnd, ?_, hadd, hrem, hkn, ?_⟩
      · intro n
        rw [hmem n]
        constructor
        · rintro ⟨h1, h2, h3⟩
          exact ⟨List.mem_cons_of_mem _ h1, h2, h3⟩
        · rintro ⟨h1, h2, h3⟩
          rcases List.mem_cons.mp h1 with e | h1
          · rw [e, hk] at h2
            cases h2
          · exact ⟨h1, h2, h3⟩
      · intro n
        rw [hun n]
        by_cases hn : n = name
        · subst hn
          rw [GoMap.get_set_self]
          simp [hk]
        · rw [GoMap.get_set_ne _ _ hn]
          simp [hn]
    | none =>
      cases hf : stUnits.FindId unitDoc.Name name with
      | failed err =>
        simp only [mergePrincipals, hk, hf] at h
        cases h
      | notFound =>
        simp only [mergePrincipals, hk, hf] at h
        obtain ⟨fresh, hsub, hnd, hmem, hadd, hrem, hkn, hun⟩ := ih _ _ _ h
        refine ⟨fresh, hsub.cons _, hnd, ?_, hadd, hrem, hkn, ?_⟩
        · intro n
          rw [hmem n]
          constructor
          · rintro ⟨h1, h2, h3⟩
            exact ⟨List.mem_cons_of_mem _ h1, h2, h3⟩
          · rintro ⟨h1, h2, doc, h3⟩
            rcases List.mem_cons.mp h1 with e | h1
            · rw [e, hf] at h3
              cases h3
            · exact ⟨h1, h2, doc, h3⟩
        · intro n
          rw [hun n]
          by_cases hn : n = name
          · subst hn
            simp [hk, hf]
          · simp [hn]
      | found doc =>
        simp only [mergePrincipals, hk, hf] at h
        obtain ⟨fresh, hsub, hnd, hmem, hadd, hrem, hkn, hun⟩ := ih _ _ _ h
        have hnot : name ∉ fresh := by
          intro hin
          have h2 := ((hmem name).mp hin).2.1
          rw [GoMap.get_set_self] at h2
          cases h2
        refine ⟨name :: fresh, hsub.cons₂ _, List.nodup_cons.mpr ⟨hnot, hnd⟩, ?_, ?_, hrem,
          ?_, ?_⟩
        · intro n
          by_cases hn : n = name
          · subst hn
            simp [hk, hf]
          · rw [List.mem_cons, hmem n, GoMap.get_set_ne _ _ hn]
            simp [hn]
        · rw [hadd, List.map_cons, hf]
          simp [FindResult.into]
        · rw [hkn, List.reverse_cons, List.map_append, List.map_cons, List.map_nil, hf,
            List.append_assoc]
          simp only [FindResult.into, List.singleton_append, GoMap.set]
          rw [GoMap.delete_of_get_none _ _ hk]
        · intro n
          rw [hun n]
          by_cases hn : n = name
          · subst hn
            rw [GoMap.get_set_self]
            simp [hf]
          · rw [GoMap.get_set_ne _ _ hn, GoMap.get_set_ne _ _ hn]
            simp [hn]

/-- The second `for` of `mergeChange`: it leaves `Added` as it is, appends to `Removed` the
units of the visited entries whose name is not a key of `units`, and deletes those names and
no other. -/
theorem removeUnlisted_spec (units : GoMap String (Option U)) (entries : List (String × U))
    (changes : MachinePrincipalUnitsChange U) (w : MachinePrincipalUnitsWatcher U) :
    (removeUnlisted units entries (changes, w)).1.Added = changes.Added ∧
    (removeUnlisted units entries (changes, w)).1.Removed =
      changes.Removed ++
        (entries.filter (fun kv => (units.get kv.1).isNone)).map Prod.snd ∧
    (∀ n, n ∈ entries.map Prod.fst → units.get n = none →
      (removeUnlisted units entries (changes, w)).2.knownUnits.get n = none) ∧
    (∀ n, units.get n ≠ none ∨ n ∉ entries.map Prod.fst →
      (removeUnlisted units entries (changes, w)).2.knownUnits.get n = w.knownUnits.get n) := by
  induction entries generalizing changes w with
  | nil =>
    refine ⟨rfl, ?_, ?_, ?_⟩
    · simp [removeUnlisted]
    · intro n hn
      cases hn
    · intro n _
      rfl
  | cons kv rest ih =>
    obtain ⟨name, unit⟩ := kv
    cases hu : units.get name with
    | some v =>
      simp only [removeUnlisted, hu]
      obtain ⟨h1, h2, h3, h4⟩ := ih changes w
      refine ⟨h1, ?_, ?_, ?_⟩
      · rw [h2, List.filter_cons]
        simp [hu]
      · intro n hn hnone
        rcases List.mem_cons.mp hn with e | hn
        · simp only at e
          rw [e, hu] at hnone
          cases hnone
        · exact h3 n hn hnone
      · intro n hn
        apply h4 n
        rcases hn with hn | hn
        · exact Or.inl hn
        · exact Or.inr (fun hin => hn (List.mem_cons_of_mem _ hin))
    | none =>
      simp only [removeUnlisted, hu]
      obtain ⟨h1, h2, h3, h4⟩ := ih
        { changes with Removed := changes.Removed ++ [unit] }
        { w with knownUnits := w.knownUnits.delete name }
      refine ⟨h1, ?_, ?_, ?_⟩
      · rw [h2, List.filter_cons]
        simp [hu]
      · intro n hn hnone
        by_cases hin : n ∈ rest.map Prod.fst
        · exact h3 n hin hnone
        · rcases List.mem_cons.mp hn with e | hn
          · simp only at e
            rw [h4 n (Or.inr hin), e]
            exact GoMap.get_delete_self _ _
          · exact absurd hn hin
      · intro n hn
        have hne : n ≠ name := by
          intro e
          rcases hn with hn | hn
          · rw [e] at hn
            exact hn hu
          · rw [e] at hn
            exact hn (List.mem_cons_self _ _)
        have hrest : units.get n ≠ none ∨ n ∉ rest.map Prod.fst := by
          rcases hn with hn | hn
          · exact Or.inl hn
          · exact Or.inr (fun hin => hn (List.mem_cons_of_mem _ hin))
        rw [h4 n hrest]
        exact GoMap.get_delete_ne _ hne

/-- C31: `MachinePrincipalUnitsWatcher.mergeChange` reconciles `knownUnits` with the principals
of the refreshed machine. After a call that returns no error, the keys of `knownUnits` are
exactly the names of `Principals` that were known before or whose unit document is found.
`Added` has gained the units made from the documents of the names `fresh`, which are exactly
the names of `Principals` that were not known and whose document is found, in the order of
`Principals` and each once, and `knownUnits` maps each of them to its unit. `Removed` has gained
exactly the units of the entries that `knownUnits` had before whose names are not in
`Principals`, in the order in which the range visits them. And a name of `Principals` that was
known keeps its unit. -/
theorem mergeChange_reconciles (newUnit : unitDoc → U) (stUnits : Collection unitDoc)
    (principals : List String) (w w1 : MachinePrincipalUnitsWatcher U)
    (changes changes1 : MachinePrincipalUnitsChange U)
    (h : mergeChange newUnit stUnits (.ok principals) w changes = .ok (changes1, w1)) :
    (∀ n, w1.knownUnits.get n ≠ none ↔
      n ∈ principals ∧ (w.knownUnits.get n ≠ none ∨
        ∃ doc, stUnits.FindId unitDoc.Name n = .found doc)) ∧
    (∃ fresh : List String, fresh.Sublist principals ∧ fresh.Nodup ∧
      (∀ n, n ∈ fresh ↔ n ∈ principals ∧ w.knownUnits.get n = none ∧
        ∃ doc, stUnits.FindId unitDoc.Name n = .found doc) ∧
      changes1.Added = changes.Added ++
        fresh.map (fun n => newUnit ((stUnits.FindId unitDoc.Name n).into zeroUnitDoc)) ∧
      ∀ n ∈ fresh, w1.knownUnits.get n =
        some (newUnit ((stUnits.FindId unitDoc.Name n).into zeroUnitDoc))) ∧
    changes1.Removed = changes.Removed ++
      (w.knownUnits.filter (fun kv => decide (kv.1 ∉ principals))).map Prod.snd ∧
    (∀ n u, n ∈ principals → w.knownUnits.get n = some u → w1.knownUnits.get n = some u) := by
  cases hm : mergePrincipals newUnit stUnits principals ([], changes, w) with
  | error err =>
    simp only [mergeChange, hm] at h
    cases h
  | ok r =>
    obtain ⟨units1, changes2, w2⟩ := r
    simp only [mergeChange, hm] at h
    injection h with h
    obtain ⟨fresh, hsub, hnd, hmem, hadd, hrem, hkn, hun⟩ :=
      mergePrincipals_spec newUnit stUnits principals [] units1 changes changes2 w w2 hm
    obtain ⟨r1, r2, r3, r4⟩ := removeUnlisted_spec units1 w2.knownUnits changes2 w2
    rw [h] at r1 r2 r3 r4
    simp only at r1 r2 r3 r4
    have hun2 : ∀ n, units1.get n ≠ none ↔
        n ∈ principals ∧ (w.knownUnits.get n ≠ none ∨
          ∃ doc, stUnits.FindId unitDoc.Name n = .found doc) := by
      intro n
      rw [hun n]
      simp [GoMap.get]
    have hk2 : ∀ n, w2.knownUnits.get n =
        if n ∈ fresh then some (newUnit ((stUnits.FindId unitDoc.Name n).into zeroUnitDoc))
        else w.knownUnits.get n := by
      intro n
      rw [hkn, GoMap.get_map_append]
      simp only [List.mem_reverse]
    have hfresh : ∀ n, n ∈ fresh → units1.get n ≠ none := by
      intro n hn
      have h3 := (hmem n).mp hn
      exact (hun2 n).mpr ⟨h3.1, Or.inr h3.2.2⟩
    refine ⟨?_, ⟨fresh, hsub, hnd, hmem, ?_, ?_⟩, ?_, ?_⟩
    · intro n
      rw [← hun2 n]
      constructor
      · intro hne hnone
        by_cases hin : n ∈ w2.knownUnits.map Prod.fst
        · exact hne (r3 n hin hnone)
        · rw [r4 n (Or.inr hin)] at hne
          cases hg : w2.knownUnits.get n with
          | none => exact hne hg
          | some v => exact hin (List.mem_map_of_mem Prod.fst (GoMap.mem_of_get _ n v hg))
      · intro hu
        rw [r4 n (Or.inl hu), hk2 n]
        by_cases hin : n ∈ fresh
        · rw [if_pos hin]
          exact Option.some_ne_none _
        · rw [if_neg hin]
          intro hnone
          obtain ⟨hp, hor⟩ := (hun2 n).mp hu
          rcases hor with hknown | hfound
          · exact hknown hnone
          · exact hin ((hmem n).mpr ⟨hp, hnone, hfound⟩)
    · rw [r1, hadd]
    · intro n hn
      rw [r4 n (Or.inl (hfresh n hn)), hk2 n, if_pos hn]
    · rw [r2, hrem, hkn, List.filter_append]
      have hnil : List.filter (fun kv : String × U => (units1.get kv.1).isNone)
          (fresh.reverse.map
            (fun n => (n, newUnit ((stUnits.FindId unitDoc.Name n).into zeroUnitDoc)))) = [] := by
        rw [List.filter_eq_nil_iff]
        intro kv hkv
        obtain ⟨n, hn, rfl⟩ := List.mem_map.mp hkv
        have h3 := hfresh n (List.mem_reverse.mp hn)
        cases hg : units1.get n with
        | none => exact absurd hg h3
        | some v => simp [hg]
      have hold : List.filter (fun kv : String × U => (units1.get kv.1).isNone) w.knownUnits =
          List.filter (fun kv => decide (kv.1 ∉ principals)) w.knownUnits := by
        apply List.filter_congr
        intro kv hkv
        have hknown := GoMap.get_ne_none_of_mem w.knownUnits kv hkv
        by_cases hp : kv.1 ∈ principals
        · have h3 := (hun2 kv.1).mpr ⟨hp, Or.inl hknown⟩
          cases hg : units1.get kv.1 with
          | none => exact absurd hg h3
          | some v => simp [hp]
        · have h3 : units1.get kv.1 = none := by
            by_contra hne
            exact hp ((hun2 kv.1).mp hne).1
          simp [h3, hp]
      rw [hnil, hold, List.nil_append]
    · intro n u hp hg
      have hknown : w.knownUnits.get n ≠ none := by
        rw [hg]
        exact Option.some_ne_none _
      have hu : units1.get n ≠ none := (hun2 n).mpr ⟨hp, Or.inl hknown⟩
      have hin : n ∉ fresh := by
        intro hin
        have h3 := ((hmem n).mp hin).2.1
        rw [hg] at h3
        cases h3
      rw [r4 n (Or.inl hu), hk2 n, if_neg hin, hg]

/-- Witness for C31: the machine has the principals a/0, c/0, b/0 and k/0, of which a/0 and b/0
have a document and c/0 has none, and the watcher knows k/0, z/0 and y/0. The call adds a/0 and
b/0, removes z/0 and y/0, and leaves a/0, b/0 and k/0 known. -/
theorem mergeChange_reconciles_witness :
    mergeChange unitDoc.Name
        { docs := [{ Name := "a/0", Service := "a", Principal := "", Subordinates := [],
                     MachineId := some 0, Life := Life.Alive, TxnRevno := 1 },
                   { Name := "b/0", Service := "b", Principal := "", Subordinates := [],
                     MachineId := some 0, Life := Life.Alive, TxnRevno := 1 }],
          failure := none }
        (.ok ["a/0", "c/0", "b/0", "k/0"])
        { knownUnits := [("k/0", "k/0"), ("z/0", "z/0"), ("y/0", "y/0")] }
        { Added := [], Removed := [] } =
      .ok ({ Added := ["a/0", "b/0"], Removed := ["z/0", "y/0"] },
           { knownUnits := [("b/0", "b/0"), ("a/0", "a/0"), ("k/0", "k/0")] }) ∧
    ["z/0", "y/0"] = [] ++
      (List.filter (fun kv : String × String => decide (kv.1 ∉ ["a/0", "c/0", "b/0", "k/0"]))
        [("k/0", "k/0"), ("z/0", "z/0"), ("y/0", "y/0")]).map Prod.snd :=
  ⟨rfl,
   (mergeChange_reconciles unitDoc.Name
      { docs := [{ Name := "a/0", Service := "a", Principal := "", Subordinates := [],
                   MachineId := some 0, Life := Life.Alive, TxnRevno := 1 },
                 { Name := "b/0", Service := "b", Principal := "", Subordinates := [],
                   MachineId := some 0, Life := Life.Alive, TxnRevno := 1 }],
        failure := none }
      ["a/0", "c/0", "b/0", "k/0"]
      { knownUnits := [("k/0", "k/0"), ("z/0", "z/0"), ("y/0", "y/0")] }
      { knownUnits := [("b/0", "b/0"), ("a/0", "a/0"), ("k/0", "k/0")] }
      { Added := [], Removed := [] }
      { Added := ["a/0", "b/0"], Removed := ["z/0", "y/0"] } rfl).2.2.1⟩

end MachinePrincipalUnitsWatcher

end state
